import Mathlib

/-!
# Buffer cache of kernel/bio.c

A shallow embedding of the hashed buffer cache (`bcache`, `binit`, `bget`, `bread`,
`bwrite`, `brelse`, `bpin`, `bunpin`) and proofs about it.

Representation choices.
* Pointers into `bcache.buf` and `bcache.nodes` are indices (`Nat`); a null pointer is `none`.
* `binit` stores `n->buf = &bcache.buf[i]` into `bcache.nodes[i]` and nothing writes that field
  again, so node `i` and buffer `i` share the index `i` and the field is not stored.
* `buf.h`, `param.h`, `spinlock.c`, `sleeplock.c` and `virtio_disk.c` are not part of the sources
  at hand.  `NBUF` is a parameter.  The fields `dev`, `blockno`, `refcnt`, `last_use` are 32-bit
  unsigned (`uint`), as are `ticks` and the local `min_time`; arithmetic on them is taken
  modulo `2^32`.
* A list traversal `for (n = head; n != 0; n = n->next)` is given `NBUF` steps of fuel: there
  are only `NBUF` nodes, so a traversal that meets an `NBUF+1`-st node has met one twice and
  never ends.
-/

namespace Bio

/-- The constant `#define BUCKET_NUM 13`. -/
def BUCKET_NUM : Nat := 13

/-- The value of `(uint)-1`, which `min_time` is initialised to and compared with. -/
def UINT_MAX : Nat := 4294967295

/-- The modulus of `uint` arithmetic. -/
def UINT_MOD : Nat := 4294967296

/-- Modelled from the spec: `struct buf` (buf.h is not among the sources).  `lock` is the content
sleep-lock: `none` when free, `some pid` when held by process `pid`.  `data` stands for the
block content. -/
structure buf where
  valid : Nat
  dev : Nat
  blockno : Nat
  lock : Option Nat
  refcnt : Nat
  last_use : Nat
  data : Nat
deriving DecidableEq

/-- The `struct node` of bio.c; `prev` and `next` are node indices. -/
structure node where
  prev : Option Nat
  next : Option Nat
deriving DecidableEq

/-- The `struct bucket` of bio.c, without its spinlock (see `lock_ev`). -/
structure bucket where
  head : Option Nat
  tail : Option Nat
deriving DecidableEq

/-- The global `bcache`: the buffers, their nodes and the buckets. -/
structure bcache where
  buf : Nat → buf
  nodes : Nat → node
  buckets : Nat → bucket

/-- Array store `a[i] = v`. -/
def upd {α : Type} (a : Nat → α) (i : Nat) (v : α) : Nat → α :=
  fun j => if j = i then v else a j

/-- The spinlocks of the cache: `bcache.lock` and `bcache.buckets[i].lock`. -/
inductive lockid where
  | global
  | bkt (i : Nat)
deriving DecidableEq

/-- One spinlock operation: `acquire(&l)` or `release(&l)`. -/
inductive lock_ev where
  | acq (l : lockid)
  | rel (l : lockid)
deriving DecidableEq

/-- The three `panic` calls of bio.c, and the trap of a null dereference. -/
inductive fault where
  | no_buffers
  | brelse
  | bwrite
  | null_deref
deriving DecidableEq

/-- How a call ends. -/
inductive status where
  | ret (b : Nat)
  | done
  | sleeps (b : Nat)
  | panic (f : fault)
  | hang
deriving DecidableEq

/-- The result of a call on the cache: how it ended, the cache it leaves, and the spinlock
operations it performed, in order. -/
structure outcome where
  st : status
  cache : bcache
  locks : List lock_ev

/-- The function `get_key`: `(((uint64)dev << 32) | (uint64)blockno) % BUCKET_NUM`. -/
def get_key (dev blockno : Nat) : Nat :=
  ((dev <<< 32) ||| blockno) % BUCKET_NUM

/-- Storage before `binit` runs: the zero-filled `.bss`. -/
def zero_storage : bcache where
  buf := fun _ => ⟨0, 0, 0, none, 0, 0, 0⟩
  nodes := fun _ => ⟨none, none⟩
  buckets := fun _ => ⟨none, none⟩

/-- The body of the second loop of `binit` for index `i` (lines 74-92).  When `bucket->head` is
set, `bucket->tail` is set too, since the loop sets them together; the store through a null
`bucket->tail` is left out. -/
def binit_slot (c : bcache) (i : Nat) : bcache :=
  let b : buf := { c.buf i with lock := none, refcnt := 0, last_use := 0 }
  let nodes0 := upd c.nodes i ⟨none, none⟩
  let key := get_key b.dev b.blockno
  match (c.buckets key).head with
  | some _ =>
    let nodes1 := match (c.buckets key).tail with
      | some t => upd nodes0 t { nodes0 t with next := some i }
      | none => nodes0
    { buf := upd c.buf i b
      nodes := upd nodes1 i { nodes1 i with prev := (c.buckets key).tail }
      buckets := upd c.buckets key { c.buckets key with tail := some i } }
  | none =>
    { buf := upd c.buf i b
      nodes := nodes0
      buckets := upd c.buckets key ⟨some i, some i⟩ }

/-- The function `binit` run on storage `c`: clear the buckets, then link every slot. -/
def binit (NBUF : Nat) (c : bcache) : bcache :=
  (List.range NBUF).foldl binit_slot
    { c with buckets := fun k => if k < BUCKET_NUM then ⟨none, none⟩ else c.buckets k }

/-- The cache right after boot: `binit` on zero-filled storage. -/
def boot (NBUF : Nat) : bcache := binit NBUF zero_storage

/-- The loop `for(n = bucket->head; n != 0; n = n->next)` of lines 111-120 and 127-136, started
at `n` with the given fuel: `some (some b)` when buffer `b` matches, `some none` when the list
ends without a match, `none` when the fuel runs out. -/
def lookup (c : bcache) (dev blockno : Nat) : Nat → Option Nat → Option (Option Nat)
  | _, none => some none
  | 0, some _ => none
  | f + 1, some n =>
    if (c.buf n).dev = dev ∧ (c.buf n).blockno = blockno then some (some n)
    else lookup c dev blockno f (c.nodes n).next

/-- Modelled from the spec: `acquiresleep(&b->lock)` by process `pid` (sleeplock.c is not among
the sources): takes a free lock, and does not return while the lock is held. -/
def acquiresleep (c : bcache) (pid b : Nat) : Option bcache :=
  match (c.buf b).lock with
  | none => some { c with buf := upd c.buf b { c.buf b with lock := some pid } }
  | some _ => none

/-- The body of a hit (lines 114-118 and 130-134): `refcnt++`, `last_use = ticks`, then the
content lock. -/
def hit (c : bcache) (pid ticks b : Nat) (locks : List lock_ev) : outcome :=
  let b1 : buf :=
    { c.buf b with refcnt := ((c.buf b).refcnt + 1) % UINT_MOD, last_use := ticks % UINT_MOD }
  let c1 : bcache := { c with buf := upd c.buf b b1 }
  match acquiresleep c1 pid b with
  | some c2 => ⟨.ret b, c2, locks⟩
  | none => ⟨.sleeps b, c1, locks⟩

/-- The local variables of the eviction scan (lines 138-161) and the spinlock trace so far. -/
structure scan where
  min_time : Nat
  min_n : Option Nat
  min_bucket : Option Nat
  replaced : Bool
  locks : List lock_ev

/-- The body of the inner loop of the eviction scan (lines 147-156) at node `n` of bucket `i`.
`min_time == -1` compares the `uint` with `(uint)-1`. -/
def scan_visit (c : bcache) (i n : Nat) (v : scan) : scan :=
  if (c.buf n).refcnt = 0 ∧ (v.min_time = UINT_MAX ∨ (c.buf n).last_use < v.min_time) then
    { min_time := (c.buf n).last_use
      min_n := some n
      min_bucket := some i
      replaced := true
      locks := match v.min_bucket with
        | some m => if m ≠ i then v.locks ++ [.rel (.bkt m)] else v.locks
        | none => v.locks }
  else v

/-- The inner loop of the eviction scan (lines 146-157) over bucket `i`, started at node `n`. -/
def scan_list (c : bcache) (i : Nat) : Nat → Option Nat → scan → Option scan
  | _, none, v => some v
  | 0, some _, _ => none
  | f + 1, some n, v => scan_list c i f (c.nodes n).next (scan_visit c i n v)

/-- The outer loop of the eviction scan (lines 142-161): `k` buckets remain, starting at `i`. -/
def scan_buckets (NBUF : Nat) (c : bcache) : Nat → Nat → scan → Option scan
  | 0, _, v => some v
  | k + 1, i, v =>
    match scan_list c i NBUF (c.buckets i).head
        { v with replaced := false, locks := v.locks ++ [.acq (.bkt i)] } with
    | none => none
    | some v1 =>
      scan_buckets NBUF c k (i + 1)
        (if v1.replaced then v1 else { v1 with locks := v1.locks ++ [.rel (.bkt i)] })

/-- Lines 168-184: take node `n` out of the list of bucket `mb`. -/
def unlink (c : bcache) (mb n : Nat) : bcache :=
  match (c.nodes n).prev, (c.nodes n).next with
  | none, none => { c with buckets := upd c.buckets mb ⟨none, none⟩ }
  | none, some nx =>
    { c with
      nodes := upd c.nodes nx { c.nodes nx with prev := none }
      buckets := upd c.buckets mb { c.buckets mb with head := some nx } }
  | some pv, none =>
    { c with
      nodes := upd c.nodes pv { c.nodes pv with next := none }
      buckets := upd c.buckets mb { c.buckets mb with tail := some pv } }
  | some pv, some nx =>
    let nodes1 := upd c.nodes pv { c.nodes pv with next := some nx }
    { c with nodes := upd nodes1 nx { nodes1 nx with prev := some pv } }

/-- Lines 187-197: append node `n` at the tail of bucket `key`. -/
def append_tail (c : bcache) (key n : Nat) : bcache :=
  let c1 : bcache := match (c.buckets key).tail with
    | some t =>
      let nodes1 := upd c.nodes t { c.nodes t with next := some n }
      { c with
        nodes := upd nodes1 n { nodes1 n with prev := some t }
        buckets := upd c.buckets key { c.buckets key with tail := some n } }
    | none =>
      { c with
        nodes := upd c.nodes n { c.nodes n with prev := none }
        buckets := upd c.buckets key ⟨some n, some n⟩ }
  { c1 with nodes := upd c1.nodes n { c1.nodes n with next := none } }

/-- Lines 163-214: recycle node `n` of bucket `mb` for block `(dev, blockno)`. -/
def evict (c : bcache) (pid dev blockno ticks n mb : Nat) (locks : List lock_ev) : outcome :=
  let key := get_key dev blockno
  let c1 := if mb ≠ key then append_tail (unlink c mb n) key n else c
  let locks1 := if mb ≠ key then locks ++ [.acq (.bkt key)] else locks
  let b1 : buf :=
    { c1.buf n with dev := dev, blockno := blockno, valid := 0, refcnt := 1,
                    last_use := ticks % UINT_MOD }
  let c2 : bcache := { c1 with buf := upd c1.buf n b1 }
  let locks2 := locks1 ++ [.rel (.bkt mb)] ++ (if mb ≠ key then [.rel (.bkt key)] else [])
    ++ [.rel .global]
  match acquiresleep c2 pid n with
  | some c3 => ⟨.ret n, c3, locks2⟩
  | none => ⟨.sleeps n, c2, locks2⟩

/-- The function `bget(dev, blockno)` called by process `pid` when the tick counter reads
`ticks`. -/
def bget (NBUF : Nat) (c : bcache) (pid dev blockno ticks : Nat) : outcome :=
  let key := get_key dev blockno
  match lookup c dev blockno NBUF (c.buckets key).head with
  | none => ⟨.hang, c, [.acq (.bkt key)]⟩
  | some (some b) => hit c pid ticks b [.acq (.bkt key), .rel (.bkt key)]
  | some none =>
    match lookup c dev blockno NBUF (c.buckets key).head with
    | none => ⟨.hang, c, [.acq (.bkt key), .rel (.bkt key), .acq .global]⟩
    | some (some b) =>
      hit c pid ticks b [.acq (.bkt key), .rel (.bkt key), .acq .global, .rel .global]
    | some none =>
      match scan_buckets NBUF c BUCKET_NUM 0
          ⟨UINT_MAX, none, none, false, [.acq (.bkt key), .rel (.bkt key), .acq .global]⟩ with
      | none => ⟨.hang, c, [.acq (.bkt key), .rel (.bkt key), .acq .global]⟩
      | some v =>
        if v.min_time ≠ UINT_MAX then
          match v.min_n, v.min_bucket with
          | some n, some mb => evict c pid dev blockno ticks n mb v.locks
          | _, _ => ⟨.panic .null_deref, c, v.locks⟩
        else ⟨.panic .no_buffers, c, v.locks⟩

/-- The function `brelse(b)` called by process `pid` when the tick counter reads `ticks`.
`holdingsleep(&b->lock)` is true when the lock is held by the calling process. -/
def brelse (c : bcache) (pid b ticks : Nat) : outcome :=
  if (c.buf b).lock ≠ some pid then ⟨.panic .brelse, c, []⟩
  else
    let key := get_key (c.buf b).dev (c.buf b).blockno
    let r := ((c.buf b).refcnt + UINT_MAX) % UINT_MOD
    let b1 : buf :=
      { c.buf b with lock := none, refcnt := r,
                     last_use := if r = 0 then ticks % UINT_MOD else (c.buf b).last_use }
    ⟨.done, { c with buf := upd c.buf b b1 }, [.acq (.bkt key), .rel (.bkt key)]⟩

/-- The function `bpin(b)`. -/
def bpin (c : bcache) (b : Nat) : outcome :=
  let key := get_key (c.buf b).dev (c.buf b).blockno
  let b1 : buf := { c.buf b with refcnt := ((c.buf b).refcnt + 1) % UINT_MOD }
  ⟨.done, { c with buf := upd c.buf b b1 }, [.acq (.bkt key), .rel (.bkt key)]⟩

/-- The function `bunpin(b)`. -/
def bunpin (c : bcache) (b : Nat) : outcome :=
  let key := get_key (c.buf b).dev (c.buf b).blockno
  let b1 : buf := { c.buf b with refcnt := ((c.buf b).refcnt + UINT_MAX) % UINT_MOD }
  ⟨.done, { c with buf := upd c.buf b b1 }, [.acq (.bkt key), .rel (.bkt key)]⟩

/-- One call of `virtio_disk_rw(b, write)`. -/
structure io_ev where
  b : Nat
  write : Bool
deriving DecidableEq

/-- The cache together with the block device it sits on.  `disk dev blockno` is the content of
a block on the device, `io` the calls of `virtio_disk_rw` so far, in order. -/
structure machine where
  cache : bcache
  disk : Nat → Nat → Nat
  io : List io_ev

/-- The result of a call on the machine. -/
structure result where
  st : status
  m : machine
  locks : List lock_ev

/-- Modelled from the spec: the block-device transfer `virtio_disk_rw(b, write)` on an in-memory
device double (virtio_disk.c is not among the sources).  A read fills the content of buffer `b`
from the block `(b->dev, b->blockno)`, a write stores the content of `b` into that block. -/
def virtio_disk_rw (m : machine) (b : Nat) (write : Bool) : machine :=
  let s := m.cache.buf b
  if write then
    { m with
      disk := fun d k => if d = s.dev ∧ k = s.blockno then s.data else m.disk d k
      io := m.io ++ [⟨b, true⟩] }
  else
    { m with
      cache := { m.cache with buf := upd m.cache.buf b { s with data := m.disk s.dev s.blockno } }
      io := m.io ++ [⟨b, false⟩] }

/-- The function `bread(dev, blockno)`. -/
def bread (NBUF : Nat) (m : machine) (pid dev blockno ticks : Nat) : result :=
  let o := bget NBUF m.cache pid dev blockno ticks
  match o.st with
  | .ret b =>
    if (o.cache.buf b).valid = 0 then
      let m1 := virtio_disk_rw { m with cache := o.cache } b false
      let b1 : buf := { m1.cache.buf b with valid := 1 }
      ⟨.ret b, { m1 with cache := { m1.cache with buf := upd m1.cache.buf b b1 } }, o.locks⟩
    else ⟨.ret b, { m with cache := o.cache }, o.locks⟩
  | st => ⟨st, { m with cache := o.cache }, o.locks⟩

/-- The function `bwrite(b)` called by process `pid`. -/
def bwrite (m : machine) (pid b : Nat) : result :=
  if (m.cache.buf b).lock ≠ some pid then ⟨.panic .bwrite, m, []⟩
  else ⟨.done, virtio_disk_rw m b true, []⟩

/-- A call of one of the functions of bio.c, with the calling process and the value of `ticks`
where the function reads them. -/
inductive call where
  | bget (pid dev blockno ticks : Nat)
  | bread (pid dev blockno ticks : Nat)
  | bwrite (pid b : Nat)
  | brelse (pid b ticks : Nat)
  | bpin (b : Nat)
  | bunpin (b : Nat)
deriving DecidableEq

/-- A call on the cache alone, seen as a call on the machine. -/
def lift (m : machine) (o : outcome) : result :=
  ⟨o.st, { m with cache := o.cache }, o.locks⟩

/-- Run one call. -/
def exec (NBUF : Nat) (m : machine) : call → result
  | .bget pid dev blockno ticks => lift m (bget NBUF m.cache pid dev blockno ticks)
  | .bread pid dev blockno ticks => bread NBUF m pid dev blockno ticks
  | .bwrite pid b => bwrite m pid b
  | .brelse pid b ticks => lift m (brelse m.cache pid b ticks)
  | .bpin b => lift m (bpin m.cache b)
  | .bunpin b => lift m (bunpin m.cache b)

/-- A call completes when it returns to its caller. -/
def completes : status → Bool
  | .ret _ => true
  | .done => true
  | _ => false

/-- Run a sequence of calls one after the other (the sequential model): `some m` is the machine
after the last call when every call has completed. -/
def run (NBUF : Nat) (m : machine) : List call → Option machine
  | [] => some m
  | cl :: rest =>
    if completes (exec NBUF m cl).st then run NBUF (exec NBUF m cl).m rest else none

/-- The machine right after `binit`, on a device whose content is `disk`. -/
def boot_machine (NBUF : Nat) (disk : Nat → Nat → Nat) : machine :=
  ⟨boot NBUF, disk, []⟩

/-- The nodes met by `for(n = start; n != 0; n = n->next)`, when that loop ends. -/
def walk (nodes : Nat → node) : Nat → Option Nat → Option (List Nat)
  | _, none => some []
  | 0, some _ => none
  | f + 1, some n => (walk nodes f (nodes n).next).map (fun l => n :: l)

/-- The nodes reachable from the head of bucket `k`. -/
def bucket_nodes (NBUF : Nat) (c : bcache) (k : Nat) : Option (List Nat) :=
  walk c.nodes NBUF (c.buckets k).head

/-! ## Specification vocabulary -/

/-- `seg nodes p l s f`: starting at pointer `s`, following `next` visits exactly the nodes of
`l` in order and ends at pointer `f`; the `prev` link of each visited node points at the node
visited before it, and that of the first one at `p`. -/
def seg (nodes : Nat → node) : Option Nat → List Nat → Option Nat → Option Nat → Prop
  | _, [], s, f => s = f
  | p, x :: xs, s, f => s = some x ∧ (nodes x).prev = p ∧ seg nodes (some x) xs (nodes x).next f

instance seg_decidable (nodes : Nat → node) :
    (p : Option Nat) → (l : List Nat) → (s f : Option Nat) → Decidable (seg nodes p l s f)
  | _, [], s, f => inferInstanceAs (Decidable (s = f))
  | p, x :: xs, s, f =>
    have := seg_decidable nodes (some x) xs (nodes x).next f
    inferInstanceAs (Decidable
      (s = some x ∧ (nodes x).prev = p ∧ seg nodes (some x) xs (nodes x).next f))

/-- The last element of `l`, or `p` when `l` is empty. -/
def last_or (p : Option Nat) : List Nat → Option Nat
  | [] => p
  | x :: xs => last_or (some x) xs

/-- Bucket `k` is a consistent doubly-linked list whose nodes are, from head to tail, `l`. -/
def bucket_ok (c : bcache) (k : Nat) (l : List Nat) : Prop :=
  seg c.nodes none l (c.buckets k).head none ∧ (c.buckets k).tail = last_or none l

instance bucket_ok_decidable (c : bcache) (k : Nat) (l : List Nat) :
    Decidable (bucket_ok c k l) :=
  inferInstanceAs (Decidable
    (seg c.nodes none l (c.buckets k).head none ∧ (c.buckets k).tail = last_or none l))

/-- Buffer `n` caches block `(dev, blockno)`. -/
def holds (c : bcache) (dev blockno n : Nat) : Prop :=
  (c.buf n).dev = dev ∧ (c.buf n).blockno = blockno

instance holds_decidable (c : bcache) (dev blockno n : Nat) : Decidable (holds c dev blockno n) :=
  inferInstanceAs (Decidable ((c.buf n).dev = dev ∧ (c.buf n).blockno = blockno))

/-- `Linked NBUF c L`: the cache `c` with `NBUF` slots is well formed and `L k` is the list of
bucket `k`.  Every bucket is a consistent doubly-linked list without repetition, every node in
bucket `k` is a slot whose identity hashes to `k`, every slot is in the bucket of its identity,
and the `uint` fields are in range. -/
structure Linked (NBUF : Nat) (c : bcache) (L : Nat → List Nat) : Prop where
  links : ∀ k, k < BUCKET_NUM → bucket_ok c k (L k)
  nodup : ∀ k, k < BUCKET_NUM → (L k).Nodup
  keyed : ∀ k, k < BUCKET_NUM → ∀ x ∈ L k,
    x < NBUF ∧ get_key (c.buf x).dev (c.buf x).blockno = k
  total : ∀ i, i < NBUF → i ∈ L (get_key (c.buf i).dev (c.buf i).blockno)
  range : ∀ i, i < NBUF → (c.buf i).refcnt < UINT_MOD ∧ (c.buf i).last_use < UINT_MOD

instance Linked_decidable (NBUF : Nat) (c : bcache) (L : Nat → List Nat) :
    Decidable (Linked NBUF c L) :=
  decidable_of_iff
    ((∀ k, k < BUCKET_NUM → bucket_ok c k (L k)) ∧
     (∀ k, k < BUCKET_NUM → (L k).Nodup) ∧
     (∀ k, k < BUCKET_NUM → ∀ x ∈ L k,
        x < NBUF ∧ get_key (c.buf x).dev (c.buf x).blockno = k) ∧
     (∀ i, i < NBUF → i ∈ L (get_key (c.buf i).dev (c.buf i).blockno)) ∧
     (∀ i, i < NBUF → (c.buf i).refcnt < UINT_MOD ∧ (c.buf i).last_use < UINT_MOD))
    ⟨fun h => ⟨h.1, h.2.1, h.2.2.1, h.2.2.2.1, h.2.2.2.2⟩,
     fun h => ⟨h.links, h.nodup, h.keyed, h.total, h.range⟩⟩

/-- A well-formed cache with `NBUF` slots. -/
def WF (NBUF : Nat) (c : bcache) : Prop := ∃ L, Linked NBUF c L

/-- The order in which the eviction scan visits the nodes: bucket 0 from head to tail, then
bucket 1, and so on. -/
def scan_order (L : Nat → List Nat) : List Nat :=
  ((List.range BUCKET_NUM).map L).flatten

/-- What the eviction scan knows after visiting the nodes `seen`. -/
structure scan_inv (c : bcache) (L : Nat → List Nat) (seen : List Nat) (v : scan) : Prop where
  none_max : v.min_n = none → v.min_time = UINT_MAX
  none_seen : v.min_n = none → ∀ x ∈ seen, (c.buf x).refcnt ≠ 0
  max_seen : v.min_time = UINT_MAX →
    ∀ x ∈ seen, (c.buf x).refcnt = 0 → UINT_MAX ≤ (c.buf x).last_use
  is_free : ∀ n, v.min_n = some n → (c.buf n).refcnt = 0
  is_time : ∀ n, v.min_n = some n → v.min_time = (c.buf n).last_use
  in_bucket : ∀ n, v.min_n = some n → ∃ k, k < BUCKET_NUM ∧ v.min_bucket = some k ∧ n ∈ L k
  is_min : ∀ n, v.min_n = some n →
    ∀ x ∈ seen, (c.buf x).refcnt = 0 → (c.buf n).last_use ≤ (c.buf x).last_use
  is_first : ∀ n, v.min_n = some n → v.min_time ≠ UINT_MAX →
    ∃ pre post, seen = pre ++ n :: post ∧
      ∀ x ∈ pre, (c.buf x).refcnt = 0 → (c.buf n).last_use < (c.buf x).last_use

/-- The bucket lists after node `n` has moved from bucket `mb` to the tail of bucket `key`
(nothing moves when the two are the same bucket). -/
def moved (L : Nat → List Nat) (mb key n : Nat) : Nat → List Nat :=
  if mb ≠ key then upd (upd L mb ((L mb).erase n)) key (L key ++ [n]) else L

/-- The bucket lists right after `binit`: every slot is in bucket `get_key 0 0`. -/
def boot_lists (NBUF : Nat) : Nat → List Nat :=
  fun k => if k = get_key 0 0 then List.range NBUF else []

/-- Two distinct slots may share an identity only when it is the identity `(0, 0)` that
`binit` leaves in every slot. -/
def unique_ids (NBUF : Nat) (c : bcache) : Prop :=
  ∀ i j, i < NBUF → j < NBUF → (c.buf i).dev = (c.buf j).dev →
    (c.buf i).blockno = (c.buf j).blockno → i = j ∨ ((c.buf i).dev = 0 ∧ (c.buf i).blockno = 0)

/-- The invariant of the cache: it is well formed and identities are unique up to the
identity left by `binit`. -/
def good (NBUF : Nat) (c : bcache) : Prop := WF NBUF c ∧ unique_ids NBUF c

/-- The cache with one slot after boot, a `bget` of block (0, 0) by process 7 and the `brelse`
of the slot when `ticks` reads `UINT_MAX`. -/
def stale_cache : bcache :=
  (brelse (bget 1 (boot 1) 7 0 0 0).cache 7 0 4294967295).cache

/-- The content of every valid buffer is the content of its block on the device: what holds
as long as callers write every modification of a buffer through `bwrite`. -/
def coherent (NBUF : Nat) (m : machine) : Prop :=
  ∀ i, i < NBUF → (m.cache.buf i).valid ≠ 0 →
    (m.cache.buf i).data = m.disk (m.cache.buf i).dev (m.cache.buf i).blockno

instance coherent_decidable (NBUF : Nat) (m : machine) : Decidable (coherent NBUF m) :=
  inferInstanceAs (Decidable (∀ i, i < NBUF → (m.cache.buf i).valid ≠ 0 →
    (m.cache.buf i).data = m.disk (m.cache.buf i).dev (m.cache.buf i).blockno))

/-- The accounting of an acquire (`bget` or `bread` of `(dev, blockno)` run in cache `c` and
ending with `st`): a hit on `b` is one more outstanding acquire of `b`; a recycling of `b` gives
`b` a new identity, with this acquire as its only outstanding one. -/
def acquired (c : bcache) (st : status) (dev blockno : Nat) (a : Nat → Int) : Nat → Int :=
  match st with
  | .ret b => if holds c dev blockno b then upd a b (a b + 1) else upd a b 1
  | _ => a

/-- The accounting of one completed call `cl` run in machine `m`: `a i` is, for each slot `i`,
the number of acquire and pin calls on it minus the number of release and unpin calls on it,
since it took its identity. -/
def tally (NBUF : Nat) (m : machine) (cl : call) (a : Nat → Int) : Nat → Int :=
  match cl with
  | .bget _ dev blockno _ => acquired m.cache (exec NBUF m cl).st dev blockno a
  | .bread _ dev blockno _ => acquired m.cache (exec NBUF m cl).st dev blockno a
  | .bwrite _ _ => a
  | .brelse _ b _ => upd a b (a b - 1)
  | .bpin b => upd a b (a b + 1)
  | .bunpin b => upd a b (a b - 1)

/-- The accounting of a sequence of calls, each of which completes. -/
def outstanding (NBUF : Nat) : machine → List call → (Nat → Int) → Option (Nat → Int)
  | _, [], a => some a
  | m, cl :: rest, a =>
    if completes (exec NBUF m cl).st then
      outstanding NBUF (exec NBUF m cl).m rest (tally NBUF m cl a)
    else none

/-- Buffer `i` has been handed out: its content is valid or its content lock is held. -/
def touched (c : bcache) (i : Nat) : Prop :=
  (c.buf i).valid ≠ 0 ∨ (c.buf i).lock ≠ none

/-- Every buffer that has been handed out is the one the scan of `bget` finds for its
identity. -/
def found (NBUF : Nat) (c : bcache) : Prop :=
  ∀ i, touched c i →
    lookup c (c.buf i).dev (c.buf i).blockno NBUF
      (c.buckets (get_key (c.buf i).dev (c.buf i).blockno)).head = some (some i)

/-- Buffer `i` is as `binit` left it, its identity and its reference count apart: not valid,
content lock free, `last_use` 0, content 0. -/
def pristine (c : bcache) (i : Nat) : Prop :=
  (c.buf i).valid = 0 ∧ (c.buf i).lock = none ∧ (c.buf i).last_use = 0 ∧ (c.buf i).data = 0

instance pristine_decidable (c : bcache) (i : Nat) : Decidable (pristine c i) :=
  inferInstanceAs (Decidable ((c.buf i).valid = 0 ∧ (c.buf i).lock = none ∧
    (c.buf i).last_use = 0 ∧ (c.buf i).data = 0))

/-- Every buffer that is not as `binit` left it is the one the scan of `bget` finds for its
identity. -/
def first_use (NBUF : Nat) (c : bcache) : Prop :=
  ∀ i, ¬ pristine c i →
    lookup c (c.buf i).dev (c.buf i).blockno NBUF
      (c.buckets (get_key (c.buf i).dev (c.buf i).blockno)).head = some (some i)

/-- The caller stores `v` into the content of buffer `b`. -/
def store (m : machine) (b v : Nat) : machine :=
  { m with cache := { m.cache with buf := upd m.cache.buf b { m.cache.buf b with data := v } } }

/-- What a caller that writes every modification through `bwrite` does: a call of a function of
bio.c, or a modification of the content of a buffer followed at once by `bwrite`. -/
inductive action where
  | call (cl : call)
  | update (pid b v : Nat)
deriving DecidableEq

/-- Run one action. -/
def act (NBUF : Nat) (m : machine) : action → result
  | .call cl => exec NBUF m cl
  | .update pid b v => bwrite (store m b v) pid b

/-- Run a sequence of actions, each of which completes. -/
def play (NBUF : Nat) (m : machine) : List action → Option machine
  | [] => some m
  | x :: rest =>
    if completes (act NBUF m x).st then play NBUF (act NBUF m x).m rest else none

/-- The invariant of the machine under such callers. -/
def sound (NBUF : Nat) (m : machine) : Prop :=
  good NBUF m.cache ∧ found NBUF m.cache ∧ coherent NBUF m

/-! ## Spinlock traces -/

/-- The spinlocks held after one spinlock operation, when `h` were held before it. -/
def hold (h : List lockid) : lock_ev → List lockid
  | .acq l => l :: h
  | .rel l => h.erase l

/-- The spinlocks held after the operations `t`, in order, when `h` were held before them. -/
def held_after (h : List lockid) : List lock_ev → List lockid
  | [] => h
  | e :: t => held_after (hold h e) t

/-- A bucket lock, as opposed to the global lock `bcache.lock`. -/
def is_bkt : lockid → Bool
  | .bkt _ => true
  | .global => false

/-- The number of bucket locks among the held spinlocks `h`. -/
def bucket_locks (h : List lockid) : Nat := (h.filter is_bkt).length

/-- `at_most n h t`: with `h` held at the start, at every point of the operations `t` (before
the first one, between two of them, after the last one) at most `n` bucket locks are held. -/
def at_most (n : Nat) (h : List lockid) : List lock_ev → Prop
  | [] => bucket_locks h ≤ n
  | e :: t => bucket_locks h ≤ n ∧ at_most n (hold h e) t

instance at_most_decidable (n : Nat) :
    (h : List lockid) → (t : List lock_ev) → Decidable (at_most n h t)
  | h, [] => inferInstanceAs (Decidable (bucket_locks h ≤ n))
  | h, e :: t =>
    have := at_most_decidable n (hold h e) t
    inferInstanceAs (Decidable (bucket_locks h ≤ n ∧ at_most n (hold h e) t))

/-- `proper h t`: with `h` held at the start, the operations `t` never acquire a spinlock that
is held and never release one that is not. -/
def proper (h : List lockid) : List lock_ev → Prop
  | [] => True
  | .acq l :: t => l ∉ h ∧ proper (l :: h) t
  | .rel l :: t => l ∈ h ∧ proper (h.erase l) t

instance proper_decidable : (h : List lockid) → (t : List lock_ev) → Decidable (proper h t)
  | _, [] => inferInstanceAs (Decidable True)
  | h, .acq l :: t =>
    have := proper_decidable (l :: h) t
    inferInstanceAs (Decidable (l ∉ h ∧ proper (l :: h) t))
  | h, .rel l :: t =>
    have := proper_decidable (h.erase l) t
    inferInstanceAs (Decidable (l ∈ h ∧ proper (h.erase l) t))

/-- The spinlocks held between two rounds of the outer loop of the eviction scan: the global
lock, and the lock of the bucket of the best node so far. -/
def scan_held : Option Nat → List lockid
  | some m => [.bkt m, .global]
  | none => [.global]

/-- The spinlock trace between two rounds of the outer loop of the eviction scan, when bucket
`i` is the next one. -/
structure trace_ok (i : Nat) (v : scan) : Prop where
  prop : proper [] v.locks
  two : at_most 2 [] v.locks
  held : held_after [] v.locks = scan_held v.min_bucket
  below : ∀ m, v.min_bucket = some m → m < i

/-- The spinlock trace inside the round of the outer loop of the eviction scan for bucket `i`,
after `acquire(&bucket->lock)`. -/
structure trace_in (i : Nat) (v : scan) : Prop where
  prop : proper [] v.locks
  two : at_most 2 [] v.locks
  held : held_after [] v.locks =
    if v.min_bucket = some i then [.bkt i, .global] else .bkt i :: scan_held v.min_bucket
  repl : v.replaced = true ↔ v.min_bucket = some i
  below : ∀ m, v.min_bucket = some m → m ≤ i

/-- The fields of a buffer that the functions of bio.c store into, the content lock and the
content apart. -/
inductive field where
  | dev
  | blockno
  | valid
  | refcnt
  | last_use
deriving DecidableEq

/-- One step of a call: a spinlock operation, or a store into field `f` of buffer `b`. -/
inductive ev where
  | lock (e : lock_ev)
  | write (b : Nat) (f : field)
deriving DecidableEq

/-- The steps of a hit on buffer `b` (lines 114-116 and 130-132): the spinlock operations
`before`, the stores `b->refcnt++` and `b->last_use = ticks`, the spinlock operations
`after`. -/
def hit_log (b : Nat) (before after : List lock_ev) : List ev :=
  before.map .lock ++ [.write b .refcnt, .write b .last_use] ++ after.map .lock

/-- The steps of lines 163-212 after a scan whose spinlock operations were `locks`: the lock of
the target bucket when it is another one, the stores of lines 201-205, the releases. -/
def evict_log (dev blockno n mb : Nat) (locks : List lock_ev) : List ev :=
  let key := get_key dev blockno
  (if mb ≠ key then locks ++ [.acq (.bkt key)] else locks).map .lock
    ++ [.write n .dev, .write n .blockno, .write n .valid, .write n .refcnt,
        .write n .last_use]
    ++ ([lock_ev.rel (.bkt mb)] ++ (if mb ≠ key then [lock_ev.rel (.bkt key)] else [])
        ++ [lock_ev.rel .global]).map .lock

/-- The steps of `bget(dev, blockno)`: its spinlock operations and its stores into buffers, in
the order of the code. -/
def bget_log (NBUF : Nat) (c : bcache) (dev blockno : Nat) : List ev :=
  let key := get_key dev blockno
  match lookup c dev blockno NBUF (c.buckets key).head with
  | none => [.lock (.acq (.bkt key))]
  | some (some b) => hit_log b [.acq (.bkt key)] [.rel (.bkt key)]
  | some none =>
    match lookup c dev blockno NBUF (c.buckets key).head with
    | none => [.lock (.acq (.bkt key)), .lock (.rel (.bkt key)), .lock (.acq .global)]
    | some (some b) =>
      hit_log b [.acq (.bkt key), .rel (.bkt key), .acq .global] [.rel .global]
    | some none =>
      match scan_buckets NBUF c BUCKET_NUM 0
          ⟨UINT_MAX, none, none, false, [.acq (.bkt key), .rel (.bkt key), .acq .global]⟩ with
      | none => [.lock (.acq (.bkt key)), .lock (.rel (.bkt key)), .lock (.acq .global)]
      | some v =>
        if v.min_time ≠ UINT_MAX then
          match v.min_n, v.min_bucket with
          | some n, some mb => evict_log dev blockno n mb v.locks
          | _, _ => v.locks.map .lock
        else v.locks.map .lock

/-- The steps of `brelse(b)`. -/
def brelse_log (c : bcache) (pid b : Nat) : List ev :=
  if (c.buf b).lock ≠ some pid then []
  else
    let key := get_key (c.buf b).dev (c.buf b).blockno
    [.lock (.acq (.bkt key)), .write b .refcnt]
      ++ (if ((c.buf b).refcnt + UINT_MAX) % UINT_MOD = 0 then [.write b .last_use] else [])
      ++ [.lock (.rel (.bkt key))]

/-- The steps of `bpin(b)`. -/
def bpin_log (c : bcache) (b : Nat) : List ev :=
  let key := get_key (c.buf b).dev (c.buf b).blockno
  [.lock (.acq (.bkt key)), .write b .refcnt, .lock (.rel (.bkt key))]

/-- The steps of `bunpin(b)`. -/
def bunpin_log (c : bcache) (b : Nat) : List ev :=
  let key := get_key (c.buf b).dev (c.buf b).blockno
  [.lock (.acq (.bkt key)), .write b .refcnt, .lock (.rel (.bkt key))]

/-- The steps of `bread(dev, blockno)`: those of `bget`, then the store `b->valid = 1` when the
buffer that `bget` returned was not valid. -/
def bread_log (NBUF : Nat) (m : machine) (pid dev blockno ticks : Nat) : List ev :=
  bget_log NBUF m.cache dev blockno ++
    (match (bget NBUF m.cache pid dev blockno ticks).st with
      | .ret b =>
        if ((bget NBUF m.cache pid dev blockno ticks).cache.buf b).valid = 0
          then [.write b .valid] else []
      | _ => [])

/-- The spinlock operations among the steps `t`. -/
def lock_part : List ev → List lock_ev
  | [] => []
  | .lock e :: t => e :: lock_part t
  | .write _ _ :: t => lock_part t

/-- `guarded c h t`: with the spinlocks `h` held at the start, every store of the steps `t`
into a buffer happens while the global lock is held, or the lock of the bucket that the
identity of the buffer in cache `c` hashes to. -/
def guarded (c : bcache) (h : List lockid) : List ev → Prop
  | [] => True
  | .lock e :: t => guarded c (hold h e) t
  | .write b _ :: t =>
    (lockid.global ∈ h ∨ lockid.bkt (get_key (c.buf b).dev (c.buf b).blockno) ∈ h) ∧
      guarded c h t

/-- Every store of the steps `log` of a call entered in cache `c` with no spinlock held happens
while the caller holds the global lock or the lock of the bucket of the buffer. -/
def writes_guarded (c : bcache) (log : List ev) : Prop :=
  ∀ pre b f, pre ++ [ev.write b f] <+: log →
    lockid.global ∈ held_after [] (lock_part pre) ∨
    lockid.bkt (get_key (c.buf b).dev (c.buf b).blockno) ∈ held_after [] (lock_part pre)

/-! ## Lemmas -/

theorem last_or_append (p : Option Nat) (l1 l2 : List Nat) :
    last_or p (l1 ++ l2) = last_or (last_or p l1) l2 := by
  induction l1 generalizing p with
  | nil => rfl
  | cons x xs ih => simp [last_or, ih]

theorem last_or_none (l : List Nat) : last_or none l = l.getLast? := by
  have h : ∀ (l : List Nat) (p : Option Nat), last_or p l = (l.getLast?).or p := by
    intro l
    induction l with
    | nil => intro p; simp [last_or]
    | cons x xs ih =>
      intro p
      rw [last_or, ih]
      cases xs with
      | nil => simp
      | cons y ys =>
        rw [List.getLast?_cons_cons, List.getLast?_eq_getLast _ (List.cons_ne_nil y ys)]
        rfl
  rw [h]; simp

theorem seg_append (nodes : Nat → node) (p : Option Nat) (l1 l2 : List Nat) (s f : Option Nat) :
    seg nodes p (l1 ++ l2) s f ↔
      ∃ m, seg nodes p l1 s m ∧ seg nodes (last_or p l1) l2 m f := by
  induction l1 generalizing p s with
  | nil => simp [seg, last_or]
  | cons x xs ih =>
    rw [List.cons_append]
    simp only [seg, last_or]
    rw [ih]
    constructor
    · rintro ⟨h1, h2, m, h3, h4⟩
      exact ⟨m, ⟨h1, h2, h3⟩, h4⟩
    · rintro ⟨m, ⟨h1, h2, h3⟩, h4⟩
      exact ⟨h1, h2, m, h3, h4⟩

theorem seg_frame (nodes nodes2 : Nat → node) (p : Option Nat) (l : List Nat) (s f : Option Nat)
    (h : ∀ x ∈ l, nodes2 x = nodes x) : seg nodes2 p l s f ↔ seg nodes p l s f := by
  induction l generalizing p s with
  | nil => simp [seg]
  | cons x xs ih =>
    have hx : nodes2 x = nodes x := h x (List.mem_cons_self _ _)
    have hxs : ∀ y ∈ xs, nodes2 y = nodes y := fun y hy => h y (List.mem_cons_of_mem _ hy)
    simp only [seg, hx, ih _ _ hxs]

theorem seg_snoc (nodes : Nat → node) (p : Option Nat) (l : List Nat) (x : Nat)
    (s f : Option Nat) :
    seg nodes p (l ++ [x]) s f ↔
      seg nodes p l s (some x) ∧ (nodes x).prev = last_or p l ∧ (nodes x).next = f := by
  rw [seg_append]
  simp only [seg]
  constructor
  · rintro ⟨m, h1, h2, h3, h4⟩
    subst h2
    exact ⟨h1, h3, h4⟩
  · rintro ⟨h1, h2, h3⟩
    exact ⟨some x, h1, rfl, h2, h3⟩

@[simp]
theorem upd_same {α : Type} (a : Nat → α) (i : Nat) (v : α) : upd a i v i = v := by
  simp [upd]

theorem upd_other {α : Type} (a : Nat → α) (i j : Nat) (v : α) (h : j ≠ i) :
    upd a i v j = a j := by
  simp [upd, h]

theorem get_key_lt (dev blockno : Nat) : get_key dev blockno < BUCKET_NUM := by
  unfold get_key
  exact Nat.mod_lt _ (by decide)

theorem length_le_of_nodup (l : List Nat) (n : Nat) (hn : l.Nodup) (hb : ∀ x ∈ l, x < n) :
    l.length ≤ n := by
  have hs : l ⊆ List.range n := fun x hx => List.mem_range.mpr (hb x hx)
  have := (List.subperm_of_subset hn hs).length_le
  simpa using this

theorem lookup_seg (c : bcache) (dev blockno : Nat) (l : List Nat) :
    ∀ (p s : Option Nat) (fuel : Nat), seg c.nodes p l s none → l.length ≤ fuel →
      lookup c dev blockno fuel s = some (l.find? (fun n => decide (holds c dev blockno n))) := by
  induction l with
  | nil =>
    intro p s fuel h _
    simp only [seg] at h
    subst h
    simp [lookup]
  | cons x xs ih =>
    intro p s fuel h hf
    obtain ⟨h1, _, h3⟩ := h
    subst h1
    cases fuel with
    | zero => simp at hf
    | succ f =>
      have hf2 : xs.length ≤ f := by simpa using hf
      by_cases hx : holds c dev blockno x
      · have hx2 := hx
        unfold holds at hx2
        simp [lookup, hx2, List.find?, hx]
      · have hx2 := hx
        unfold holds at hx2
        simp only [lookup, hx2, if_false, List.find?, hx, decide_False]
        exact ih _ _ _ h3 hf2

theorem scan_list_seg (c : bcache) (i : Nat) (l : List Nat) :
    ∀ (p s : Option Nat) (fuel : Nat) (v : scan), seg c.nodes p l s none → l.length ≤ fuel →
      scan_list c i fuel s v = some (l.foldl (fun w n => scan_visit c i n w) v) := by
  induction l with
  | nil =>
    intro p s fuel v h _
    simp only [seg] at h
    subst h
    simp [scan_list]
  | cons x xs ih =>
    intro p s fuel v h hf
    obtain ⟨h1, _, h3⟩ := h
    subst h1
    cases fuel with
    | zero => simp at hf
    | succ f =>
      have hf2 : xs.length ≤ f := by simpa using hf
      simp only [scan_list, List.foldl]
      exact ih _ _ _ _ h3 hf2

theorem scan_inv_visit (c : bcache) (L : Nat → List Nat) (seen : List Nat) (v : scan)
    (i x : Nat) (hi : i < BUCKET_NUM) (hx : x ∈ L i) (hr : (c.buf x).last_use < UINT_MOD)
    (h : scan_inv c L seen v) : scan_inv c L (seen ++ [x]) (scan_visit c i x v) := by
  unfold scan_visit
  have hmax : (c.buf x).last_use ≤ UINT_MAX := by
    unfold UINT_MOD at hr; unfold UINT_MAX; omega
  split
  · rename_i hc
    obtain ⟨hfree, hlt⟩ := hc
    -- every free node seen so far is at least as old as `x`
    have hle : ∀ y ∈ seen, (c.buf y).refcnt = 0 → (c.buf x).last_use ≤ (c.buf y).last_use := by
      intro y hy hyf
      rcases hlt with hm | hl
      · exact le_trans hmax (h.max_seen hm y hy hyf)
      · cases hn : v.min_n with
        | none =>
          exact absurd hyf (h.none_seen hn y hy)
        | some n =>
          have h1 := h.is_min n hn y hy hyf
          have h2 := h.is_time n hn
          omega
    have hstrict : (c.buf x).last_use ≠ UINT_MAX →
        ∀ y ∈ seen, (c.buf y).refcnt = 0 → (c.buf x).last_use < (c.buf y).last_use := by
      intro hne y hy hyf
      rcases hlt with hm | hl
      · have := h.max_seen hm y hy hyf
        omega
      · cases hn : v.min_n with
        | none =>
          exact absurd hyf (h.none_seen hn y hy)
        | some n =>
          have h1 := h.is_min n hn y hy hyf
          have h2 := h.is_time n hn
          omega
    refine ⟨?_, ?_, ?_, ?_, ?_, ?_, ?_, ?_⟩
    · intro hn; simp at hn
    · intro hn; simp at hn
    · intro hm y hy hyf
      simp only at hm
      rcases List.mem_append.mp hy with hy | hy
      · have := hle y hy hyf
        omega
      · simp at hy; subst hy; exact le_of_eq hm.symm
    · intro n hn; simp at hn; subst hn; exact hfree
    · intro n hn; simp at hn; subst hn; rfl
    · intro n hn; simp at hn; subst hn; exact ⟨i, hi, rfl, hx⟩
    · intro n hn y hy hyf
      simp at hn; subst hn
      rcases List.mem_append.mp hy with hy | hy
      · exact hle y hy hyf
      · simp at hy; subst hy; exact le_refl _
    · intro n hn hne
      simp at hn; subst hn
      simp only at hne
      exact ⟨seen, [], rfl, hstrict hne⟩
  · rename_i hc
    have hc2 : (c.buf x).refcnt = 0 → v.min_time ≠ UINT_MAX ∧ v.min_time ≤ (c.buf x).last_use := by
      intro hf
      constructor
      · intro hm; exact hc ⟨hf, Or.inl hm⟩
      · by_contra hlt; exact hc ⟨hf, Or.inr (by omega)⟩
    refine ⟨h.none_max, ?_, ?_, h.is_free, h.is_time, h.in_bucket, ?_, ?_⟩
    · intro hn y hy
      rcases List.mem_append.mp hy with hy | hy
      · exact h.none_seen hn y hy
      · simp at hy; subst hy
        intro hf
        exact (hc2 hf).1 (h.none_max hn)
    · intro hm y hy hyf
      rcases List.mem_append.mp hy with hy | hy
      · exact h.max_seen hm y hy hyf
      · simp at hy; subst hy
        exact absurd hm (hc2 hyf).1
    · intro n hn y hy hyf
      rcases List.mem_append.mp hy with hy | hy
      · exact h.is_min n hn y hy hyf
      · simp at hy; subst hy
        have := (hc2 hyf).2
        have h2 := h.is_time n hn
        omega
    · intro n hn hne
      obtain ⟨pre, post, hs, hp⟩ := h.is_first n hn hne
      exact ⟨pre, post ++ [x], by simp [hs], hp⟩

theorem scan_inv_foldl (c : bcache) (L : Nat → List Nat) (i : Nat) (hi : i < BUCKET_NUM)
    (l : List Nat) :
    ∀ (seen : List Nat) (v : scan), (∀ x ∈ l, x ∈ L i ∧ (c.buf x).last_use < UINT_MOD) →
      scan_inv c L seen v →
      scan_inv c L (seen ++ l) (l.foldl (fun w n => scan_visit c i n w) v) := by
  induction l with
  | nil => intro seen v _ h; simpa using h
  | cons x xs ih =>
    intro seen v hl h
    have hx := hl x (List.mem_cons_self _ _)
    have h1 := scan_inv_visit c L seen v i x hi hx.1 hx.2 h
    have h2 := ih (seen ++ [x]) _ (fun y hy => hl y (List.mem_cons_of_mem _ hy)) h1
    simpa using h2

theorem scan_inv_congr (c : bcache) (L : Nat → List Nat) (seen : List Nat) (v w : scan)
    (h1 : w.min_time = v.min_time) (h2 : w.min_n = v.min_n) (h3 : w.min_bucket = v.min_bucket)
    (h : scan_inv c L seen v) : scan_inv c L seen w := by
  constructor
  · rw [h1, h2]; exact h.none_max
  · rw [h2]; exact h.none_seen
  · rw [h1]; exact h.max_seen
  · rw [h2]; exact h.is_free
  · rw [h1, h2]; exact h.is_time
  · rw [h2, h3]; exact h.in_bucket
  · rw [h2]; exact h.is_min
  · rw [h1, h2]; exact h.is_first

theorem linked_length_le {NBUF : Nat} {c : bcache} {L : Nat → List Nat} (h : Linked NBUF c L)
    (k : Nat) (hk : k < BUCKET_NUM) : (L k).length ≤ NBUF :=
  length_le_of_nodup (L k) NBUF (h.nodup k hk) (fun x hx => (h.keyed k hk x hx).1)

theorem scan_buckets_linked (NBUF : Nat) (c : bcache) (L : Nat → List Nat)
    (h : Linked NBUF c L) :
    ∀ (k i : Nat) (seen : List Nat) (v : scan), i + k ≤ BUCKET_NUM → scan_inv c L seen v →
      ∃ w, scan_buckets NBUF c k i v = some w ∧
        scan_inv c L (seen ++ ((List.range' i k).map L).flatten) w := by
  intro k
  induction k with
  | zero =>
    intro i seen v _ hv
    exact ⟨v, rfl, by simpa using hv⟩
  | succ k ih =>
    intro i seen v hik hv
    have hi : i < BUCKET_NUM := by omega
    have hl := (h.links i hi).1
    have hrun := scan_list_seg c i (L i) none (c.buckets i).head NBUF
      { v with replaced := false, locks := v.locks ++ [.acq (.bkt i)] } hl (linked_length_le h i hi)
    have hv0 : scan_inv c L seen
        { v with replaced := false, locks := v.locks ++ [.acq (.bkt i)] } :=
      scan_inv_congr c L seen v _ rfl rfl rfl hv
    have hv1 := scan_inv_foldl c L i hi (L i) seen _
      (fun x hx => ⟨hx, (h.range x (h.keyed i hi x hx).1).2⟩) hv0
    simp only [scan_buckets, hrun]
    generalize (L i).foldl (fun w n => scan_visit c i n w)
      { v with replaced := false, locks := v.locks ++ [.acq (.bkt i)] } = v1 at hv1
    have hv2 : scan_inv c L (seen ++ L i)
        (if v1.replaced then v1 else { v1 with locks := v1.locks ++ [.rel (.bkt i)] }) := by
      split
      · exact hv1
      · exact scan_inv_congr c L _ v1 _ rfl rfl rfl hv1
    obtain ⟨w, hw1, hw2⟩ := ih (i + 1) (seen ++ L i) _ (by omega) hv2
    refine ⟨w, hw1, ?_⟩
    rw [List.range'_succ]
    simpa [List.append_assoc] using hw2

theorem scan_init_inv (c : bcache) (L : Nat → List Nat) (locks : List lock_ev) :
    scan_inv c L [] ⟨UINT_MAX, none, none, false, locks⟩ := by
  constructor <;> simp

theorem scan_full (NBUF : Nat) (c : bcache) (L : Nat → List Nat) (h : Linked NBUF c L)
    (locks : List lock_ev) :
    ∃ w, scan_buckets NBUF c BUCKET_NUM 0 ⟨UINT_MAX, none, none, false, locks⟩ = some w ∧
      scan_inv c L (scan_order L) w := by
  obtain ⟨w, h1, h2⟩ := scan_buckets_linked NBUF c L h BUCKET_NUM 0 [] _ (by simp)
    (scan_init_inv c L locks)
  refine ⟨w, h1, ?_⟩
  unfold scan_order
  rw [List.range_eq_range']
  simpa using h2

theorem mem_scan_order_iff (L : Nat → List Nat) (x : Nat) :
    x ∈ scan_order L ↔ ∃ k, k < BUCKET_NUM ∧ x ∈ L k := by
  unfold scan_order
  simp only [List.mem_flatten, List.mem_map, List.mem_range]
  constructor
  · rintro ⟨l, ⟨k, hk, rfl⟩, hx⟩
    exact ⟨k, hk, hx⟩
  · rintro ⟨k, hk, hx⟩
    exact ⟨L k, ⟨k, hk, rfl⟩, hx⟩

theorem linked_mem_scan_order {NBUF : Nat} {c : bcache} {L : Nat → List Nat}
    (h : Linked NBUF c L) (i : Nat) : i ∈ scan_order L ↔ i < NBUF := by
  rw [mem_scan_order_iff]
  constructor
  · rintro ⟨k, hk, hx⟩
    exact (h.keyed k hk i hx).1
  · intro hi
    exact ⟨_, get_key_lt _ _, h.total i hi⟩

theorem linked_bucket_unique {NBUF : Nat} {c : bcache} {L : Nat → List Nat}
    (h : Linked NBUF c L) (x k1 k2 : Nat) (h1 : k1 < BUCKET_NUM) (h2 : k2 < BUCKET_NUM)
    (m1 : x ∈ L k1) (m2 : x ∈ L k2) : k1 = k2 := by
  rw [← (h.keyed k1 h1 x m1).2, ← (h.keyed k2 h2 x m2).2]

theorem unlink_buf (c : bcache) (mb n : Nat) : (unlink c mb n).buf = c.buf := by
  unfold unlink
  split <;> rfl

theorem unlink_buckets (c : bcache) (mb n k : Nat) (hk : k ≠ mb) :
    (unlink c mb n).buckets k = c.buckets k := by
  unfold unlink
  split <;> simp [upd, hk]

theorem append_tail_buf (c : bcache) (key n : Nat) : (append_tail c key n).buf = c.buf := by
  unfold append_tail
  split <;> rfl

theorem append_tail_buckets (c : bcache) (key n k : Nat) (hk : k ≠ key) :
    (append_tail c key n).buckets k = c.buckets k := by
  unfold append_tail
  split <;> simp [upd, hk]

theorem nodup_mid (pre post : List Nat) (n : Nat) (h : (pre ++ n :: post).Nodup) :
    pre.Nodup ∧ post.Nodup ∧ n ∉ pre ∧ n ∉ post ∧ ∀ y ∈ pre, y ∉ post := by
  rw [List.nodup_append] at h
  obtain ⟨h1, h2, h3⟩ := h
  rw [List.nodup_cons] at h2
  refine ⟨h1, h2.2, ?_, h2.1, ?_⟩
  · intro hn
    exact h3 hn (List.mem_cons_self _ _)
  · intro y hy hy2
    exact h3 hy (List.mem_cons_of_mem _ hy2)

/-- The links of node `n` inside a well-formed bucket. -/
theorem seg_mid (nodes : Nat → node) (pre post : List Nat) (n : Nat) (s : Option Nat)
    (h : seg nodes none (pre ++ n :: post) s none) :
    seg nodes none pre s (some n) ∧ (nodes n).prev = last_or none pre ∧
      seg nodes (some n) post (nodes n).next none := by
  rw [seg_append] at h
  obtain ⟨m, h1, h2, h3, h4⟩ := h
  subst h2
  exact ⟨h1, h3, h4⟩

theorem last_or_snoc (p : Option Nat) (l : List Nat) (x : Nat) :
    last_or p (l ++ [x]) = some x := by
  rw [last_or_append]; rfl

theorem last_or_cons_cons (p : Option Nat) (x y : Nat) (l : List Nat) :
    last_or p (x :: y :: l) = last_or p (y :: l) := rfl

theorem unlink_ok (c : bcache) (mb n : Nat) (pre post : List Nat)
    (hnd : (pre ++ n :: post).Nodup) (hb : bucket_ok c mb (pre ++ n :: post)) :
    bucket_ok (unlink c mb n) mb (pre ++ post) := by
  obtain ⟨hseg, htail⟩ := hb
  obtain ⟨hpre, hprev, hpost⟩ := seg_mid c.nodes pre post n _ hseg
  obtain ⟨nd1, nd2, nd3, nd4, nd5⟩ := nodup_mid pre post n hnd
  rw [last_or_append] at htail
  rcases List.eq_nil_or_concat pre with rfl | ⟨pre1, pv, hp⟩
  · -- `n` is the head
    simp only [last_or] at hprev
    simp only [seg] at hpre
    cases post with
    | nil =>
      simp only [seg] at hpost
      simp only [unlink, hprev, hpost, bucket_ok, List.append_nil, seg, last_or, upd, if_true,
        and_self]
    | cons nx post1 =>
      obtain ⟨hnext, hnxp, hrest⟩ := hpost
      have hnx : ∀ y ∈ post1, y ≠ nx := by
        intro y hy hyn
        subst hyn
        exact (List.nodup_cons.mp nd2).1 hy
      simp only [unlink, hprev, hnext, bucket_ok, List.nil_append, seg, upd_same, true_and]
      refine ⟨?_, ?_⟩
      · rw [seg_frame c.nodes]
        · exact hrest
        · intro y hy
          exact upd_other _ _ _ _ (hnx y hy)
      · rw [htail]; rfl
  · -- `n` has a predecessor `pv`
    rw [List.concat_eq_append] at hp
    subst hp
    rw [last_or_snoc] at hprev
    rw [seg_snoc] at hpre
    obtain ⟨hpre1, hpvp, hpvn⟩ := hpre
    have hpv1 : ∀ y ∈ pre1, y ≠ pv := by
      intro y hy hyn
      subst hyn
      have := List.nodup_append.mp nd1
      exact this.2.2 hy (List.mem_singleton_self _)
    cases post with
    | nil =>
      simp only [seg] at hpost
      simp only [unlink, hprev, hpost, bucket_ok, List.append_nil, upd_same]
      refine ⟨?_, ?_⟩
      · rw [seg_snoc]
        refine ⟨?_, by simp only [upd_same]; exact hpvp, by simp only [upd_same]⟩
        rw [seg_frame c.nodes]
        · exact hpre1
        · intro y hy
          exact upd_other _ _ _ _ (hpv1 y hy)
      · rw [last_or_snoc]
    | cons nx post1 =>
      obtain ⟨hnext, hnxp, hrest⟩ := hpost
      have hne : nx ≠ pv := by
        intro he
        subst he
        exact nd5 nx (by simp) (List.mem_cons_self _ _)
      have hnx1 : ∀ y ∈ pre1, y ≠ nx := by
        intro y hy hyn
        subst hyn
        exact nd5 y (by simp [hy]) (List.mem_cons_self _ _)
      have hnx2 : ∀ y ∈ post1, y ≠ nx := by
        intro y hy hyn
        subst hyn
        exact (List.nodup_cons.mp nd2).1 hy
      have hpv2 : ∀ y ∈ post1, y ≠ pv := by
        intro y hy hyn
        subst hyn
        exact nd5 y (by simp) (List.mem_cons_of_mem _ hy)
      simp only [unlink, hprev, hnext, bucket_ok]
      refine ⟨?_, ?_⟩
      · rw [seg_append]
        refine ⟨some nx, ?_, ?_⟩
        · rw [seg_snoc]
          refine ⟨?_, ?_, ?_⟩
          · rw [seg_frame c.nodes]
            · exact hpre1
            · intro y hy
              rw [upd_other _ _ _ _ (hnx1 y hy), upd_other _ _ _ _ (hpv1 y hy)]
          · rw [upd_other _ _ _ _ hne.symm, upd_same]
            exact hpvp
          · rw [upd_other _ _ _ _ hne.symm, upd_same]
        · rw [last_or_snoc]
          refine ⟨rfl, by rw [upd_same], ?_⟩
          rw [upd_same, upd_other _ _ _ _ hne]
          rw [seg_frame c.nodes]
          · exact hrest
          · intro y hy
            rw [upd_other _ _ _ _ (hnx2 y hy), upd_other _ _ _ _ (hpv2 y hy)]
      · rw [htail, last_or_append _ (pre1 ++ [pv])]; rfl

theorem unlink_nodes (c : bcache) (mb n : Nat) (pre post : List Nat)
    (hb : bucket_ok c mb (pre ++ n :: post)) (x : Nat) (hx : x ∉ pre ++ n :: post) :
    (unlink c mb n).nodes x = c.nodes x := by
  obtain ⟨hpre, hprev, hpost⟩ := seg_mid c.nodes pre post n _ hb.1
  have hxp : ∀ pv, (c.nodes n).prev = some pv → x ≠ pv := by
    intro pv hpv he
    subst he
    rcases List.eq_nil_or_concat pre with rfl | ⟨pre1, pv, hp⟩
    · rw [hprev] at hpv; simp [last_or] at hpv
    · rw [List.concat_eq_append] at hp
      subst hp
      rw [hprev, last_or_snoc] at hpv
      injection hpv with hpv
      subst hpv
      exact hx (by simp)
  have hxn : ∀ nx, (c.nodes n).next = some nx → x ≠ nx := by
    intro nx hnx he
    subst he
    cases post with
    | nil => simp only [seg] at hpost; rw [hpost] at hnx; cases hnx
    | cons y ys =>
      obtain ⟨h1, _, _⟩ := hpost
      rw [h1] at hnx
      injection hnx with hnx
      subst hnx
      exact hx (by simp)
  unfold unlink
  split
  · rfl
  · rename_i nx h1 h2
    exact upd_other _ _ _ _ (hxn nx h2)
  · rename_i pv h1 h2
    exact upd_other _ _ _ _ (hxp pv h1)
  · rename_i pv nx h1 h2
    show upd (upd c.nodes pv _) nx _ x = c.nodes x
    rw [upd_other _ _ _ _ (hxn nx h2), upd_other _ _ _ _ (hxp pv h1)]

theorem append_tail_ok (c : bcache) (key n : Nat) (l : List Nat) (hn : n ∉ l) (hnd : l.Nodup)
    (hb : bucket_ok c key l) : bucket_ok (append_tail c key n) key (l ++ [n]) := by
  obtain ⟨hseg, htail⟩ := hb
  rcases List.eq_nil_or_concat l with rfl | ⟨l1, t, hl⟩
  · simp only [last_or] at htail
    simp only [seg] at hseg
    simp only [append_tail, htail, bucket_ok, List.nil_append, seg, upd_same, last_or, and_self]
  · rw [List.concat_eq_append] at hl
    subst hl
    rw [last_or_snoc] at htail
    rw [seg_snoc] at hseg
    obtain ⟨h1, h2, h3⟩ := hseg
    have htn : t ≠ n := by
      intro he; subst he; exact hn (by simp)
    have hl1 : ∀ y ∈ l1, y ≠ t ∧ y ≠ n := by
      intro y hy
      constructor
      · intro he; subst he
        exact (List.nodup_append.mp hnd).2.2 hy (List.mem_singleton_self _)
      · intro he; subst he; exact hn (by simp [hy])
    simp only [append_tail, htail, bucket_ok, upd_same]
    refine ⟨?_, ?_⟩
    · rw [seg_snoc]
      refine ⟨?_, ?_, ?_⟩
      · rw [seg_snoc]
        refine ⟨?_, ?_, ?_⟩
        · rw [seg_frame c.nodes]
          · exact h1
          · intro y hy
            rw [upd_other _ _ _ _ (hl1 y hy).2, upd_other _ _ _ _ (hl1 y hy).2,
              upd_other _ _ _ _ (hl1 y hy).1]
        · rw [upd_other _ _ _ _ htn, upd_other _ _ _ _ htn, upd_same]
          exact h2
        · rw [upd_other _ _ _ _ htn, upd_other _ _ _ _ htn, upd_same]
      · rw [upd_same, last_or_snoc]
      · rw [upd_same]
    · rw [last_or_snoc]

theorem append_tail_nodes (c : bcache) (key n : Nat) (l : List Nat) (hb : bucket_ok c key l)
    (x : Nat) (hx : x ∉ l) (hxn : x ≠ n) : (append_tail c key n).nodes x = c.nodes x := by
  unfold append_tail
  split
  · rename_i t ht
    have : x ≠ t := by
      intro he
      subst he
      rcases List.eq_nil_or_concat l with rfl | ⟨l1, t, hl⟩
      · rw [hb.2] at ht; simp [last_or] at ht
      · rw [List.concat_eq_append] at hl
        subst hl
        rw [hb.2, last_or_snoc] at ht
        injection ht with ht
        subst ht
        exact hx (by simp)
    show upd (upd (upd c.nodes t _) n _) n _ x = c.nodes x
    rw [upd_other _ _ _ _ hxn, upd_other _ _ _ _ hxn, upd_other _ _ _ _ this]
  · show upd (upd c.nodes n _) n _ x = c.nodes x
    rw [upd_other _ _ _ _ hxn, upd_other _ _ _ _ hxn]

theorem bucket_ok_frame (c c2 : bcache) (k : Nat) (l : List Nat)
    (hn : ∀ x ∈ l, c2.nodes x = c.nodes x) (hk : c2.buckets k = c.buckets k)
    (h : bucket_ok c k l) : bucket_ok c2 k l := by
  unfold bucket_ok at *
  rw [hk, seg_frame c.nodes c2.nodes _ _ _ _ hn]
  exact h

theorem linked_congr_buf {NBUF : Nat} {c : bcache} {L : Nat → List Nat} (h : Linked NBUF c L)
    (c2 : bcache) (hn : c2.nodes = c.nodes) (hk : c2.buckets = c.buckets)
    (hid : ∀ i, i < NBUF →
      (c2.buf i).dev = (c.buf i).dev ∧ (c2.buf i).blockno = (c.buf i).blockno)
    (hr : ∀ i, i < NBUF → (c2.buf i).refcnt < UINT_MOD ∧ (c2.buf i).last_use < UINT_MOD) :
    Linked NBUF c2 L := by
  constructor
  · intro k hk2
    exact bucket_ok_frame c c2 k (L k) (fun x _ => by rw [hn]) (by rw [hk]) (h.links k hk2)
  · exact h.nodup
  · intro k hk2 x hx
    have := h.keyed k hk2 x hx
    rw [(hid x this.1).1, (hid x this.1).2]
    exact this
  · intro i hi
    rw [(hid i hi).1, (hid i hi).2]
    exact h.total i hi
  · exact hr

theorem migrate_links {NBUF : Nat} {c : bcache} {L : Nat → List Nat} (h : Linked NBUF c L)
    (mb key n : Nat) (hmb : mb < BUCKET_NUM) (hkey : key < BUCKET_NUM) (hne : mb ≠ key)
    (hn : n ∈ L mb) (k : Nat) (hk : k < BUCKET_NUM) :
    bucket_ok (append_tail (unlink c mb n) key n) k
      (upd (upd L mb ((L mb).erase n)) key (L key ++ [n]) k) := by
  obtain ⟨pre, post, hL⟩ := List.append_of_mem hn
  have hnd := h.nodup mb hmb
  have hbm := h.links mb hmb
  rw [hL] at hnd hbm
  obtain ⟨nd1, nd2, nd3, nd4, nd5⟩ := nodup_mid pre post n hnd
  have herase : (L mb).erase n = pre ++ post := by
    rw [hL, List.erase_append_right _ nd3, List.erase_cons_head]
  have hnkey : n ∉ L key := fun hm => hne (linked_bucket_unique h n mb key hmb hkey hn hm)
  -- bucket `key` is untouched by the unlinking
  have hkey1 : bucket_ok (unlink c mb n) key (L key) := by
    refine bucket_ok_frame c _ key (L key) ?_ (unlink_buckets c mb n key hne.symm)
      (h.links key hkey)
    intro x hx
    refine unlink_nodes c mb n pre post hbm x ?_
    rw [← hL]
    intro hm
    exact hne (linked_bucket_unique h x mb key hmb hkey hm hx)
  by_cases hk1 : k = key
  · subst hk1
    rw [upd_same]
    exact append_tail_ok _ k n (L k) hnkey (h.nodup k hkey) hkey1
  · rw [upd_other _ _ _ _ hk1]
    by_cases hk2 : k = mb
    · subst hk2
      rw [upd_same, herase]
      refine bucket_ok_frame (unlink c k n) _ k (pre ++ post) ?_
        (append_tail_buckets _ key n k hk1) (unlink_ok c k n pre post hnd hbm)
      intro x hx
      have hxm : x ∈ L k := by
        rw [hL]
        rcases List.mem_append.mp hx with hx | hx
        · exact List.mem_append_left _ hx
        · exact List.mem_append_right _ (List.mem_cons_of_mem _ hx)
      refine append_tail_nodes _ key n (L key) hkey1 x ?_ ?_
      · intro hm
        exact hne (linked_bucket_unique h x k key hmb hkey hxm hm)
      · intro he
        subst he
        rcases List.mem_append.mp hx with hx | hx
        · exact nd3 hx
        · exact nd4 hx
    · rw [upd_other _ _ _ _ hk2]
      refine bucket_ok_frame c _ k (L k) ?_ ?_ (h.links k hk)
      · intro x hx
        have hxm : x ∉ L mb := fun hm => hk2 (linked_bucket_unique h x k mb hk hmb hx hm)
        have hxk : x ∉ L key := fun hm => hk1 (linked_bucket_unique h x k key hk hkey hx hm)
        have hxn : x ≠ n := by
          intro he; subst he; exact hxm hn
        rw [append_tail_nodes _ key n (L key) hkey1 x hxk hxn]
        exact unlink_nodes c mb n pre post hbm x (by rw [← hL]; exact hxm)
      · rw [append_tail_buckets _ key n k hk1, unlink_buckets c mb n k hk2]

/-- The cache between the list surgery and the overwriting of the buffer in `evict`. -/
theorem migrate_buf (c : bcache) (mb key n : Nat) :
    (if mb ≠ key then append_tail (unlink c mb n) key n else c).buf = c.buf := by
  split
  · rw [append_tail_buf, unlink_buf]
  · rfl

theorem evict_spec (c : bcache) (pid dev blockno ticks n mb : Nat) (locks : List lock_ev) :
    (evict c pid dev blockno ticks n mb locks).cache.nodes =
        (if mb ≠ get_key dev blockno then append_tail (unlink c mb n) (get_key dev blockno) n
          else c).nodes ∧
    (evict c pid dev blockno ticks n mb locks).cache.buckets =
        (if mb ≠ get_key dev blockno then append_tail (unlink c mb n) (get_key dev blockno) n
          else c).buckets ∧
    (∀ i, i ≠ n → (evict c pid dev blockno ticks n mb locks).cache.buf i = c.buf i) ∧
    ((evict c pid dev blockno ticks n mb locks).cache.buf n =
        { c.buf n with dev := dev, blockno := blockno, valid := 0, refcnt := 1,
                       last_use := ticks % UINT_MOD,
                       lock := match (c.buf n).lock with
                         | none => some pid
                         | some q => some q }) ∧
    ((evict c pid dev blockno ticks n mb locks).st =
        match (c.buf n).lock with
        | none => .ret n
        | some _ => .sleeps n) := by
  have hb := migrate_buf c mb (get_key dev blockno) n
  unfold evict
  simp only [acquiresleep, hb, upd_same]
  cases hl : (c.buf n).lock with
  | none =>
    simp only [true_and]
    refine ⟨?_, ?_⟩
    · intro i hi
      simp [upd, hi]
    · simp
  | some q =>
    simp only [true_and]
    refine ⟨?_, ?_⟩
    · intro i hi
      simp [upd, hi]
    · simp [hl]

theorem nodup_moved_key {NBUF : Nat} {c : bcache} {L : Nat → List Nat} (h : Linked NBUF c L)
    (mb key n : Nat) (hmb : mb < BUCKET_NUM) (hkey : key < BUCKET_NUM) (hne : mb ≠ key)
    (hn : n ∈ L mb) : (L key ++ [n]).Nodup := by
  have hnkey : n ∉ L key := fun hm => hne (linked_bucket_unique h n mb key hmb hkey hn hm)
  rw [List.nodup_append]
  refine ⟨h.nodup key hkey, List.nodup_singleton n, ?_⟩
  intro a ha hb
  rw [List.mem_singleton] at hb
  subst hb
  exact hnkey ha

theorem evict_linked {NBUF : Nat} {c : bcache} {L : Nat → List Nat} (h : Linked NBUF c L)
    (pid dev blockno ticks n mb : Nat) (locks : List lock_ev) (hmb : mb < BUCKET_NUM)
    (hn : n ∈ L mb) :
    Linked NBUF (evict c pid dev blockno ticks n mb locks).cache
      (moved L mb (get_key dev blockno) n) := by
  obtain ⟨e1, e2, e3, e4, _⟩ := evict_spec c pid dev blockno ticks n mb locks
  have hkey := get_key_lt dev blockno
  have hnN : n < NBUF := (h.keyed mb hmb n hn).1
  have hid : ∀ x, x ≠ n →
      get_key ((evict c pid dev blockno ticks n mb locks).cache.buf x).dev
        ((evict c pid dev blockno ticks n mb locks).cache.buf x).blockno =
      get_key (c.buf x).dev (c.buf x).blockno := by
    intro x hx; rw [e3 x hx]
  have hidn : get_key ((evict c pid dev blockno ticks n mb locks).cache.buf n).dev
      ((evict c pid dev blockno ticks n mb locks).cache.buf n).blockno = get_key dev blockno := by
    rw [e4]
  have hrange : ∀ i, i < NBUF →
      ((evict c pid dev blockno ticks n mb locks).cache.buf i).refcnt < UINT_MOD ∧
      ((evict c pid dev blockno ticks n mb locks).cache.buf i).last_use < UINT_MOD := by
    intro i hi
    by_cases hin : i = n
    · subst hin
      rw [e4]
      exact ⟨by show 1 < UINT_MOD; decide, Nat.mod_lt _ (by decide)⟩
    · rw [e3 i hin]; exact h.range i hi
  unfold moved
  by_cases hne : mb = get_key dev blockno
  · -- the victim already sits in the target bucket
    simp only [hne, ne_eq, not_true_eq_false, if_false] at e1 e2 ⊢
    subst hne
    constructor
    · intro k hk
      exact bucket_ok_frame c _ k (L k) (fun x _ => by rw [e1]) (by rw [e2]) (h.links k hk)
    · exact h.nodup
    · intro k hk x hx
      refine ⟨(h.keyed k hk x hx).1, ?_⟩
      by_cases hxn : x = n
      · subst hxn
        rw [hidn]
        exact linked_bucket_unique h x _ k hmb hk hn hx
      · rw [hid x hxn]; exact (h.keyed k hk x hx).2
    · intro i hi
      by_cases hin : i = n
      · subst hin
        rw [hidn]; exact hn
      · rw [hid i hin]; exact h.total i hi
    · exact hrange
  · simp only [ne_eq, hne, not_false_eq_true, if_true] at e1 e2 ⊢
    have herase : ∀ x, x ∈ (L mb).erase n ↔ x ≠ n ∧ x ∈ L mb :=
      fun x => (h.nodup mb hmb).mem_erase_iff
    constructor
    · intro k hk
      exact bucket_ok_frame _ _ k _ (fun x _ => by rw [e1]) (by rw [e2])
        (migrate_links h mb _ n hmb hkey hne hn k hk)
    · intro k hk
      by_cases hk1 : k = get_key dev blockno
      · subst hk1
        rw [upd_same]
        exact nodup_moved_key h mb _ n hmb hkey hne hn
      · rw [upd_other _ _ _ _ hk1]
        by_cases hk2 : k = mb
        · subst hk2
          rw [upd_same]
          exact (h.nodup k hk).erase n
        · rw [upd_other _ _ _ _ hk2]
          exact h.nodup k hk
    · intro k hk x hx
      by_cases hk1 : k = get_key dev blockno
      · subst hk1
        rw [upd_same] at hx
        rcases List.mem_append.mp hx with hx1 | hx1
        · have hxn : x ≠ n := by
            intro he
            rw [he] at hx1
            exact hne (linked_bucket_unique h n mb _ hmb hkey hn hx1)
          rw [hid x hxn]
          exact h.keyed _ hk x hx1
        · rw [List.mem_singleton] at hx1
          rw [hx1]
          exact ⟨hnN, hidn⟩
      · rw [upd_other _ _ _ _ hk1] at hx
        by_cases hk2 : k = mb
        · subst hk2
          rw [upd_same, herase] at hx
          rw [hid x hx.1]
          exact h.keyed k hk x hx.2
        · rw [upd_other _ _ _ _ hk2] at hx
          have hxn : x ≠ n := by
            intro he; subst he
            exact hk2 (linked_bucket_unique h x k mb hk hmb hx hn)
          rw [hid x hxn]
          exact h.keyed k hk x hx
    · intro i hi
      by_cases hin : i = n
      · subst hin
        rw [hidn, upd_same]
        simp
      · rw [hid i hin]
        have hm := h.total i hi
        by_cases hk1 : get_key (c.buf i).dev (c.buf i).blockno = get_key dev blockno
        · rw [hk1, upd_same]
          rw [hk1] at hm
          exact List.mem_append_left _ hm
        · rw [upd_other _ _ _ _ hk1]
          by_cases hk2 : get_key (c.buf i).dev (c.buf i).blockno = mb
          · rw [hk2, upd_same, herase]
            rw [hk2] at hm
            exact ⟨hin, hm⟩
          · rw [upd_other _ _ _ _ hk2]
            exact hm
    · exact hrange

theorem hit_spec (c : bcache) (pid ticks b : Nat) (locks : List lock_ev) :
    (hit c pid ticks b locks).cache.nodes = c.nodes ∧
    (hit c pid ticks b locks).cache.buckets = c.buckets ∧
    (∀ i, i ≠ b → (hit c pid ticks b locks).cache.buf i = c.buf i) ∧
    ((hit c pid ticks b locks).cache.buf b =
        { c.buf b with refcnt := ((c.buf b).refcnt + 1) % UINT_MOD,
                       last_use := ticks % UINT_MOD,
                       lock := match (c.buf b).lock with
                         | none => some pid
                         | some q => some q }) ∧
    ((hit c pid ticks b locks).st =
        match (c.buf b).lock with
        | none => .ret b
        | some _ => .sleeps b) ∧
    (hit c pid ticks b locks).locks = locks := by
  unfold hit
  simp only [acquiresleep, upd_same]
  cases hl : (c.buf b).lock with
  | none =>
    simp only [true_and, and_true]
    refine ⟨?_, ?_⟩
    · intro i hi
      simp [upd, hi]
    · simp
  | some q =>
    simp only [true_and, and_true]
    refine ⟨?_, ?_⟩
    · intro i hi
      simp [upd, hi]
    · simp [hl]

theorem bget_hit {NBUF : Nat} {c : bcache} {L : Nat → List Nat} (h : Linked NBUF c L)
    (pid dev blockno ticks b : Nat)
    (hf : (L (get_key dev blockno)).find? (fun n => decide (holds c dev blockno n)) = some b) :
    bget NBUF c pid dev blockno ticks =
      hit c pid ticks b [.acq (.bkt (get_key dev blockno)), .rel (.bkt (get_key dev blockno))] := by
  have hk := get_key_lt dev blockno
  have hl := lookup_seg c dev blockno (L (get_key dev blockno)) none _ NBUF
    (h.links _ hk).1 (linked_length_le h _ hk)
  unfold bget
  simp only [hl, hf]

/-- The two ways a miss can end: a slot is recycled, or the scan ends with
`min_time == -1`. -/
theorem bget_miss {NBUF : Nat} {c : bcache} {L : Nat → List Nat} (h : Linked NBUF c L)
    (pid dev blockno ticks : Nat)
    (hf : (L (get_key dev blockno)).find? (fun n => decide (holds c dev blockno n)) = none) :
    ∃ w, scan_inv c L (scan_order L) w ∧
      ((∃ n mb, w.min_time ≠ UINT_MAX ∧ w.min_n = some n ∧ w.min_bucket = some mb ∧
          mb < BUCKET_NUM ∧ n ∈ L mb ∧
          bget NBUF c pid dev blockno ticks = evict c pid dev blockno ticks n mb w.locks) ∨
       (w.min_time = UINT_MAX ∧
          bget NBUF c pid dev blockno ticks = ⟨.panic .no_buffers, c, w.locks⟩)) := by
  have hk := get_key_lt dev blockno
  have hl := lookup_seg c dev blockno (L (get_key dev blockno)) none _ NBUF
    (h.links _ hk).1 (linked_length_le h _ hk)
  obtain ⟨w, hw, hinv⟩ := scan_full NBUF c L h
    [.acq (.bkt (get_key dev blockno)), .rel (.bkt (get_key dev blockno)), .acq .global]
  refine ⟨w, hinv, ?_⟩
  unfold bget
  simp only [hl, hf, hw]
  by_cases hm : w.min_time = UINT_MAX
  · right
    simp [hm]
  · left
    cases hn : w.min_n with
    | none => exact absurd (hinv.none_max hn) hm
    | some n =>
      obtain ⟨mb, hmb, hb, hmem⟩ := hinv.in_bucket n hn
      refine ⟨n, mb, hm, rfl, hb, hmb, hmem, ?_⟩
      simp [hm, hb]

theorem find_none_iff {NBUF : Nat} {c : bcache} {L : Nat → List Nat} (h : Linked NBUF c L)
    (dev blockno : Nat) :
    (L (get_key dev blockno)).find? (fun n => decide (holds c dev blockno n)) = none ↔
      ∀ x, x < NBUF → ¬ holds c dev blockno x := by
  rw [List.find?_eq_none]
  constructor
  · intro hf x hx hh
    have hm := h.total x hx
    rw [hh.1, hh.2] at hm
    exact hf x hm (by simpa using hh)
  · intro hf x hx
    have := hf x (h.keyed _ (get_key_lt _ _) x hx).1
    simpa using this

/-- The first scan of the target bucket finds the first node of its list that holds the
block. -/
theorem lookup_linked {NBUF : Nat} {c : bcache} {L : Nat → List Nat} (h : Linked NBUF c L)
    (dev blockno : Nat) :
    lookup c dev blockno NBUF (c.buckets (get_key dev blockno)).head =
      some ((L (get_key dev blockno)).find? (fun n => decide (holds c dev blockno n))) :=
  lookup_seg c dev blockno (L (get_key dev blockno)) none _ NBUF
    (h.links _ (get_key_lt _ _)).1 (linked_length_le h _ (get_key_lt _ _))

/-- The facts about an eviction on which the results about the choice of the victim rest. -/
theorem bget_evicts {NBUF : Nat} {c : bcache} {L : Nat → List Nat} (h : Linked NBUF c L)
    (pid dev blockno ticks b : Nat)
    (hmiss : lookup c dev blockno NBUF (c.buckets (get_key dev blockno)).head = some none)
    (hst : (bget NBUF c pid dev blockno ticks).st = .ret b ∨
      (bget NBUF c pid dev blockno ticks).st = .sleeps b) :
    ∃ w mb, scan_inv c L (scan_order L) w ∧ w.min_time ≠ UINT_MAX ∧ w.min_n = some b ∧
      w.min_bucket = some mb ∧ mb < BUCKET_NUM ∧ b ∈ L mb ∧
      bget NBUF c pid dev blockno ticks = evict c pid dev blockno ticks b mb w.locks := by
  have hf : (L (get_key dev blockno)).find? (fun n => decide (holds c dev blockno n)) = none := by
    have := lookup_linked h dev blockno
    rw [hmiss] at this
    injection this with this
    exact this.symm
  obtain ⟨w, hinv, hcase⟩ := bget_miss h pid dev blockno ticks hf
  rcases hcase with ⟨n, mb, hne, hn, hb, hmb, hmem, he⟩ | ⟨_, he⟩
  · have hbn : b = n := by
      obtain ⟨_, _, _, _, e5⟩ := evict_spec c pid dev blockno ticks n mb w.locks
      rw [he, e5] at hst
      cases hl : (c.buf n).lock with
      | none =>
        rw [hl] at hst
        rcases hst with hst | hst
        · injection hst with hst; exact hst.symm
        · cases hst
      | some q =>
        rw [hl] at hst
        rcases hst with hst | hst
        · cases hst
        · injection hst with hst; exact hst.symm
    subst hbn
    exact ⟨w, mb, hinv, hne, hn, hb, hmb, hmem, he⟩
  · rw [he] at hst
    rcases hst with hst | hst <;> cases hst

theorem get_key_zero : get_key 0 0 = 0 := by decide

theorem binit_slot_buf_zero (c : bcache) (i : Nat) (h : c.buf = zero_storage.buf) :
    (binit_slot c i).buf = zero_storage.buf := by
  have hi : c.buf i = ⟨0, 0, 0, none, 0, 0, 0⟩ := by rw [h]; rfl
  have hu : upd c.buf i ⟨0, 0, 0, none, 0, 0, 0⟩ = zero_storage.buf := by
    funext j
    unfold upd
    split
    · rfl
    · rw [h]
  unfold binit_slot
  simp only [hi]
  split <;> exact hu

theorem binit_slot_buckets (c : bcache) (i k : Nat)
    (hk : k ≠ get_key (c.buf i).dev (c.buf i).blockno) :
    (binit_slot c i).buckets k = c.buckets k := by
  unfold binit_slot
  simp only
  split <;> exact upd_other _ _ _ _ hk

theorem seg_start_some (nodes : Nat → node) (p : Option Nat) (l : List Nat) (t : Nat)
    (s f : Option Nat) (h : seg nodes p (l ++ [t]) s f) : ∃ x, s = some x := by
  cases l with
  | nil => exact ⟨t, h.1⟩
  | cons y ys => exact ⟨y, h.1⟩

theorem binit_slot_ok (c : bcache) (i : Nat) (l : List Nat) (hi : i ∉ l) (hnd : l.Nodup)
    (hb : bucket_ok c (get_key (c.buf i).dev (c.buf i).blockno) l) :
    bucket_ok (binit_slot c i) (get_key (c.buf i).dev (c.buf i).blockno) (l ++ [i]) := by
  obtain ⟨hseg, htail⟩ := hb
  rcases List.eq_nil_or_concat l with rfl | ⟨l1, t, hl⟩
  · simp only [seg] at hseg
    simp only [binit_slot, hseg, bucket_ok, List.nil_append, seg, upd_same, last_or, and_self]
  · rw [List.concat_eq_append] at hl
    subst hl
    rw [last_or_snoc] at htail
    obtain ⟨hd, hhd⟩ := seg_start_some _ _ _ _ _ _ hseg
    rw [seg_snoc] at hseg
    obtain ⟨h1, h2, h3⟩ := hseg
    have hti : t ≠ i := by
      intro he; subst he; exact hi (by simp)
    have hl1 : ∀ y ∈ l1, y ≠ t ∧ y ≠ i := by
      intro y hy
      constructor
      · intro he; subst he
        exact (List.nodup_append.mp hnd).2.2 hy (List.mem_singleton_self _)
      · intro he; subst he; exact hi (by simp [hy])
    simp only [binit_slot, hhd, htail, bucket_ok, upd_same]
    refine ⟨?_, ?_⟩
    · rw [seg_snoc]
      refine ⟨?_, ?_, ?_⟩
      · rw [seg_snoc]
        refine ⟨?_, ?_, ?_⟩
        · rw [← hhd, seg_frame c.nodes]
          · exact h1
          · intro y hy
            rw [upd_other _ _ _ _ (hl1 y hy).2, upd_other _ _ _ _ (hl1 y hy).1,
              upd_other _ _ _ _ (hl1 y hy).2]
        · rw [upd_other _ _ _ _ hti, upd_same, upd_other _ _ _ _ hti]
          exact h2
        · rw [upd_other _ _ _ _ hti, upd_same]
      · rw [upd_same, last_or_snoc]
      · rw [upd_same, upd_other _ _ _ _ hti.symm, upd_same]
    · rw [last_or_snoc]

/-- What holds after the first `i` rounds of the second loop of `binit` on zero storage. -/
theorem binit_loop (i : Nat) :
    ((List.range i).foldl binit_slot
        { zero_storage with
          buckets := fun k => if k < BUCKET_NUM then ⟨none, none⟩ else zero_storage.buckets k }).buf
      = zero_storage.buf ∧
    bucket_ok ((List.range i).foldl binit_slot
        { zero_storage with
          buckets := fun k => if k < BUCKET_NUM then ⟨none, none⟩ else zero_storage.buckets k })
      0 (List.range i) ∧
    ∀ k, k ≠ 0 → ((List.range i).foldl binit_slot
        { zero_storage with
          buckets := fun k => if k < BUCKET_NUM then ⟨none, none⟩ else zero_storage.buckets k }
        ).buckets k = ⟨none, none⟩ := by
  induction i with
  | zero =>
    refine ⟨rfl, ?_, ?_⟩
    · simp [bucket_ok, seg, last_or, BUCKET_NUM]
    · intro k _
      simp only [List.range_zero, List.foldl_nil]
      split <;> rfl
  | succ i ih =>
    rw [List.range_succ, List.foldl_append]
    simp only [List.foldl_cons, List.foldl_nil]
    generalize (List.range i).foldl binit_slot
        { zero_storage with
          buckets := fun k => if k < BUCKET_NUM then ⟨none, none⟩ else zero_storage.buckets k }
      = c at ih
    obtain ⟨hbuf, hok, hrest⟩ := ih
    have hkey : get_key (c.buf i).dev (c.buf i).blockno = 0 := by
      rw [hbuf]; exact get_key_zero
    refine ⟨binit_slot_buf_zero c i hbuf, ?_, ?_⟩
    · have := binit_slot_ok c i (List.range i) (by simp) (List.nodup_range i)
        (by rw [hkey]; exact hok)
      rw [hkey] at this
      exact this
    · intro k hk
      rw [binit_slot_buckets c i k (by rw [hkey]; exact hk)]
      exact hrest k hk

theorem boot_linked (NBUF : Nat) : Linked NBUF (boot NBUF) (boot_lists NBUF) := by
  obtain ⟨hbuf, hok, hrest⟩ := binit_loop NBUF
  have hb : (boot NBUF).buf = zero_storage.buf := hbuf
  have hid : ∀ x, get_key ((boot NBUF).buf x).dev ((boot NBUF).buf x).blockno = 0 := by
    intro x; rw [hb]; exact get_key_zero
  have hl0 : boot_lists NBUF 0 = List.range NBUF := by
    unfold boot_lists; rw [get_key_zero]; simp
  have hlk : ∀ k, k ≠ 0 → boot_lists NBUF k = [] := by
    intro k hk
    unfold boot_lists; rw [get_key_zero]; simp [hk]
  constructor
  · intro k _
    by_cases hk : k = 0
    · subst hk; rw [hl0]; exact hok
    · rw [hlk k hk]
      have := hrest k hk
      unfold bucket_ok
      show seg _ none [] ((boot NBUF).buckets k).head none ∧
        ((boot NBUF).buckets k).tail = last_or none []
      have hbk : (boot NBUF).buckets k = ⟨none, none⟩ := this
      rw [hbk]
      exact ⟨rfl, rfl⟩
  · intro k _
    by_cases hk : k = 0
    · subst hk; rw [hl0]; exact List.nodup_range NBUF
    · rw [hlk k hk]; exact List.nodup_nil
  · intro k _ x hx
    by_cases hk : k = 0
    · subst hk
      rw [hl0] at hx
      exact ⟨List.mem_range.mp hx, hid x⟩
    · rw [hlk k hk] at hx; cases hx
  · intro i hi
    rw [hid i, hl0]
    exact List.mem_range.mpr hi
  · intro i _
    rw [hb]
    exact ⟨show 0 < UINT_MOD by decide, show 0 < UINT_MOD by decide⟩

theorem boot_unique_ids (NBUF : Nat) : unique_ids NBUF (boot NBUF) := by
  intro i j _ _ _ _
  right
  have hb : (boot NBUF).buf = zero_storage.buf := (binit_loop NBUF).1
  rw [hb]
  exact ⟨rfl, rfl⟩

/-- A change of the buffers that keeps identities and stays in range keeps the invariant. -/
theorem good_frame {NBUF : Nat} {c : bcache} (h : good NBUF c) (c2 : bcache)
    (hn : c2.nodes = c.nodes) (hk : c2.buckets = c.buckets)
    (hid : ∀ i, i < NBUF →
      (c2.buf i).dev = (c.buf i).dev ∧ (c2.buf i).blockno = (c.buf i).blockno)
    (hr : ∀ i, i < NBUF → (c2.buf i).refcnt < UINT_MOD ∧ (c2.buf i).last_use < UINT_MOD) :
    good NBUF c2 := by
  obtain ⟨⟨L, hL⟩, hu⟩ := h
  refine ⟨⟨L, linked_congr_buf hL c2 hn hk hid hr⟩, ?_⟩
  intro i j hi hj hd hb
  rw [(hid i hi).1, (hid i hi).2] at *
  rw [(hid j hj).1] at hd
  rw [(hid j hj).2] at hb
  exact hu i j hi hj hd hb

theorem wf_range {NBUF : Nat} {c : bcache} (h : WF NBUF c) (i : Nat) (hi : i < NBUF) :
    (c.buf i).refcnt < UINT_MOD ∧ (c.buf i).last_use < UINT_MOD := by
  obtain ⟨L, hL⟩ := h
  exact hL.range i hi

theorem hit_good {NBUF : Nat} {c : bcache} (h : good NBUF c) (pid ticks b : Nat)
    (locks : List lock_ev) : good NBUF (hit c pid ticks b locks).cache := by
  obtain ⟨e1, e2, e3, e4, _, _⟩ := hit_spec c pid ticks b locks
  refine good_frame h _ e1 e2 ?_ ?_
  · intro i _
    by_cases hib : i = b
    · subst hib; rw [e4]; exact ⟨rfl, rfl⟩
    · rw [e3 i hib]; exact ⟨rfl, rfl⟩
  · intro i hi
    by_cases hib : i = b
    · subst hib; rw [e4]
      exact ⟨Nat.mod_lt _ (by decide), Nat.mod_lt _ (by decide)⟩
    · rw [e3 i hib]; exact wf_range h.1 i hi

theorem evict_good {NBUF : Nat} {c : bcache} {L : Nat → List Nat} (h : Linked NBUF c L)
    (hu : unique_ids NBUF c) (pid dev blockno ticks n mb : Nat) (locks : List lock_ev)
    (hmb : mb < BUCKET_NUM) (hn : n ∈ L mb) (hmiss : ∀ x, x < NBUF → ¬ holds c dev blockno x) :
    good NBUF (evict c pid dev blockno ticks n mb locks).cache := by
  refine ⟨⟨_, evict_linked h pid dev blockno ticks n mb locks hmb hn⟩, ?_⟩
  obtain ⟨_, _, e3, e4, _⟩ := evict_spec c pid dev blockno ticks n mb locks
  intro i j hi hj hd hb
  by_cases hin : i = n
  · by_cases hjn : j = n
    · left; rw [hin, hjn]
    · exfalso
      rw [hin, e4, e3 j hjn] at hd hb
      exact hmiss j hj ⟨hd.symm, hb.symm⟩
  · by_cases hjn : j = n
    · exfalso
      rw [hjn, e4, e3 i hin] at hd hb
      exact hmiss i hi ⟨hd, hb⟩
    · rw [e3 i hin] at hd hb ⊢
      rw [e3 j hjn] at hd hb
      exact hu i j hi hj hd hb

theorem bget_good {NBUF : Nat} {c : bcache} (h : good NBUF c) (pid dev blockno ticks : Nat) :
    good NBUF (bget NBUF c pid dev blockno ticks).cache := by
  obtain ⟨⟨L, hL⟩, hu⟩ := h
  cases hf : (L (get_key dev blockno)).find? (fun n => decide (holds c dev blockno n)) with
  | some b =>
    rw [bget_hit hL pid dev blockno ticks b hf]
    exact hit_good ⟨⟨L, hL⟩, hu⟩ pid ticks b _
  | none =>
    obtain ⟨w, _, hcase⟩ := bget_miss hL pid dev blockno ticks hf
    rcases hcase with ⟨n, mb, _, _, _, hmb, hmem, he⟩ | ⟨_, he⟩
    · rw [he]
      exact evict_good hL hu pid dev blockno ticks n mb w.locks hmb hmem
        ((find_none_iff hL dev blockno).mp hf)
    · rw [he]
      exact ⟨⟨L, hL⟩, hu⟩

theorem brelse_good {NBUF : Nat} {c : bcache} (h : good NBUF c) (pid b ticks : Nat) :
    good NBUF (brelse c pid b ticks).cache := by
  unfold brelse
  split
  · exact h
  · refine good_frame h _ rfl rfl ?_ ?_
    · intro i _
      by_cases hib : i = b
      · subst hib; simp
      · simp [upd, hib]
    · intro i hi
      by_cases hib : i = b
      · subst hib
        simp only [upd_same]
        refine ⟨Nat.mod_lt _ (by decide), ?_⟩
        split
        · exact Nat.mod_lt _ (by decide)
        · exact (wf_range h.1 i hi).2
      · simp only [upd, hib, if_false]
        exact wf_range h.1 i hi

theorem bpin_good {NBUF : Nat} {c : bcache} (h : good NBUF c) (b : Nat) :
    good NBUF (bpin c b).cache := by
  unfold bpin
  refine good_frame h _ rfl rfl ?_ ?_
  · intro i _
    by_cases hib : i = b
    · subst hib; simp
    · simp [upd, hib]
  · intro i hi
    by_cases hib : i = b
    · subst hib
      simp only [upd_same]
      exact ⟨Nat.mod_lt _ (by decide), (wf_range h.1 i hi).2⟩
    · simp only [upd, hib, if_false]
      exact wf_range h.1 i hi

theorem bunpin_good {NBUF : Nat} {c : bcache} (h : good NBUF c) (b : Nat) :
    good NBUF (bunpin c b).cache := by
  unfold bunpin
  refine good_frame h _ rfl rfl ?_ ?_
  · intro i _
    by_cases hib : i = b
    · subst hib; simp
    · simp [upd, hib]
  · intro i hi
    by_cases hib : i = b
    · subst hib
      simp only [upd_same]
      exact ⟨Nat.mod_lt _ (by decide), (wf_range h.1 i hi).2⟩
    · simp only [upd, hib, if_false]
      exact wf_range h.1 i hi

theorem bread_good {NBUF : Nat} {m : machine} (h : good NBUF m.cache)
    (pid dev blockno ticks : Nat) : good NBUF (bread NBUF m pid dev blockno ticks).m.cache := by
  have hg := bget_good h pid dev blockno ticks
  unfold bread
  simp only
  split
  · rename_i b hb
    split
    · refine good_frame hg _ rfl rfl ?_ ?_
      · intro i _
        by_cases hib : i = b
        · subst hib; simp [virtio_disk_rw]
        · simp [virtio_disk_rw, upd, hib]
      · intro i hi
        by_cases hib : i = b
        · subst hib
          simp only [virtio_disk_rw, Bool.false_eq_true, if_false, upd_same]
          exact wf_range hg.1 i hi
        · simp only [virtio_disk_rw, Bool.false_eq_true, upd, hib, if_false]
          exact wf_range hg.1 i hi
    · exact hg
  · exact hg

theorem bwrite_cache (m : machine) (pid b : Nat) : (bwrite m pid b).m.cache = m.cache := by
  unfold bwrite
  split
  · rfl
  · simp [virtio_disk_rw]

theorem exec_good {NBUF : Nat} {m : machine} (h : good NBUF m.cache) (cl : call) :
    good NBUF (exec NBUF m cl).m.cache := by
  cases cl with
  | bget pid dev blockno ticks => exact bget_good h pid dev blockno ticks
  | bread pid dev blockno ticks => exact bread_good h pid dev blockno ticks
  | bwrite pid b => simp only [exec]; rw [bwrite_cache]; exact h
  | brelse pid b ticks => exact brelse_good h pid b ticks
  | bpin b => exact bpin_good h b
  | bunpin b => exact bunpin_good h b

theorem run_good {NBUF : Nat} (calls : List call) :
    ∀ (m m2 : machine), good NBUF m.cache → run NBUF m calls = some m2 → good NBUF m2.cache := by
  induction calls with
  | nil =>
    intro m m2 h hr
    simp only [run] at hr
    injection hr with hr
    subst hr
    exact h
  | cons cl rest ih =>
    intro m m2 h hr
    simp only [run] at hr
    split at hr
    · exact ih _ m2 (exec_good h cl) hr
    · cases hr

theorem boot_good (NBUF : Nat) : good NBUF (boot NBUF) :=
  ⟨⟨boot_lists NBUF, boot_linked NBUF⟩, boot_unique_ids NBUF⟩

theorem walk_seg (nodes : Nat → node) (l : List Nat) :
    ∀ (p s : Option Nat) (fuel : Nat), seg nodes p l s none → l.length ≤ fuel →
      walk nodes fuel s = some l := by
  induction l with
  | nil =>
    intro p s fuel h _
    simp only [seg] at h
    subst h
    simp [walk]
  | cons x xs ih =>
    intro p s fuel h hf
    obtain ⟨h1, _, h3⟩ := h
    subst h1
    cases fuel with
    | zero => simp at hf
    | succ f =>
      have hf2 : xs.length ≤ f := by simpa using hf
      simp only [walk, ih _ _ _ h3 hf2, Option.map_some']

theorem linked_bucket_nodes {NBUF : Nat} {c : bcache} {L : Nat → List Nat}
    (h : Linked NBUF c L) (k : Nat) (hk : k < BUCKET_NUM) :
    bucket_nodes NBUF c k = some (L k) :=
  walk_seg c.nodes (L k) none _ NBUF (h.links k hk).1 (linked_length_le h k hk)

theorem linked_count {NBUF : Nat} {c : bcache} {L : Nat → List Nat}
    (h : Linked NBUF c L) (k : Nat) (hk : k < BUCKET_NUM) (i : Nat) (hi : i < NBUF) :
    (L k).count i = if get_key (c.buf i).dev (c.buf i).blockno = k then 1 else 0 := by
  split
  · rename_i he
    have hm := h.total i hi
    rw [he] at hm
    exact List.count_eq_one_of_mem (h.nodup k hk) hm
  · rename_i he
    apply List.count_eq_zero_of_not_mem
    intro hm
    exact he (h.keyed k hk i hm).2

/-- What the code does on a miss in a well-formed cache: it aborts exactly when every slot with
reference count 0 has `last_use` equal to `UINT_MAX` (in particular when there is none). -/
theorem bget_no_buffers_iff {NBUF : Nat} {c : bcache} (hwf : WF NBUF c)
    (pid dev blockno ticks : Nat)
    (hmiss : lookup c dev blockno NBUF (c.buckets (get_key dev blockno)).head = some none) :
    (bget NBUF c pid dev blockno ticks).st = .panic .no_buffers ↔
      ∀ j, j < NBUF → (c.buf j).refcnt = 0 → (c.buf j).last_use = UINT_MAX := by
  obtain ⟨L, h⟩ := hwf
  have hf : (L (get_key dev blockno)).find? (fun n => decide (holds c dev blockno n)) = none := by
    have := lookup_linked h dev blockno
    rw [hmiss] at this
    injection this with this
    exact this.symm
  obtain ⟨w, hinv, hcase⟩ := bget_miss h pid dev blockno ticks hf
  rcases hcase with ⟨n, mb, hne, hn, _, hmb, hmem, he⟩ | ⟨hmax, he⟩
  · constructor
    · intro hp
      obtain ⟨_, _, _, _, e5⟩ := evict_spec c pid dev blockno ticks n mb w.locks
      rw [he, e5] at hp
      split at hp <;> cases hp
    · intro hall
      exfalso
      have := hall n (h.keyed mb hmb n hmem).1 (hinv.is_free n hn)
      rw [← hinv.is_time n hn] at this
      exact hne this
  · constructor
    · intro _ j hj hfree
      have h1 := hinv.max_seen hmax j ((linked_mem_scan_order h j).mpr hj) hfree
      have h2 := (h.range j hj).2
      unfold UINT_MOD at h2
      unfold UINT_MAX at h1 ⊢
      omega
    · intro _
      rw [he]

theorem lookup_some_holds (c : bcache) (dev blockno b : Nat) :
    ∀ (fuel : Nat) (s : Option Nat), lookup c dev blockno fuel s = some (some b) →
      holds c dev blockno b := by
  intro fuel
  induction fuel with
  | zero =>
    intro s h
    cases s with
    | none => simp [lookup] at h
    | some n => simp [lookup] at h
  | succ f ih =>
    intro s h
    cases s with
    | none => simp [lookup] at h
    | some n =>
      simp only [lookup] at h
      split at h
      · rename_i hh
        injection h with h
        injection h with h
        subst h
        exact hh
      · exact ih _ h

/-- The two ways `bget` returns, in any cache: a hit on `b`, or the recycling of `b`. -/
theorem bget_ret_cases (NBUF : Nat) (c : bcache) (pid dev blockno ticks b : Nat)
    (hret : (bget NBUF c pid dev blockno ticks).st = .ret b) :
    (holds c dev blockno b ∧ (c.buf b).lock = none ∧
      ∃ locks, bget NBUF c pid dev blockno ticks = hit c pid ticks b locks) ∨
    (lookup c dev blockno NBUF (c.buckets (get_key dev blockno)).head = some none ∧
      (c.buf b).lock = none ∧
      ∃ mb locks, bget NBUF c pid dev blockno ticks = evict c pid dev blockno ticks b mb locks) := by
  have hhit : ∀ b0 locks, (hit c pid ticks b0 locks).st = .ret b →
      b0 = b ∧ (c.buf b).lock = none := by
    intro b0 locks hst
    obtain ⟨_, _, _, _, e5, _⟩ := hit_spec c pid ticks b0 locks
    rw [e5] at hst
    cases hl : (c.buf b0).lock with
    | none =>
      rw [hl] at hst
      injection hst with hst
      subst hst
      exact ⟨rfl, hl⟩
    | some q => rw [hl] at hst; cases hst
  unfold bget at hret ⊢
  cases h1 : lookup c dev blockno NBUF (c.buckets (get_key dev blockno)).head with
  | none => simp only [h1] at hret; cases hret
  | some r =>
    cases r with
    | some b0 =>
      simp only [h1] at hret ⊢
      obtain ⟨hb, hl⟩ := hhit _ _ hret
      subst hb
      exact Or.inl ⟨lookup_some_holds c dev blockno b0 _ _ h1, hl, _, rfl⟩
    | none =>
      simp only [h1] at hret ⊢
      right
      refine ⟨trivial, ?_⟩
      cases h2 : scan_buckets NBUF c BUCKET_NUM 0
          ⟨UINT_MAX, none, none, false,
            [.acq (.bkt (get_key dev blockno)), .rel (.bkt (get_key dev blockno)),
              .acq .global]⟩ with
      | none => simp only [h2] at hret; cases hret
      | some v =>
        simp only [h2] at hret ⊢
        split at hret
        · rename_i hne
          split at hret
          · rename_i n mb hn hmb
            obtain ⟨_, _, _, _, e5⟩ := evict_spec c pid dev blockno ticks n mb v.locks
            rw [e5] at hret
            cases hl : (c.buf n).lock with
            | none =>
              rw [hl] at hret
              injection hret with hret
              subst hret
              exact ⟨hl, mb, v.locks, if_pos hne⟩
            | some q => rw [hl] at hret; cases hret
          · cases hret
        · cases hret


theorem bread_st (NBUF : Nat) (m : machine) (pid dev blockno ticks : Nat) :
    (bread NBUF m pid dev blockno ticks).st = (bget NBUF m.cache pid dev blockno ticks).st := by
  unfold bread
  simp only
  split
  · rename_i b hb
    split <;> exact hb.symm
  · rfl

theorem bread_refcnt (NBUF : Nat) (m : machine) (pid dev blockno ticks i : Nat) :
    ((bread NBUF m pid dev blockno ticks).m.cache.buf i).refcnt =
      ((bget NBUF m.cache pid dev blockno ticks).cache.buf i).refcnt := by
  unfold bread
  simp only
  split
  · rename_i b hb
    split
    · by_cases hib : i = b
      · subst hib
        simp only [virtio_disk_rw, Bool.false_eq_true, if_false, upd_same]
      · simp only [virtio_disk_rw, Bool.false_eq_true, if_false, upd, hib]
    · rfl
  · rfl

theorem hit_not_done (c : bcache) (pid ticks b : Nat) (locks : List lock_ev) :
    (hit c pid ticks b locks).st ≠ .done := by
  obtain ⟨_, _, _, _, e5, _⟩ := hit_spec c pid ticks b locks
  rw [e5]
  split <;> exact fun h => by cases h

theorem evict_not_done (c : bcache) (pid dev blockno ticks n mb : Nat) (locks : List lock_ev) :
    (evict c pid dev blockno ticks n mb locks).st ≠ .done := by
  obtain ⟨_, _, _, _, e5⟩ := evict_spec c pid dev blockno ticks n mb locks
  rw [e5]
  split <;> exact fun h => by cases h

theorem bget_not_done (NBUF : Nat) (c : bcache) (pid dev blockno ticks : Nat) :
    (bget NBUF c pid dev blockno ticks).st ≠ .done := by
  unfold bget
  simp only
  split
  · exact fun h => by cases h
  · exact hit_not_done _ _ _ _ _
  · split
    · exact fun h => by cases h
    · exact hit_not_done _ _ _ _ _
    · split
      · exact fun h => by cases h
      · split
        · split
          · exact evict_not_done _ _ _ _ _ _ _ _
          · exact fun h => by cases h
        · exact fun h => by cases h

/-- The reference counts after an acquire, against the accounting. -/
theorem bget_tally {NBUF : Nat} {c : bcache} (hg : good NBUF c) (a : Nat → Int)
    (hR : ∀ i, ((c.buf i).refcnt : Int) = a i % (UINT_MOD : Int))
    (pid dev blockno ticks : Nat)
    (hc : completes (bget NBUF c pid dev blockno ticks).st = true) :
    ∀ i, (((bget NBUF c pid dev blockno ticks).cache.buf i).refcnt : Int) =
      acquired c (bget NBUF c pid dev blockno ticks).st dev blockno a i % (UINT_MOD : Int) := by
  cases hst : (bget NBUF c pid dev blockno ticks).st with
  | ret b =>
    obtain ⟨⟨L, hL⟩, _⟩ := hg
    rcases bget_ret_cases NBUF c pid dev blockno ticks b hst with
      ⟨hh, hl, locks, he⟩ | ⟨hmiss, hl, mb, locks, he⟩
    · obtain ⟨_, _, e3, e4, _⟩ := hit_spec c pid ticks b locks
      intro i
      simp only [acquired, hh, if_true]
      rw [he]
      by_cases hib : i = b
      · subst hib
        rw [e4, upd_same]
        have := hR i
        simp only [UINT_MOD] at this ⊢
        push_cast
        omega
      · rw [e3 i hib, upd_other _ _ _ _ hib]
        exact hR i
    · obtain ⟨_, _, e3, e4, _⟩ := evict_spec c pid dev blockno ticks b mb locks
      have hf : (L (get_key dev blockno)).find? (fun n => decide (holds c dev blockno n))
          = none := by
        have := lookup_linked hL dev blockno
        rw [hmiss] at this
        injection this with this
        exact this.symm
      have hbN : b < NBUF := by
        obtain ⟨w, _, hcase⟩ := bget_miss hL pid dev blockno ticks hf
        rcases hcase with ⟨n, mb2, _, _, _, hmb, hmem, he2⟩ | ⟨_, he2⟩
        · obtain ⟨_, _, _, _, e5⟩ := evict_spec c pid dev blockno ticks n mb2 w.locks
          rw [he2, e5] at hst
          split at hst
          · injection hst with hst
            subst hst
            exact (hL.keyed mb2 hmb _ hmem).1
          · cases hst
        · rw [he2] at hst; cases hst
      have hnh : ¬ holds c dev blockno b := (find_none_iff hL dev blockno).mp hf b hbN
      intro i
      simp only [acquired, hnh, if_false]
      rw [he]
      by_cases hib : i = b
      · subst hib
        rw [e4, upd_same]
        simp [UINT_MOD]
      · rw [e3 i hib, upd_other _ _ _ _ hib]
        exact hR i
  | done => exact absurd hst (bget_not_done NBUF c pid dev blockno ticks)
  | sleeps b => rw [hst] at hc; simp [completes] at hc
  | panic f => rw [hst] at hc; simp [completes] at hc
  | hang => rw [hst] at hc; simp [completes] at hc


theorem exec_tally {NBUF : Nat} {m : machine} (hg : good NBUF m.cache) (a : Nat → Int)
    (hR : ∀ i, ((m.cache.buf i).refcnt : Int) = a i % (UINT_MOD : Int)) (cl : call)
    (hc : completes (exec NBUF m cl).st = true) :
    ∀ i, (((exec NBUF m cl).m.cache.buf i).refcnt : Int) =
      tally NBUF m cl a i % (UINT_MOD : Int) := by
  cases cl with
  | bget pid dev blockno ticks =>
    exact bget_tally hg a hR pid dev blockno ticks hc
  | bread pid dev blockno ticks =>
    intro i
    have hc2 : completes (bget NBUF m.cache pid dev blockno ticks).st = true := by
      have : (exec NBUF m (.bread pid dev blockno ticks)).st =
          (bget NBUF m.cache pid dev blockno ticks).st := bread_st NBUF m pid dev blockno ticks
      rw [← this]; exact hc
    have h1 := bget_tally hg a hR pid dev blockno ticks hc2 i
    show (((bread NBUF m pid dev blockno ticks).m.cache.buf i).refcnt : Int) =
      acquired m.cache (bread NBUF m pid dev blockno ticks).st dev blockno a i % _
    rw [bread_refcnt, bread_st]
    exact h1
  | bwrite pid b =>
    intro i
    show (((bwrite m pid b).m.cache.buf i).refcnt : Int) = a i % _
    rw [bwrite_cache]
    exact hR i
  | brelse pid b ticks =>
    intro i
    show (((brelse m.cache pid b ticks).cache.buf i).refcnt : Int) = upd a b (a b - 1) i % _
    have hst : (exec NBUF m (.brelse pid b ticks)).st = (brelse m.cache pid b ticks).st := rfl
    rw [hst] at hc
    have hl : (m.cache.buf b).lock = some pid := by
      by_contra hl
      unfold brelse at hc
      simp [hl, completes] at hc
    unfold brelse
    simp only [hl, ne_eq, not_true_eq_false, if_false]
    by_cases hib : i = b
    · subst hib
      simp only [upd_same]
      have := hR i
      simp only [UINT_MOD, UINT_MAX] at this ⊢
      push_cast
      omega
    · simp only [upd_other _ _ _ _ hib]
      exact hR i
  | bpin b =>
    intro i
    show (((bpin m.cache b).cache.buf i).refcnt : Int) = upd a b (a b + 1) i % _
    unfold bpin
    by_cases hib : i = b
    · subst hib
      simp only [upd_same]
      have := hR i
      simp only [UINT_MOD] at this ⊢
      push_cast
      omega
    · simp only [upd_other _ _ _ _ hib]
      exact hR i
  | bunpin b =>
    intro i
    show (((bunpin m.cache b).cache.buf i).refcnt : Int) = upd a b (a b - 1) i % _
    unfold bunpin
    by_cases hib : i = b
    · subst hib
      simp only [upd_same]
      have := hR i
      simp only [UINT_MOD, UINT_MAX] at this ⊢
      push_cast
      omega
    · simp only [upd_other _ _ _ _ hib]
      exact hR i

theorem run_tally {NBUF : Nat} (calls : List call) :
    ∀ (m m2 : machine) (a a2 : Nat → Int), good NBUF m.cache →
      (∀ i, ((m.cache.buf i).refcnt : Int) = a i % (UINT_MOD : Int)) →
      run NBUF m calls = some m2 → outstanding NBUF m calls a = some a2 →
      ∀ i, ((m2.cache.buf i).refcnt : Int) = a2 i % (UINT_MOD : Int) := by
  induction calls with
  | nil =>
    intro m m2 a a2 _ hR hr ha
    simp only [run] at hr
    simp only [outstanding] at ha
    injection hr with hr
    injection ha with ha
    subst hr; subst ha
    exact hR
  | cons cl rest ih =>
    intro m m2 a a2 hg hR hr ha
    simp only [run] at hr
    simp only [outstanding] at ha
    by_cases hc : completes (exec NBUF m cl).st = true
    · rw [if_pos hc] at hr ha
      exact ih _ m2 _ a2 (exec_good hg cl) (exec_tally hg a hR cl hc) hr ha
    · rw [if_neg hc] at hr
      cases hr

theorem boot_refcnt (NBUF i : Nat) : ((boot NBUF).buf i).refcnt = 0 := by
  have hb : (boot NBUF).buf = zero_storage.buf := (binit_loop NBUF).1
  rw [hb]
  rfl

/-- A miss in a well-formed cache that has a slot with reference count 0 and `last_use` below
`UINT_MAX` recycles a slot, and which one. -/
theorem bget_miss_victim {NBUF : Nat} {c : bcache} {L : Nat → List Nat} (h : Linked NBUF c L)
    (pid dev blockno ticks : Nat) (hmiss : ∀ x, x < NBUF → ¬ holds c dev blockno x)
    (j : Nat) (hj : j < NBUF) (hfree : (c.buf j).refcnt = 0)
    (hlt : (c.buf j).last_use < UINT_MAX) :
    ∃ v mb locks,
      bget NBUF c pid dev blockno ticks = evict c pid dev blockno ticks v mb locks ∧
      v < NBUF ∧ (c.buf v).refcnt = 0 ∧
      (∀ x, x < NBUF → (c.buf x).refcnt = 0 → (c.buf v).last_use ≤ (c.buf x).last_use) ∧
      ∃ pre post, scan_order L = pre ++ v :: post ∧
        ∀ x ∈ pre, (c.buf x).refcnt = 0 → (c.buf v).last_use < (c.buf x).last_use := by
  have hf := (find_none_iff h dev blockno).mpr hmiss
  obtain ⟨w, hinv, hcase⟩ := bget_miss h pid dev blockno ticks hf
  rcases hcase with ⟨n, mb, hne, hn, _, hmb, hmem, he⟩ | ⟨hmax, _⟩
  · refine ⟨n, mb, w.locks, he, (h.keyed mb hmb n hmem).1, hinv.is_free n hn, ?_,
      hinv.is_first n hn hne⟩
    intro x hx hxf
    exact hinv.is_min n hn x ((linked_mem_scan_order h x).mpr hx) hxf
  · exfalso
    have := hinv.max_seen hmax j ((linked_mem_scan_order h j).mpr hj) hfree
    omega

/-- Global LRU: on a miss in a well-formed cache, when slot `v` has reference count 0, a
`last_use` below `UINT_MAX` and smaller than that of every other slot with reference count 0,
and its content lock is free, `bget` returns `v`, recycled for the request, and leaves every
other buffer as it was. -/
theorem bget_recycles {NBUF : Nat} {c : bcache} (hwf : WF NBUF c)
    (pid dev blockno ticks v : Nat) (hv : v < NBUF)
    (hmiss : ∀ x, x < NBUF → ¬ holds c dev blockno x)
    (hfree : (c.buf v).refcnt = 0) (hlt : (c.buf v).last_use < UINT_MAX)
    (hlock : (c.buf v).lock = none)
    (hothers : ∀ x, x < NBUF → x ≠ v →
      (c.buf x).refcnt ≠ 0 ∨ (c.buf v).last_use < (c.buf x).last_use) :
    (bget NBUF c pid dev blockno ticks).st = .ret v ∧
    (bget NBUF c pid dev blockno ticks).cache.buf v =
      { c.buf v with dev := dev, blockno := blockno, valid := 0, refcnt := 1,
                     last_use := ticks % UINT_MOD, lock := some pid } ∧
    ∀ i, i ≠ v → (bget NBUF c pid dev blockno ticks).cache.buf i = c.buf i := by
  obtain ⟨L, h⟩ := hwf
  obtain ⟨w, mb, locks, he, hw, hwf2, hmin, _⟩ :=
    bget_miss_victim h pid dev blockno ticks hmiss v hv hfree hlt
  have hwv : w = v := by
    by_contra hne
    rcases hothers w hw hne with h1 | h1
    · exact h1 hwf2
    · have := hmin v hv hfree
      omega
  subst hwv
  obtain ⟨_, _, e3, e4, e5⟩ := evict_spec c pid dev blockno ticks w mb locks
  rw [he]
  rw [hlock] at e4 e5
  exact ⟨e5, e4, e3⟩

/-- The first acquire after boot, of a block other than (0, 0), with two slots: both slots have
reference count 0 and `last_use` 0; slot 0, the head of bucket 0, is recycled. -/
theorem first_acquire (p d a t : Nat) (hA : ¬ (d = 0 ∧ a = 0)) :
    (bget 2 (boot 2) p d a t).st = .ret 0 ∧
    (bget 2 (boot 2) p d a t).cache.buf 0 = ⟨0, d, a, some p, 1, t % UINT_MOD, 0⟩ ∧
    (bget 2 (boot 2) p d a t).cache.buf 1 = ⟨0, 0, 0, none, 0, 0, 0⟩ := by
  have hb0 : (boot 2).buf = zero_storage.buf := (binit_loop 2).1
  have hz : ∀ x, (boot 2).buf x = ⟨0, 0, 0, none, 0, 0, 0⟩ := by
    intro x; rw [hb0]; rfl
  have hmiss : ∀ x, x < 2 → ¬ holds (boot 2) d a x := by
    intro x _ hh
    unfold holds at hh
    rw [hz x] at hh
    exact hA ⟨hh.1.symm, hh.2.symm⟩
  obtain ⟨v, mb, locks, he, hv, _, _, pre, post, hs, hp⟩ :=
    bget_miss_victim (boot_linked 2) p d a t hmiss 0 (by decide)
      (by rw [hz 0]) (by rw [hz 0]; decide)
  have hso : scan_order (boot_lists 2) = [0, 1] := by decide
  rw [hso] at hs
  have hv0 : v = 0 := by
    cases pre with
    | nil =>
      simp only [List.nil_append] at hs
      injection hs with h1 _
      exact h1.symm
    | cons x pre1 =>
      exfalso
      simp only [List.cons_append] at hs
      injection hs with h1 _
      have := hp x (List.mem_cons_self _ _) (by rw [hz x])
      rw [hz v, hz x] at this
      exact Nat.lt_irrefl _ this
  subst hv0
  obtain ⟨_, _, e3, e4, e5⟩ := evict_spec (boot 2) p d a t 0 mb locks
  rw [he]
  rw [hz 0] at e4 e5
  refine ⟨e5, e4, ?_⟩
  rw [e3 1 (by decide), hz 1]

theorem brelse_last (c : bcache) (pid b ticks : Nat) (v dv bn dt : Nat)
    (hb : c.buf b = ⟨v, dv, bn, some pid, 1, dt, 0⟩) (ht : ticks < UINT_MOD) :
    (brelse c pid b ticks).st = .done ∧
    (brelse c pid b ticks).cache.buf b = ⟨v, dv, bn, none, 0, ticks, 0⟩ ∧
    ∀ i, i ≠ b → (brelse c pid b ticks).cache.buf i = c.buf i := by
  unfold brelse
  simp only [hb, ne_eq, not_true_eq_false, if_false, upd_same, true_and]
  refine ⟨?_, ?_⟩
  · have h0 : (1 + UINT_MAX) % UINT_MOD = 0 := by decide
    simp only [h0, if_true, Nat.mod_eq_of_lt ht]
  · intro i hi
    exact upd_other _ _ _ _ hi

theorem lookup_absent {NBUF : Nat} {c : bcache} (hwf : WF NBUF c) (dev blockno : Nat)
    (hmiss : ∀ x, x < NBUF → ¬ holds c dev blockno x) (k : Nat) (hk : k < BUCKET_NUM) :
    lookup c dev blockno NBUF (c.buckets k).head = some none := by
  obtain ⟨L, h⟩ := hwf
  rw [lookup_seg c dev blockno (L k) none _ NBUF (h.links k hk).1 (linked_length_le h k hk)]
  congr 1
  rw [List.find?_eq_none]
  intro x hx
  have := hmiss x (h.keyed k hk x hx).1
  simpa using this

theorem find_mono (p q : Nat → Bool) (l : List Nat) (j : Nat) (h : l.find? p = some j)
    (hq : q j = true) (hle : ∀ x ∈ l, q x = true → p x = true) : l.find? q = some j := by
  induction l with
  | nil => simp at h
  | cons x xs ih =>
    rw [List.find?_cons] at h ⊢
    cases hp : p x with
    | true =>
      rw [hp] at h
      injection h with h
      subst h
      rw [hq]
    | false =>
      rw [hp] at h
      have hqx : q x = false := by
        cases hqx : q x with
        | false => rfl
        | true =>
          have := hle x (List.mem_cons_self _ _) hqx
          rw [hp] at this
          cases this
      rw [hqx]
      exact ih h (fun y hy => hle y (List.mem_cons_of_mem _ hy))

theorem find_erase (p : Nat → Bool) (l : List Nat) (n : Nat) (hn : p n = false) :
    (l.erase n).find? p = l.find? p := by
  induction l with
  | nil => rfl
  | cons x xs ih =>
    by_cases hx : x = n
    · subst hx
      rw [List.erase_cons_head, List.find?_cons, hn]
    · rw [List.erase_cons_tail (by simpa using hx), List.find?_cons, List.find?_cons, ih]

theorem find_snoc (p : Nat → Bool) (l : List Nat) (n j : Nat) (h : l.find? p = some j) :
    (l ++ [n]).find? p = some j := by
  rw [List.find?_append, h]
  rfl

theorem find_only (p : Nat → Bool) (l : List Nat) (n : Nat) (hn : n ∈ l) (hp : p n = true)
    (hu : ∀ x ∈ l, p x = true → x = n) : l.find? p = some n := by
  cases h : l.find? p with
  | none =>
    rw [List.find?_eq_none] at h
    exact absurd hp (h n hn)
  | some z =>
    rw [hu z (List.mem_of_find?_eq_some h) (List.find?_some h)]

theorem find_moved (L : Nat → List Nat) (p : Nat → Bool) (mb key n j k : Nat)
    (hpn : p n = false) (hf : (L k).find? p = some j) :
    (moved L mb key n k).find? p = some j := by
  unfold moved
  split
  · rename_i hne
    by_cases hk1 : k = key
    · subst hk1
      rw [upd_same]
      exact find_snoc p _ n j hf
    · rw [upd_other _ _ _ _ hk1]
      by_cases hk2 : k = mb
      · subst hk2
        rw [upd_same, find_erase p _ n hpn]
        exact hf
      · rw [upd_other _ _ _ _ hk2]
        exact hf
  · exact hf

theorem lookup_congr (c c2 : bcache) (dev blockno : Nat) (hn : c2.nodes = c.nodes)
    (hid : ∀ i, (c2.buf i).dev = (c.buf i).dev ∧ (c2.buf i).blockno = (c.buf i).blockno) :
    ∀ (fuel : Nat) (s : Option Nat),
      lookup c2 dev blockno fuel s = lookup c dev blockno fuel s := by
  intro fuel
  induction fuel with
  | zero =>
    intro s
    cases s <;> simp [lookup]
  | succ f ih =>
    intro s
    cases s with
    | none => simp [lookup]
    | some n =>
      simp only [lookup, (hid n).1, (hid n).2, hn, ih]

theorem found_frame {NBUF : Nat} {c : bcache} (h : found NBUF c) (c2 : bcache)
    (hn : c2.nodes = c.nodes) (hk : c2.buckets = c.buckets)
    (hid : ∀ i, (c2.buf i).dev = (c.buf i).dev ∧ (c2.buf i).blockno = (c.buf i).blockno)
    (ht : ∀ i, touched c2 i → touched c i ∨
      lookup c (c.buf i).dev (c.buf i).blockno NBUF
        (c.buckets (get_key (c.buf i).dev (c.buf i).blockno)).head = some (some i)) :
    found NBUF c2 := by
  intro i hi
  rw [(hid i).1, (hid i).2, hk, lookup_congr c c2 _ _ hn hid]
  rcases ht i hi with h1 | h1
  · exact h i h1
  · exact h1

theorem hit_found {NBUF : Nat} {c : bcache} (h : found NBUF c) (pid ticks b : Nat)
    (locks : List lock_ev)
    (hb : lookup c (c.buf b).dev (c.buf b).blockno NBUF
      (c.buckets (get_key (c.buf b).dev (c.buf b).blockno)).head = some (some b)) :
    found NBUF (hit c pid ticks b locks).cache := by
  obtain ⟨e1, e2, e3, e4, _, _⟩ := hit_spec c pid ticks b locks
  refine found_frame h _ e1 e2 ?_ ?_
  · intro i
    by_cases hib : i = b
    · subst hib; rw [e4]; exact ⟨rfl, rfl⟩
    · rw [e3 i hib]; exact ⟨rfl, rfl⟩
  · intro i hi
    by_cases hib : i = b
    · subst hib; exact Or.inr hb
    · left
      unfold touched at hi ⊢
      rw [e3 i hib] at hi
      exact hi

theorem evict_found {NBUF : Nat} {c : bcache} {L : Nat → List Nat} (h : Linked NBUF c L)
    (hfd : found NBUF c) (pid dev blockno ticks n mb : Nat) (locks : List lock_ev)
    (hmb : mb < BUCKET_NUM) (hn : n ∈ L mb) (hmiss : ∀ x, x < NBUF → ¬ holds c dev blockno x) :
    found NBUF (evict c pid dev blockno ticks n mb locks).cache := by
  have hL2 := evict_linked h pid dev blockno ticks n mb locks hmb hn
  obtain ⟨_, _, e3, e4, _⟩ := evict_spec c pid dev blockno ticks n mb locks
  intro j hj
  rw [lookup_linked hL2]
  congr 1
  by_cases hjn : j = n
  · subst hjn
    have hid : ((evict c pid dev blockno ticks j mb locks).cache.buf j).dev = dev ∧
        ((evict c pid dev blockno ticks j mb locks).cache.buf j).blockno = blockno := by
      rw [e4]; exact ⟨rfl, rfl⟩
    rw [hid.1, hid.2]
    have hjN : j < NBUF := (h.keyed mb hmb j hn).1
    have hmem := hL2.total j hjN
    rw [hid.1, hid.2] at hmem
    apply find_only _ _ j hmem
    · simpa [holds] using hid
    · intro x hx hpx
      by_contra hxj
      have hxN := (hL2.keyed _ (get_key_lt _ _) x hx).1
      have hpx2 : holds (evict c pid dev blockno ticks j mb locks).cache dev blockno x := by
        simpa using hpx
      unfold holds at hpx2
      rw [e3 x hxj] at hpx2
      exact hmiss x hxN hpx2
  · have hbj := e3 j hjn
    rw [hbj]
    have htj : touched c j := by
      unfold touched at hj ⊢
      rw [hbj] at hj
      exact hj
    have hf := hfd j htj
    rw [lookup_linked h] at hf
    injection hf with hf
    have hjN : j < NBUF :=
      (h.keyed _ (get_key_lt _ _) j (List.mem_of_find?_eq_some hf)).1
    have hne : ¬ ((c.buf j).dev = dev ∧ (c.buf j).blockno = blockno) := hmiss j hjN
    have hqn : decide (holds (evict c pid dev blockno ticks n mb locks).cache
        (c.buf j).dev (c.buf j).blockno n) = false := by
      rw [decide_eq_false_iff_not]
      unfold holds
      rw [e4]
      intro hh
      exact hne ⟨hh.1.symm, hh.2.symm⟩
    apply find_moved L _ mb _ n j _ hqn
    apply find_mono _ _ _ j hf
    · rw [decide_eq_true_iff]
      unfold holds
      rw [hbj]
      exact ⟨rfl, rfl⟩
    · intro x _ hqx
      rw [decide_eq_true_iff] at hqx ⊢
      by_cases hxn : x = n
      · subst hxn
        rw [hqx |> decide_eq_true] at hqn
        cases hqn
      · unfold holds at hqx ⊢
        rw [e3 x hxn] at hqx
        exact hqx

theorem bget_found {NBUF : Nat} {c : bcache} (hg : good NBUF c) (h : found NBUF c)
    (pid dev blockno ticks : Nat) : found NBUF (bget NBUF c pid dev blockno ticks).cache := by
  obtain ⟨⟨L, hL⟩, _⟩ := hg
  cases hf : (L (get_key dev blockno)).find? (fun n => decide (holds c dev blockno n)) with
  | some b =>
    rw [bget_hit hL pid dev blockno ticks b hf]
    have hh : holds c dev blockno b := by simpa using List.find?_some hf
    refine hit_found h pid ticks b _ ?_
    rw [hh.1, hh.2, lookup_linked hL, hf]
  | none =>
    obtain ⟨w, _, hcase⟩ := bget_miss hL pid dev blockno ticks hf
    rcases hcase with ⟨n, mb, _, _, _, hmb, hmem, he⟩ | ⟨_, he⟩
    · rw [he]
      exact evict_found hL h pid dev blockno ticks n mb w.locks hmb hmem
        ((find_none_iff hL dev blockno).mp hf)
    · rw [he]
      exact h

/-- A call that changes neither the lists nor any identity, and hands out no buffer, keeps
`found`. -/
theorem found_quiet {NBUF : Nat} {c : bcache} (h : found NBUF c) (c2 : bcache)
    (hn : c2.nodes = c.nodes) (hk : c2.buckets = c.buckets)
    (hb : ∀ i, (c2.buf i).dev = (c.buf i).dev ∧ (c2.buf i).blockno = (c.buf i).blockno ∧
      ((c2.buf i).valid ≠ 0 → (c.buf i).valid ≠ 0) ∧
      ((c2.buf i).lock ≠ none → (c.buf i).lock ≠ none)) :
    found NBUF c2 := by
  refine found_frame h c2 hn hk (fun i => ⟨(hb i).1, (hb i).2.1⟩) ?_
  intro i hi
  left
  rcases hi with hi | hi
  · exact Or.inl ((hb i).2.2.1 hi)
  · exact Or.inr ((hb i).2.2.2 hi)

theorem brelse_found {NBUF : Nat} {c : bcache} (h : found NBUF c) (pid b ticks : Nat) :
    found NBUF (brelse c pid b ticks).cache := by
  unfold brelse
  split
  · exact h
  · refine found_quiet h _ rfl rfl ?_
    intro i
    by_cases hib : i = b
    · subst hib; simp
    · simp [upd, hib]

theorem bpin_found {NBUF : Nat} {c : bcache} (h : found NBUF c) (b : Nat) :
    found NBUF (bpin c b).cache := by
  unfold bpin
  refine found_quiet h _ rfl rfl ?_
  intro i
  by_cases hib : i = b
  · subst hib; simp
  · simp [upd, hib]

theorem bunpin_found {NBUF : Nat} {c : bcache} (h : found NBUF c) (b : Nat) :
    found NBUF (bunpin c b).cache := by
  unfold bunpin
  refine found_quiet h _ rfl rfl ?_
  intro i
  by_cases hib : i = b
  · subst hib; simp
  · simp [upd, hib]

/-- What `bread` adds to `bget`: the content and the validity of the returned buffer. -/
theorem bread_spec (NBUF : Nat) (m : machine) (pid dev blockno ticks : Nat) :
    (bread NBUF m pid dev blockno ticks).m.cache.nodes =
      (bget NBUF m.cache pid dev blockno ticks).cache.nodes ∧
    (bread NBUF m pid dev blockno ticks).m.cache.buckets =
      (bget NBUF m.cache pid dev blockno ticks).cache.buckets ∧
    (bread NBUF m pid dev blockno ticks).m.disk = m.disk ∧
    (∀ i, (bread NBUF m pid dev blockno ticks).m.cache.buf i =
        (bget NBUF m.cache pid dev blockno ticks).cache.buf i ∨
      ((bget NBUF m.cache pid dev blockno ticks).st = .ret i ∧
        ((bget NBUF m.cache pid dev blockno ticks).cache.buf i).valid = 0 ∧
        (bread NBUF m pid dev blockno ticks).m.cache.buf i =
          { (bget NBUF m.cache pid dev blockno ticks).cache.buf i with
            valid := 1
            data := m.disk ((bget NBUF m.cache pid dev blockno ticks).cache.buf i).dev
              ((bget NBUF m.cache pid dev blockno ticks).cache.buf i).blockno })) := by
  unfold bread
  simp only
  split
  · rename_i b hb
    split
    · rename_i hv
      refine ⟨rfl, rfl, rfl, ?_⟩
      intro i
      by_cases hib : i = b
      · subst hib
        right
        simp only [virtio_disk_rw, Bool.false_eq_true, if_false, upd_same]
        exact ⟨hb, hv, trivial⟩
      · left
        simp only [virtio_disk_rw, Bool.false_eq_true, if_false, upd_other _ _ _ _ hib]
    · exact ⟨rfl, rfl, rfl, fun i => Or.inl rfl⟩
  · exact ⟨rfl, rfl, rfl, fun i => Or.inl rfl⟩

theorem bget_ret_locked (NBUF : Nat) (c : bcache) (pid dev blockno ticks b : Nat)
    (hret : (bget NBUF c pid dev blockno ticks).st = .ret b) :
    ((bget NBUF c pid dev blockno ticks).cache.buf b).lock = some pid ∧
    holds (bget NBUF c pid dev blockno ticks).cache dev blockno b := by
  rcases bget_ret_cases NBUF c pid dev blockno ticks b hret with
    ⟨hh, hl, locks, he⟩ | ⟨_, hl, mb, locks, he⟩
  · obtain ⟨_, _, _, e4, _⟩ := hit_spec c pid ticks b locks
    unfold holds
    rw [he, e4, hl]
    exact ⟨rfl, hh⟩
  · obtain ⟨_, _, _, e4, _⟩ := evict_spec c pid dev blockno ticks b mb locks
    unfold holds
    rw [he, e4, hl]
    exact ⟨rfl, rfl, rfl⟩

theorem bread_found {NBUF : Nat} {m : machine} (hg : good NBUF m.cache)
    (h : found NBUF m.cache) (pid dev blockno ticks : Nat) :
    found NBUF (bread NBUF m pid dev blockno ticks).m.cache := by
  have hf := bget_found hg h pid dev blockno ticks
  obtain ⟨e1, e2, _, e4⟩ := bread_spec NBUF m pid dev blockno ticks
  refine found_frame hf _ e1 e2 ?_ ?_
  · intro i
    rcases e4 i with h1 | ⟨_, _, h1⟩
    · rw [h1]; exact ⟨rfl, rfl⟩
    · rw [h1]; exact ⟨rfl, rfl⟩
  · intro i hi
    left
    rcases e4 i with h1 | ⟨hst, _, _⟩
    · unfold touched at hi ⊢
      rw [h1] at hi
      exact hi
    · right
      rw [(bget_ret_locked NBUF m.cache pid dev blockno ticks i hst).1]
      exact fun hc => by cases hc

theorem store_found {NBUF : Nat} {m : machine} (h : found NBUF m.cache) (b v : Nat) :
    found NBUF (store m b v).cache := by
  refine found_quiet h _ rfl rfl ?_
  intro i
  by_cases hib : i = b
  · subst hib; simp [store]
  · simp [store, upd, hib]

theorem store_good {NBUF : Nat} {m : machine} (h : good NBUF m.cache) (b v : Nat) :
    good NBUF (store m b v).cache := by
  refine good_frame h _ rfl rfl ?_ ?_
  · intro i _
    by_cases hib : i = b
    · subst hib; simp [store]
    · simp [store, upd, hib]
  · intro i hi
    by_cases hib : i = b
    · subst hib
      simp only [store, upd_same]
      exact wf_range h.1 i hi
    · simp only [store, upd, hib, if_false]
      exact wf_range h.1 i hi

/-- Two buffers that have been handed out and have the same identity are the same buffer. -/
theorem found_unique {NBUF : Nat} {c : bcache} (h : found NBUF c) (i j : Nat)
    (hi : touched c i) (hj : touched c j) (hd : (c.buf i).dev = (c.buf j).dev)
    (hb : (c.buf i).blockno = (c.buf j).blockno) : i = j := by
  have h1 := h i hi
  have h2 := h j hj
  rw [hd, hb, h2] at h1
  injection h1 with h1
  injection h1 with h1
  exact h1.symm

theorem bwrite_coherent {NBUF : Nat} {m : machine} (h : found NBUF m.cache) (pid b : Nat)
    (hc : ∀ i, i < NBUF → i ≠ b → (m.cache.buf i).valid ≠ 0 →
      (m.cache.buf i).data = m.disk (m.cache.buf i).dev (m.cache.buf i).blockno)
    (hl : (m.cache.buf b).lock = some pid) : coherent NBUF (bwrite m pid b).m := by
  unfold bwrite
  simp only [hl, ne_eq, not_true_eq_false, if_false, virtio_disk_rw, if_true]
  intro i hi hv
  simp only
  by_cases hib : i = b
  · subst hib
    simp
  · have hne : ¬ ((m.cache.buf i).dev = (m.cache.buf b).dev ∧
        (m.cache.buf i).blockno = (m.cache.buf b).blockno) := by
      intro hh
      exact hib (found_unique h i b (Or.inl hv) (Or.inr (by rw [hl]; exact fun hc => by cases hc))
        hh.1 hh.2)
    rw [if_neg hne]
    exact hc i hi hib hv

/-- The three shapes of the cache that `bget` leaves. -/
theorem bget_shape (NBUF : Nat) (c : bcache) (pid dev blockno ticks : Nat) :
    (bget NBUF c pid dev blockno ticks).cache = c ∨
    (∃ b locks, bget NBUF c pid dev blockno ticks = hit c pid ticks b locks) ∨
    (∃ n mb locks, bget NBUF c pid dev blockno ticks = evict c pid dev blockno ticks n mb locks)
    := by
  unfold bget
  simp only
  split
  · exact Or.inl rfl
  · exact Or.inr (Or.inl ⟨_, _, rfl⟩)
  · split
    · exact Or.inl rfl
    · exact Or.inr (Or.inl ⟨_, _, rfl⟩)
    · split
      · exact Or.inl rfl
      · split
        · split
          · exact Or.inr (Or.inr ⟨_, _, _, rfl⟩)
          · exact Or.inl rfl
        · exact Or.inl rfl

/-- A buffer that is valid after `bget` was valid before, with the same identity and content. -/
theorem bget_keeps (NBUF : Nat) (c : bcache) (pid dev blockno ticks i : Nat)
    (hv : ((bget NBUF c pid dev blockno ticks).cache.buf i).valid ≠ 0) :
    (c.buf i).valid ≠ 0 ∧
    ((bget NBUF c pid dev blockno ticks).cache.buf i).data = (c.buf i).data ∧
    ((bget NBUF c pid dev blockno ticks).cache.buf i).dev = (c.buf i).dev ∧
    ((bget NBUF c pid dev blockno ticks).cache.buf i).blockno = (c.buf i).blockno := by
  rcases bget_shape NBUF c pid dev blockno ticks with h | ⟨b, locks, h⟩ | ⟨n, mb, locks, h⟩
  · rw [h] at hv ⊢
    exact ⟨hv, rfl, rfl, rfl⟩
  · obtain ⟨_, _, e3, e4, _⟩ := hit_spec c pid ticks b locks
    rw [h] at hv ⊢
    by_cases hib : i = b
    · subst hib
      rw [e4] at hv ⊢
      exact ⟨hv, rfl, rfl, rfl⟩
    · rw [e3 i hib] at hv ⊢
      exact ⟨hv, rfl, rfl, rfl⟩
  · obtain ⟨_, _, e3, e4, _⟩ := evict_spec c pid dev blockno ticks n mb locks
    rw [h] at hv ⊢
    by_cases hin : i = n
    · subst hin
      rw [e4] at hv
      exact absurd rfl hv
    · rw [e3 i hin] at hv ⊢
      exact ⟨hv, rfl, rfl, rfl⟩

theorem coherent_frame {NBUF : Nat} {m : machine} (h : coherent NBUF m) (m2 : machine)
    (hd : m2.disk = m.disk)
    (hb : ∀ i, i < NBUF → (m2.cache.buf i).valid ≠ 0 →
      (m.cache.buf i).valid ≠ 0 ∧ (m2.cache.buf i).data = (m.cache.buf i).data ∧
      (m2.cache.buf i).dev = (m.cache.buf i).dev ∧
      (m2.cache.buf i).blockno = (m.cache.buf i).blockno) : coherent NBUF m2 := by
  intro i hi hv
  obtain ⟨h1, h2, h3, h4⟩ := hb i hi hv
  rw [h2, h3, h4, hd]
  exact h i hi h1

theorem bread_coherent {NBUF : Nat} {m : machine} (h : coherent NBUF m)
    (pid dev blockno ticks : Nat) : coherent NBUF (bread NBUF m pid dev blockno ticks).m := by
  obtain ⟨_, _, e3, e4⟩ := bread_spec NBUF m pid dev blockno ticks
  intro i hi hv
  rw [e3]
  rcases e4 i with h1 | ⟨_, _, h1⟩
  · rw [h1] at hv ⊢
    obtain ⟨k1, k2, k3, k4⟩ := bget_keeps NBUF m.cache pid dev blockno ticks i hv
    rw [k2, k3, k4]
    exact h i hi k1
  · rw [h1]

theorem exec_coherent {NBUF : Nat} {m : machine} (hf : found NBUF m.cache)
    (h : coherent NBUF m) (cl : call) : coherent NBUF (exec NBUF m cl).m := by
  cases cl with
  | bget pid dev blockno ticks =>
    refine coherent_frame h _ rfl ?_
    intro i _ hv
    exact bget_keeps NBUF m.cache pid dev blockno ticks i hv
  | bread pid dev blockno ticks => exact bread_coherent h pid dev blockno ticks
  | bwrite pid b =>
    by_cases hl : (m.cache.buf b).lock = some pid
    · exact bwrite_coherent hf pid b (fun i hi _ hv => h i hi hv) hl
    · show coherent NBUF (bwrite m pid b).m
      unfold bwrite
      rw [if_pos hl]
      exact h
  | brelse pid b ticks =>
    refine coherent_frame h _ rfl ?_
    intro i _ hv
    show _ ∧ ((brelse m.cache pid b ticks).cache.buf i).data = _ ∧
      ((brelse m.cache pid b ticks).cache.buf i).dev = _ ∧
      ((brelse m.cache pid b ticks).cache.buf i).blockno = _
    have hv2 : ((brelse m.cache pid b ticks).cache.buf i).valid ≠ 0 := hv
    unfold brelse at hv2 ⊢
    split at hv2
    · rw [if_pos (by assumption)]
      exact ⟨hv2, by trivial, by trivial, by trivial⟩
    · rw [if_neg (by assumption)]
      by_cases hib : i = b
      · subst hib
        simp only [upd_same] at hv2 ⊢
        exact ⟨hv2, by trivial, by trivial, by trivial⟩
      · simp only [upd_other _ _ _ _ hib] at hv2 ⊢
        exact ⟨hv2, by trivial, by trivial, by trivial⟩
  | bpin b =>
    refine coherent_frame h _ rfl ?_
    intro i _ hv
    have hv2 : ((bpin m.cache b).cache.buf i).valid ≠ 0 := hv
    show _ ∧ ((bpin m.cache b).cache.buf i).data = _ ∧
      ((bpin m.cache b).cache.buf i).dev = _ ∧ ((bpin m.cache b).cache.buf i).blockno = _
    unfold bpin at hv2 ⊢
    by_cases hib : i = b
    · subst hib
      simp only [upd_same] at hv2 ⊢
      exact ⟨hv2, by trivial, by trivial, by trivial⟩
    · simp only [upd_other _ _ _ _ hib] at hv2 ⊢
      exact ⟨hv2, by trivial, by trivial, by trivial⟩
  | bunpin b =>
    refine coherent_frame h _ rfl ?_
    intro i _ hv
    have hv2 : ((bunpin m.cache b).cache.buf i).valid ≠ 0 := hv
    show _ ∧ ((bunpin m.cache b).cache.buf i).data = _ ∧
      ((bunpin m.cache b).cache.buf i).dev = _ ∧ ((bunpin m.cache b).cache.buf i).blockno = _
    unfold bunpin at hv2 ⊢
    by_cases hib : i = b
    · subst hib
      simp only [upd_same] at hv2 ⊢
      exact ⟨hv2, by trivial, by trivial, by trivial⟩
    · simp only [upd_other _ _ _ _ hib] at hv2 ⊢
      exact ⟨hv2, by trivial, by trivial, by trivial⟩

theorem exec_found {NBUF : Nat} {m : machine} (hg : good NBUF m.cache)
    (h : found NBUF m.cache) (cl : call) : found NBUF (exec NBUF m cl).m.cache := by
  cases cl with
  | bget pid dev blockno ticks => exact bget_found hg h pid dev blockno ticks
  | bread pid dev blockno ticks => exact bread_found hg h pid dev blockno ticks
  | bwrite pid b => simp only [exec]; rw [bwrite_cache]; exact h
  | brelse pid b ticks => exact brelse_found h pid b ticks
  | bpin b => exact bpin_found h b
  | bunpin b => exact bunpin_found h b

theorem act_sound {NBUF : Nat} {m : machine} (h : sound NBUF m) (x : action)
    (hc : completes (act NBUF m x).st = true) : sound NBUF (act NBUF m x).m := by
  obtain ⟨hg, hf, hco⟩ := h
  cases x with
  | call cl => exact ⟨exec_good hg cl, exec_found hg hf cl, exec_coherent hf hco cl⟩
  | update pid b v =>
    have hl : ((store m b v).cache.buf b).lock = some pid := by
      by_contra hl
      have : (act NBUF m (.update pid b v)).st = .panic .bwrite := by
        show (bwrite (store m b v) pid b).st = _
        unfold bwrite
        rw [if_pos hl]
      rw [this] at hc
      cases hc
    refine ⟨?_, ?_, ?_⟩
    · show good NBUF (bwrite (store m b v) pid b).m.cache
      rw [bwrite_cache]
      exact store_good hg b v
    · show found NBUF (bwrite (store m b v) pid b).m.cache
      rw [bwrite_cache]
      exact store_found hf b v
    · refine bwrite_coherent (store_found hf b v) pid b ?_ hl
      intro i hi hib hv
      simp only [store, upd_other _ _ _ _ hib] at hv ⊢
      exact hco i hi hv

theorem play_sound {NBUF : Nat} (xs : List action) :
    ∀ (m m2 : machine), sound NBUF m → play NBUF m xs = some m2 → sound NBUF m2 := by
  induction xs with
  | nil =>
    intro m m2 h hr
    simp only [play] at hr
    injection hr with hr
    subst hr
    exact h
  | cons x rest ih =>
    intro m m2 h hr
    simp only [play] at hr
    by_cases hc : completes (act NBUF m x).st = true
    · rw [if_pos hc] at hr
      exact ih _ m2 (act_sound h x hc) hr
    · rw [if_neg hc] at hr
      cases hr

theorem boot_sound (NBUF : Nat) (disk : Nat → Nat → Nat) :
    sound NBUF (boot_machine NBUF disk) := by
  have hb : (boot NBUF).buf = zero_storage.buf := (binit_loop NBUF).1
  refine ⟨boot_good NBUF, ?_, ?_⟩
  · intro i hi
    exfalso
    unfold touched at hi
    have : (boot_machine NBUF disk).cache.buf i = ⟨0, 0, 0, none, 0, 0, 0⟩ := by
      show (boot NBUF).buf i = _
      rw [hb]; rfl
    rw [this] at hi
    rcases hi with hi | hi <;> exact hi rfl
  · intro i _ hv
    exfalso
    have : (boot_machine NBUF disk).cache.buf i = ⟨0, 0, 0, none, 0, 0, 0⟩ := by
      show (boot NBUF).buf i = _
      rw [hb]; rfl
    rw [this] at hv
    exact hv rfl

/-- What `bread` returns, in any machine, and its content in a coherent one. -/
theorem bread_main (NBUF : Nat) (m : machine) (pid dev blockno ticks b : Nat)
    (hret : (bread NBUF m pid dev blockno ticks).st = .ret b) :
    (bget NBUF m.cache pid dev blockno ticks).st = .ret b ∧
    ((bread NBUF m pid dev blockno ticks).m.cache.buf b).valid ≠ 0 ∧
    holds (bread NBUF m pid dev blockno ticks).m.cache dev blockno b ∧
    (bread NBUF m pid dev blockno ticks).m.io =
      m.io ++ (if ((bget NBUF m.cache pid dev blockno ticks).cache.buf b).valid = 0
        then [⟨b, false⟩] else []) ∧
    (bread NBUF m pid dev blockno ticks).m.disk = m.disk ∧
    (WF NBUF m.cache → coherent NBUF m →
      ((bread NBUF m pid dev blockno ticks).m.cache.buf b).data =
        (bread NBUF m pid dev blockno ticks).m.disk dev blockno) := by
  have hst : (bget NBUF m.cache pid dev blockno ticks).st = .ret b := by
    unfold bread at hret
    simp only at hret
    split at hret
    · rename_i b0 hb0
      split at hret
      · injection hret with hret; subst hret; exact hb0
      · injection hret with hret; subst hret; exact hb0
    · rename_i st hne
      simp only at hret
      exact absurd hret (hne b)
  have hholds : holds (bget NBUF m.cache pid dev blockno ticks).cache dev blockno b := by
    rcases bget_ret_cases NBUF m.cache pid dev blockno ticks b hst with
      ⟨hh, hl, locks, he⟩ | ⟨_, hl, mb, locks, he⟩
    · obtain ⟨_, _, _, e4, _⟩ := hit_spec m.cache pid ticks b locks
      unfold holds
      rw [he, e4]
      exact hh
    · obtain ⟨_, _, _, e4, _⟩ := evict_spec m.cache pid dev blockno ticks b mb locks
      unfold holds
      rw [he, e4]
      exact ⟨rfl, rfl⟩
  refine ⟨hst, ?_⟩
  unfold bread
  simp only [hst]
  by_cases hv : ((bget NBUF m.cache pid dev blockno ticks).cache.buf b).valid = 0
  · simp only [hv, if_true, virtio_disk_rw, Bool.false_eq_true, if_false, upd_same]
    refine ⟨by decide, ?_, trivial, trivial, ?_⟩
    · unfold holds
      simp only [upd_same]
      exact hholds
    · intro _ _
      rw [hholds.1, hholds.2]
  · simp only [hv, if_false, List.append_nil]
    refine ⟨hv, hholds, trivial, trivial, ?_⟩
    intro hwf hco
    rcases bget_ret_cases NBUF m.cache pid dev blockno ticks b hst with
      ⟨hh, hl, locks, he⟩ | ⟨_, hl, mb, locks, he⟩
    · obtain ⟨_, _, _, e4, _⟩ := hit_spec m.cache pid ticks b locks
      rw [he, e4] at hv ⊢
      simp only at hv ⊢
      obtain ⟨L, hL⟩ := hwf
      have hb : b < NBUF := by
        by_contra hb
        have hf := lookup_linked hL dev blockno
        cases hfind : (L (get_key dev blockno)).find?
            (fun n => decide (holds m.cache dev blockno n)) with
        | none =>
          have hnone := bget_miss hL pid dev blockno ticks hfind
          obtain ⟨w, _, hcase⟩ := hnone
          rcases hcase with ⟨n, mb, _, _, _, hmb, hmem, he2⟩ | ⟨_, he2⟩
          · have := (find_none_iff hL dev blockno).mp hfind
            -- a miss recycles a slot; the returned slot is then below `NBUF`
            obtain ⟨_, _, _, _, e5⟩ := evict_spec m.cache pid dev blockno ticks n mb w.locks
            rw [he2, e5] at hst
            split at hst
            · injection hst with hst
              subst hst
              exact hb (hL.keyed mb hmb _ hmem).1
            · cases hst
          · rw [he2] at hst; cases hst
        | some b0 =>
          have hhit := bget_hit hL pid dev blockno ticks b0 hfind
          obtain ⟨_, _, _, _, e5, _⟩ := hit_spec m.cache pid ticks b0
            [.acq (.bkt (get_key dev blockno)), .rel (.bkt (get_key dev blockno))]
          rw [hhit, e5] at hst
          split at hst
          · injection hst with hst
            subst hst
            exact hb (hL.keyed _ (get_key_lt _ _) _ (List.mem_of_find?_eq_some hfind)).1
          · cases hst
      have := hco b hb hv
      rw [this, hh.1, hh.2]
    · obtain ⟨_, _, _, e4, _⟩ := evict_spec m.cache pid dev blockno ticks b mb locks
      rw [he, e4] at hv
      exact absurd rfl hv

/-- The links of a list whose nodes are consecutive indices. -/
theorem seg_range (nodes : Nat → node) (n : Nat) :
    ∀ (a : Nat) (p s f : Option Nat), seg nodes p (List.range' a n) s f →
      (s = if n = 0 then f else some a) ∧
      ∀ i, i < n →
        (nodes (a + i)).prev = (if i = 0 then p else some (a + i - 1)) ∧
        (nodes (a + i)).next = (if i + 1 = n then f else some (a + i + 1)) := by
  induction n with
  | zero =>
    intro a p s f h
    exact ⟨h, fun i hi => absurd hi (Nat.not_lt_zero i)⟩
  | succ n ih =>
    intro a p s f h
    rw [List.range'_succ] at h
    obtain ⟨h1, h2, h3⟩ := h
    obtain ⟨h4, h5⟩ := ih (a + 1) (some a) _ f h3
    refine ⟨by simpa using h1, ?_⟩
    intro i hi
    cases i with
    | zero =>
      refine ⟨by simpa using h2, ?_⟩
      simp only [Nat.add_zero, Nat.zero_add]
      rw [h4]
      by_cases hn : n = 0
      · simp [hn]
      · simp [hn]
    | succ j =>
      have hj : j < n := by omega
      obtain ⟨h6, h7⟩ := h5 j hj
      have e1 : a + (j + 1) = a + 1 + j := by omega
      rw [e1, h6, h7]
      constructor
      · by_cases hj0 : j = 0
        · subst hj0; simp
        · simp only [hj0, if_false, Nat.succ_ne_zero]
      · by_cases hjn : j + 1 = n
        · simp [hjn]
        · simp [hjn]

theorem held_after_append (h : List lockid) (t1 t2 : List lock_ev) :
    held_after h (t1 ++ t2) = held_after (held_after h t1) t2 := by
  induction t1 generalizing h with
  | nil => rfl
  | cons e t ih => rw [List.cons_append, held_after, held_after, ih]

theorem at_most_append (n : Nat) (h : List lockid) (t1 t2 : List lock_ev) :
    at_most n h (t1 ++ t2) ↔ at_most n h t1 ∧ at_most n (held_after h t1) t2 := by
  induction t1 generalizing h with
  | nil =>
    simp only [List.nil_append, at_most, held_after]
    constructor
    · intro h2
      refine ⟨?_, h2⟩
      cases t2 with
      | nil => exact h2
      | cons e t => exact h2.1
    · exact fun h2 => h2.2
  | cons e t ih =>
    rw [List.cons_append, at_most, at_most, held_after, ih, and_assoc]

theorem proper_append (h : List lockid) (t1 t2 : List lock_ev) :
    proper h (t1 ++ t2) ↔ proper h t1 ∧ proper (held_after h t1) t2 := by
  induction t1 generalizing h with
  | nil => simp [proper, held_after]
  | cons e t ih =>
    cases e with
    | acq l => rw [List.cons_append, proper, proper, held_after, hold, ih, and_assoc]
    | rel l => rw [List.cons_append, proper, proper, held_after, hold, ih, and_assoc]

theorem erase_second (i m : Nat) (h : m ≠ i) :
    [lockid.bkt i, lockid.bkt m, lockid.global].erase (lockid.bkt m) =
      [lockid.bkt i, lockid.global] := by
  rw [List.erase_cons_tail (by simpa using Ne.symm h), List.erase_cons_head]

theorem bucket_locks_scan_held (mb : Option Nat) : bucket_locks (scan_held mb) ≤ 1 := by
  cases mb <;> simp [scan_held, bucket_locks, is_bkt]

theorem trace_in_visit (c : bcache) (i n : Nat) (v : scan) (h : trace_in i v) :
    trace_in i (scan_visit c i n v) := by
  unfold scan_visit
  split
  · obtain ⟨hp, ht, hh, hr, hb⟩ := h
    cases hm : v.min_bucket with
    | none =>
      rw [hm] at hh
      simp only [reduceCtorEq, if_false, scan_held] at hh
      exact ⟨hp, ht, by simpa using hh, by simp, fun m hm2 => by simp at hm2; omega⟩
    | some m =>
      rw [hm] at hh
      by_cases hmi : m = i
      · subst hmi
        simp only [if_true] at hh
        refine ⟨?_, ?_, ?_, by simp, fun m2 hm2 => by simp at hm2; omega⟩
        · simpa using hp
        · simpa using ht
        · simpa using hh
      · have hne : ¬ (some m = some i) := fun he => hmi (Option.some.inj he)
        simp only [hne, if_false, scan_held] at hh
        refine ⟨?_, ?_, ?_, by simp, fun m2 hm2 => by simp at hm2; omega⟩
        · simp only [ne_eq, hmi, not_false_eq_true, if_true]
          rw [proper_append]
          refine ⟨hp, ?_⟩
          rw [hh]
          simp [proper]
        · simp only [ne_eq, hmi, not_false_eq_true, if_true]
          rw [at_most_append]
          refine ⟨ht, ?_⟩
          rw [hh]
          simp only [at_most, hold, erase_second i m hmi]
          simp [bucket_locks, is_bkt]
        · simp only [ne_eq, hmi, not_false_eq_true, if_true, if_true]
          rw [held_after_append, hh]
          simp only [held_after, hold, erase_second i m hmi]
  · exact h

theorem trace_in_list (c : bcache) (i : Nat) :
    ∀ (fuel : Nat) (s : Option Nat) (v w : scan), trace_in i v →
      scan_list c i fuel s v = some w → trace_in i w := by
  intro fuel
  induction fuel with
  | zero =>
    intro s v w h hs
    cases s with
    | none => simp only [scan_list] at hs; injection hs with hs; subst hs; exact h
    | some n => simp [scan_list] at hs
  | succ f ih =>
    intro s v w h hs
    cases s with
    | none => simp only [scan_list] at hs; injection hs with hs; subst hs; exact h
    | some n =>
      simp only [scan_list] at hs
      exact ih _ _ w (trace_in_visit c i n v h) hs

theorem trace_ok_buckets (NBUF : Nat) (c : bcache) :
    ∀ (k i : Nat) (v w : scan), trace_ok i v →
      scan_buckets NBUF c k i v = some w → trace_ok (i + k) w := by
  intro k
  induction k with
  | zero =>
    intro i v w h hs
    simp only [scan_buckets] at hs
    injection hs with hs
    subst hs
    exact h
  | succ k ih =>
    intro i v w h hs
    simp only [scan_buckets] at hs
    obtain ⟨hp, ht, hh, hb⟩ := h
    have hni : v.min_bucket ≠ some i := by
      intro he
      have := hb i he
      omega
    have hnot : lockid.bkt i ∉ scan_held v.min_bucket := by
      cases hm : v.min_bucket with
      | none => simp [scan_held]
      | some m =>
        have : m ≠ i := fun he => hni (by rw [hm, he])
        simp [scan_held, this.symm]
    have h0 : trace_in i { v with replaced := false, locks := v.locks ++ [.acq (.bkt i)] } := by
      refine ⟨?_, ?_, ?_, ?_, ?_⟩
      · rw [proper_append]
        refine ⟨hp, ?_⟩
        rw [hh]
        exact ⟨hnot, trivial⟩
      · rw [at_most_append]
        refine ⟨ht, ?_⟩
        rw [hh]
        have := bucket_locks_scan_held v.min_bucket
        simp only [at_most, hold, bucket_locks, List.filter_cons, is_bkt, if_true,
          List.length_cons] at this ⊢
        omega
      · rw [held_after_append, hh]
        simp only [hni, if_false]
        rfl
      · simp [hni]
      · intro m hm
        have := hb m hm
        omega
    cases hs1 : scan_list c i NBUF (c.buckets i).head
        { v with replaced := false, locks := v.locks ++ [.acq (.bkt i)] } with
    | none => rw [hs1] at hs; cases hs
    | some v1 =>
      rw [hs1] at hs
      have h1 := trace_in_list c i NBUF _ _ v1 h0 hs1
      have e : i + (k + 1) = i + 1 + k := by omega
      rw [e]
      refine ih (i + 1) _ w ?_ hs
      obtain ⟨hp1, ht1, hh1, hr1, hb1⟩ := h1
      cases hrep : v1.replaced with
      | true =>
        have hm := hr1.mp hrep
        simp only [if_true]
        refine ⟨hp1, ht1, ?_, fun m hm2 => by rw [hm] at hm2; injection hm2 with hm2; omega⟩
        rw [hh1, hm]
        simp [scan_held]
      | false =>
        have hm : v1.min_bucket ≠ some i := by
          intro he
          have := hr1.mpr he
          rw [hrep] at this
          cases this
        simp only [Bool.false_eq_true, if_false]
        simp only [hm, if_false] at hh1
        refine ⟨?_, ?_, ?_, ?_⟩
        · rw [proper_append]
          refine ⟨hp1, ?_⟩
          rw [hh1]
          simp [proper]
        · rw [at_most_append]
          refine ⟨ht1, ?_⟩
          rw [hh1]
          have := bucket_locks_scan_held v1.min_bucket
          simp only [at_most, hold, List.erase_cons_head, bucket_locks, List.filter_cons,
            is_bkt, if_true, List.length_cons] at this ⊢
          omega
        · rw [held_after_append, hh1]
          simp [held_after, hold]
        · intro m hm2
          have h1 := hb1 m hm2
          have h2 : m ≠ i := fun he => hm (by rw [hm2, he])
          omega

theorem hit_locks (c : bcache) (pid ticks b : Nat) (locks : List lock_ev) :
    (hit c pid ticks b locks).locks = locks :=
  (hit_spec c pid ticks b locks).2.2.2.2.2

theorem hit_st (c : bcache) (pid ticks b : Nat) (locks : List lock_ev) :
    (hit c pid ticks b locks).st = .ret b ∨ (hit c pid ticks b locks).st = .sleeps b := by
  rw [(hit_spec c pid ticks b locks).2.2.2.2.1]
  split
  · exact Or.inl rfl
  · exact Or.inr rfl

theorem evict_locks (c : bcache) (pid dev blockno ticks n mb : Nat) (locks : List lock_ev) :
    (evict c pid dev blockno ticks n mb locks).locks =
      (if mb ≠ get_key dev blockno then locks ++ [.acq (.bkt (get_key dev blockno))] else locks)
        ++ [.rel (.bkt mb)]
        ++ (if mb ≠ get_key dev blockno then [.rel (.bkt (get_key dev blockno))] else [])
        ++ [.rel .global] := by
  unfold evict
  simp only
  split <;> rfl

/-- The spinlock operations of the recycling of a node of bucket `mb`, after a scan that ended
with the global lock and the lock of bucket `mb` held. -/
theorem evict_trace (c : bcache) (pid dev blockno ticks n mb : Nat) (locks : List lock_ev)
    (hp : proper [] locks) (ht : at_most 2 [] locks)
    (hh : held_after [] locks = [.bkt mb, .global]) :
    proper [] (evict c pid dev blockno ticks n mb locks).locks ∧
    at_most 2 [] (evict c pid dev blockno ticks n mb locks).locks ∧
    held_after [] (evict c pid dev blockno ticks n mb locks).locks = [] := by
  rw [evict_locks]
  by_cases hk : mb = get_key dev blockno
  · simp only [hk, ne_eq, not_true_eq_false, if_false, List.append_nil, List.append_assoc]
    rw [hk] at hh
    refine ⟨?_, ?_, ?_⟩
    · rw [proper_append]
      refine ⟨hp, ?_⟩
      rw [hh]
      simp [proper]
    · rw [at_most_append]
      refine ⟨ht, ?_⟩
      rw [hh]
      simp [at_most, hold, bucket_locks, is_bkt]
    · rw [held_after_append, hh]
      simp [held_after, hold]
  · have hk2 : get_key dev blockno ≠ mb := fun he => hk he.symm
    have e1 : [lockid.bkt (get_key dev blockno), lockid.bkt mb, lockid.global].erase
        (lockid.bkt mb) = [lockid.bkt (get_key dev blockno), lockid.global] :=
      erase_second _ _ hk
    simp only [ne_eq, hk, not_false_eq_true, if_true, List.append_assoc]
    refine ⟨?_, ?_, ?_⟩
    · rw [proper_append]
      refine ⟨hp, ?_⟩
      rw [hh]
      simp only [List.singleton_append, List.cons_append, List.nil_append, proper, e1,
        List.erase_cons_head]
      simp [hk2]
    · rw [at_most_append]
      refine ⟨ht, ?_⟩
      rw [hh]
      simp only [List.singleton_append, List.cons_append, List.nil_append, at_most, hold, e1,
        List.erase_cons_head]
      simp [bucket_locks, is_bkt]
    · rw [held_after_append, hh]
      simp only [List.singleton_append, List.cons_append, List.nil_append, held_after, hold, e1,
        List.erase_cons_head]

theorem scan_start_ok (key : Nat) :
    trace_ok 0 ⟨UINT_MAX, none, none, false,
      [.acq (.bkt key), .rel (.bkt key), .acq .global]⟩ := by
  refine ⟨?_, ?_, ?_, ?_⟩
  · simp [proper]
  · simp [at_most, hold, bucket_locks, is_bkt]
  · simp [held_after, hold, scan_held]
  · intro m hm
    cases hm

/-- The spinlock discipline of `bget`, in any cache. -/
theorem bget_trace (NBUF : Nat) (c : bcache) (pid dev blockno ticks : Nat) :
    proper [] (bget NBUF c pid dev blockno ticks).locks ∧
    at_most 2 [] (bget NBUF c pid dev blockno ticks).locks ∧
    (∀ b, (bget NBUF c pid dev blockno ticks).st = .ret b ∨
        (bget NBUF c pid dev blockno ticks).st = .sleeps b →
      held_after [] (bget NBUF c pid dev blockno ticks).locks = []) := by
  unfold bget
  simp only
  split
  · refine ⟨by simp [proper], by simp [at_most, hold, bucket_locks, is_bkt], ?_⟩
    intro b hb
    rcases hb with hb | hb <;> cases hb
  · rw [hit_locks]
    refine ⟨by simp [proper], by simp [at_most, hold, bucket_locks, is_bkt], ?_⟩
    intro _ _
    simp [held_after, hold]
  · split
    · refine ⟨by simp [proper], by simp [at_most, hold, bucket_locks, is_bkt], ?_⟩
      intro b hb
      rcases hb with hb | hb <;> cases hb
    · rw [hit_locks]
      refine ⟨by simp [proper], by simp [at_most, hold, bucket_locks, is_bkt], ?_⟩
      intro _ _
      simp [held_after, hold]
    · split
      · refine ⟨by simp [proper], by simp [at_most, hold, bucket_locks, is_bkt], ?_⟩
        intro b hb
        rcases hb with hb | hb <;> cases hb
      · rename_i v hv
        have hok := trace_ok_buckets NBUF c BUCKET_NUM 0 _ v
          (scan_start_ok (get_key dev blockno)) hv
        obtain ⟨hp, ht, hh, _⟩ := hok
        split
        · split
          · rename_i n mb hn hmb
            rw [hmb] at hh
            obtain ⟨h1, h2, h3⟩ := evict_trace c pid dev blockno ticks n mb v.locks hp ht hh
            exact ⟨h1, h2, fun _ _ => h3⟩
          · refine ⟨hp, ht, ?_⟩
            intro b hb
            rcases hb with hb | hb <;> cases hb
        · refine ⟨hp, ht, ?_⟩
          intro b hb
          rcases hb with hb | hb <;> cases hb

theorem lock_part_append (t1 t2 : List ev) :
    lock_part (t1 ++ t2) = lock_part t1 ++ lock_part t2 := by
  induction t1 with
  | nil => rfl
  | cons e t ih =>
    cases e with
    | lock e => rw [List.cons_append, lock_part, lock_part, ih, List.cons_append]
    | write b f => rw [List.cons_append, lock_part, lock_part, ih]

theorem lock_part_map (t : List lock_ev) : lock_part (t.map .lock) = t := by
  induction t with
  | nil => rfl
  | cons e t ih => rw [List.map_cons, lock_part, ih]

theorem guarded_append (c : bcache) (h : List lockid) (t1 t2 : List ev) :
    guarded c h (t1 ++ t2) ↔
      guarded c h t1 ∧ guarded c (held_after h (lock_part t1)) t2 := by
  induction t1 generalizing h with
  | nil => simp [guarded, lock_part, held_after]
  | cons e t ih =>
    cases e with
    | lock e => rw [List.cons_append, guarded, guarded, lock_part, held_after, ih]
    | write b f => rw [List.cons_append, guarded, guarded, lock_part, ih, and_assoc]

theorem guarded_map (c : bcache) (h : List lockid) (t : List lock_ev) :
    guarded c h (t.map .lock) := by
  induction t generalizing h with
  | nil => trivial
  | cons e t ih =>
    rw [List.map_cons, guarded]
    exact ih _

/-- The monitor `guarded` gives the property of every store of a log. -/
theorem guarded_writes (c : bcache) (log : List ev) (h : guarded c [] log) :
    writes_guarded c log := by
  intro pre b f hp
  obtain ⟨s, hs⟩ := hp
  rw [← hs, List.append_assoc, guarded_append] at h
  exact h.2.1

theorem at_most_here (n : Nat) (h : List lockid) (t : List lock_ev) (ht : at_most n h t) :
    bucket_locks h ≤ n := by
  cases t with
  | nil => exact ht
  | cons e t => exact ht.1

theorem at_most_prefix (n : Nat) (t : List lock_ev) (ht : at_most n [] t) (pre : List lock_ev)
    (hp : pre <+: t) : bucket_locks (held_after [] pre) ≤ n := by
  obtain ⟨s, hs⟩ := hp
  rw [← hs, at_most_append] at ht
  exact at_most_here n _ s ht.2

theorem proper_acq (t : List lock_ev) (ht : proper [] t) (pre : List lock_ev) (l : lockid)
    (hp : pre ++ [.acq l] <+: t) : l ∉ held_after [] pre := by
  obtain ⟨s, hs⟩ := hp
  rw [← hs, List.append_assoc, proper_append] at ht
  exact ht.2.1

theorem proper_rel (t : List lock_ev) (ht : proper [] t) (pre : List lock_ev) (l : lockid)
    (hp : pre ++ [.rel l] <+: t) : l ∈ held_after [] pre := by
  obtain ⟨s, hs⟩ := hp
  rw [← hs, List.append_assoc, proper_append] at ht
  exact ht.2.1

theorem hit_log_guarded (c : bcache) (b : Nat) (before after : List lock_ev)
    (h : lockid.global ∈ held_after [] before ∨
      lockid.bkt (get_key (c.buf b).dev (c.buf b).blockno) ∈ held_after [] before) :
    guarded c [] (hit_log b before after) := by
  unfold hit_log
  rw [guarded_append, guarded_append, lock_part_map]
  exact ⟨⟨guarded_map c _ _, h, h, trivial⟩, guarded_map c _ _⟩

theorem evict_log_guarded (c : bcache) (dev blockno n mb : Nat) (locks : List lock_ev)
    (hh : held_after [] locks = [.bkt mb, .global]) :
    guarded c [] (evict_log dev blockno n mb locks) := by
  unfold evict_log
  simp only
  rw [guarded_append, guarded_append, lock_part_map]
  refine ⟨⟨guarded_map c _ _, ?_⟩, guarded_map c _ _⟩
  have hg : lockid.global ∈ held_after []
      (if mb ≠ get_key dev blockno then locks ++ [.acq (.bkt (get_key dev blockno))]
        else locks) := by
    split
    · rw [held_after_append, hh]
      simp [held_after, hold]
    · rw [hh]
      simp
  exact ⟨Or.inl hg, Or.inl hg, Or.inl hg, Or.inl hg, Or.inl hg, trivial⟩

theorem bget_log_guarded (NBUF : Nat) (c : bcache) (dev blockno : Nat) :
    guarded c [] (bget_log NBUF c dev blockno) := by
  unfold bget_log
  simp only
  split
  · simp [guarded]
  · rename_i b hb
    have hh := lookup_some_holds c dev blockno b _ _ hb
    apply hit_log_guarded
    right
    rw [hh.1, hh.2]
    simp [held_after, hold]
  · split
    · simp [guarded]
    · apply hit_log_guarded
      left
      simp [held_after, hold]
    · split
      · simp [guarded]
      · rename_i v hv
        have hok := trace_ok_buckets NBUF c BUCKET_NUM 0 _ v
          (scan_start_ok (get_key dev blockno)) hv
        split
        · split
          · rename_i n mb hn hmb
            have hh := hok.held
            rw [hmb] at hh
            exact evict_log_guarded c dev blockno n mb v.locks hh
          · exact guarded_map c _ _
        · exact guarded_map c _ _

/-- The spinlock operations in the steps of `bget` are its spinlock trace. -/
theorem bget_log_locks (NBUF : Nat) (c : bcache) (pid dev blockno ticks : Nat) :
    lock_part (bget_log NBUF c dev blockno) = (bget NBUF c pid dev blockno ticks).locks := by
  have hhit : ∀ b before after,
      lock_part (hit_log b before after) = before ++ after := by
    intro b before after
    unfold hit_log
    rw [lock_part_append, lock_part_append, lock_part_map, lock_part_map]
    simp [lock_part]
  unfold bget_log bget
  simp only
  split
  · rfl
  · rw [hhit, hit_locks]; rfl
  · split
    · rfl
    · rw [hhit, hit_locks]; rfl
    · split
      · rfl
      · split
        · split
          · rw [evict_locks]
            unfold evict_log
            simp only
            rw [lock_part_append, lock_part_append, lock_part_map, lock_part_map]
            simp [lock_part]
          · exact lock_part_map _
        · exact lock_part_map _

/-- In a well-formed cache every loop of `bget` ends: the call returns, sleeps on a content
lock, or ends in `panic("bget: no buffers")`. -/
theorem bget_ends {NBUF : Nat} {c : bcache} {L : Nat → List Nat} (h : Linked NBUF c L)
    (pid dev blockno ticks : Nat) :
    (∃ b, (bget NBUF c pid dev blockno ticks).st = .ret b ∨
      (bget NBUF c pid dev blockno ticks).st = .sleeps b) ∨
    (bget NBUF c pid dev blockno ticks).st = .panic .no_buffers := by
  cases hf : (L (get_key dev blockno)).find? (fun n => decide (holds c dev blockno n)) with
  | some b0 =>
    rw [bget_hit h pid dev blockno ticks b0 hf]
    exact Or.inl ⟨b0, hit_st c pid ticks b0 _⟩
  | none =>
    obtain ⟨w, _, hcase⟩ := bget_miss h pid dev blockno ticks hf
    rcases hcase with ⟨n, mb, _, _, _, _, _, he⟩ | ⟨_, he⟩
    · obtain ⟨_, _, _, _, e5⟩ := evict_spec c pid dev blockno ticks n mb w.locks
      rw [he, e5]
      cases (c.buf n).lock with
      | none => exact Or.inl ⟨n, Or.inl rfl⟩
      | some q => exact Or.inl ⟨n, Or.inr rfl⟩
    · rw [he]
      exact Or.inr rfl

theorem brelse_log_guarded (c : bcache) (pid b : Nat) : guarded c [] (brelse_log c pid b) := by
  unfold brelse_log
  split
  · trivial
  · simp only
    split <;> simp [guarded, hold]

theorem bpin_log_guarded (c : bcache) (b : Nat) : guarded c [] (bpin_log c b) := by
  unfold bpin_log
  simp [guarded, hold]

theorem bunpin_log_guarded (c : bcache) (b : Nat) : guarded c [] (bunpin_log c b) := by
  unfold bunpin_log
  simp [guarded, hold]

/-- In a well-formed cache a request that some slot holds is a hit: `bget` ends at a slot `b`
that holds it, returning `b` when the content lock of `b` is free and asleep on that lock when
it is not. -/
theorem bget_hit_returns {NBUF : Nat} {c : bcache} {L : Nat → List Nat} (h : Linked NBUF c L)
    (pid dev blockno ticks x : Nat) (hx : x < NBUF) (hh : holds c dev blockno x) :
    ∃ b, b < NBUF ∧ holds c dev blockno b ∧
      ((c.buf b).lock = none → (bget NBUF c pid dev blockno ticks).st = .ret b) ∧
      ((c.buf b).lock ≠ none → (bget NBUF c pid dev blockno ticks).st = .sleeps b) := by
  cases hf : (L (get_key dev blockno)).find? (fun n => decide (holds c dev blockno n)) with
  | none => exact absurd hh ((find_none_iff h dev blockno).mp hf x hx)
  | some b =>
    have hmem := List.mem_of_find?_eq_some hf
    have hb : holds c dev blockno b := by simpa using List.find?_some hf
    obtain ⟨_, _, _, _, e5, _⟩ := hit_spec c pid ticks b
      [.acq (.bkt (get_key dev blockno)), .rel (.bkt (get_key dev blockno))]
    rw [bget_hit h pid dev blockno ticks b hf, e5]
    refine ⟨b, (h.keyed _ (get_key_lt _ _) _ hmem).1, hb, ?_, ?_⟩
    · intro hl; rw [hl]
    · intro hl
      cases hq : (c.buf b).lock with
      | none => exact absurd hq hl
      | some q => rfl

/-- In a well-formed cache a request that no slot holds, when some slot has reference count 0
and a `last_use` other than `UINT_MAX`, is served by an eviction: `bget` ends at a slot `b` of
reference count 0, returning `b` when the content lock of `b` is free and asleep on that lock
when it is not. -/
theorem bget_miss_returns {NBUF : Nat} {c : bcache} {L : Nat → List Nat} (h : Linked NBUF c L)
    (pid dev blockno ticks j : Nat) (hno : ∀ x, x < NBUF → ¬ holds c dev blockno x)
    (hj : j < NBUF) (hfree : (c.buf j).refcnt = 0) (hlast : (c.buf j).last_use ≠ UINT_MAX) :
    ∃ b, b < NBUF ∧ (c.buf b).refcnt = 0 ∧
      ((c.buf b).lock = none → (bget NBUF c pid dev blockno ticks).st = .ret b) ∧
      ((c.buf b).lock ≠ none → (bget NBUF c pid dev blockno ticks).st = .sleeps b) := by
  have hf := (find_none_iff h dev blockno).mpr hno
  have hmiss : lookup c dev blockno NBUF (c.buckets (get_key dev blockno)).head = some none := by
    rw [lookup_linked h dev blockno, hf]
  obtain ⟨w, hinv, hcase⟩ := bget_miss h pid dev blockno ticks hf
  rcases hcase with ⟨n, mb, _, hn, _, hmb, hmem, he⟩ | ⟨_, he⟩
  · obtain ⟨_, _, _, _, e5⟩ := evict_spec c pid dev blockno ticks n mb w.locks
    rw [he, e5]
    refine ⟨n, (h.keyed mb hmb n hmem).1, hinv.is_free n hn, ?_, ?_⟩
    · intro hl; rw [hl]
    · intro hl
      cases hq : (c.buf n).lock with
      | none => exact absurd hq hl
      | some q => rfl
  · have hp : (bget NBUF c pid dev blockno ticks).st = .panic .no_buffers := by rw [he]
    exact absurd ((bget_no_buffers_iff ⟨L, h⟩ pid dev blockno ticks hmiss).mp hp j hj hfree) hlast

theorem first_use_frame {NBUF : Nat} {c : bcache} (h : first_use NBUF c) (c2 : bcache)
    (hn : c2.nodes = c.nodes) (hk : c2.buckets = c.buckets)
    (hid : ∀ i, (c2.buf i).dev = (c.buf i).dev ∧ (c2.buf i).blockno = (c.buf i).blockno)
    (ht : ∀ i, ¬ pristine c2 i → ¬ pristine c i ∨
      lookup c (c.buf i).dev (c.buf i).blockno NBUF
        (c.buckets (get_key (c.buf i).dev (c.buf i).blockno)).head = some (some i)) :
    first_use NBUF c2 := by
  intro i hi
  rw [(hid i).1, (hid i).2, hk, lookup_congr c c2 _ _ hn hid]
  rcases ht i hi with h1 | h1
  · exact h i h1
  · exact h1

theorem hit_first_use {NBUF : Nat} {c : bcache} (h : first_use NBUF c) (pid ticks b : Nat)
    (locks : List lock_ev)
    (hb : lookup c (c.buf b).dev (c.buf b).blockno NBUF
      (c.buckets (get_key (c.buf b).dev (c.buf b).blockno)).head = some (some b)) :
    first_use NBUF (hit c pid ticks b locks).cache := by
  obtain ⟨e1, e2, e3, e4, _, _⟩ := hit_spec c pid ticks b locks
  refine first_use_frame h _ e1 e2 ?_ ?_
  · intro i
    by_cases hib : i = b
    · subst hib; rw [e4]; exact ⟨rfl, rfl⟩
    · rw [e3 i hib]; exact ⟨rfl, rfl⟩
  · intro i hi
    by_cases hib : i = b
    · subst hib; exact Or.inr hb
    · left
      unfold pristine at hi ⊢
      rw [e3 i hib] at hi
      exact hi

theorem evict_first_use {NBUF : Nat} {c : bcache} {L : Nat → List Nat} (h : Linked NBUF c L)
    (hfd : first_use NBUF c) (pid dev blockno ticks n mb : Nat) (locks : List lock_ev)
    (hmb : mb < BUCKET_NUM) (hn : n ∈ L mb) (hmiss : ∀ x, x < NBUF → ¬ holds c dev blockno x) :
    first_use NBUF (evict c pid dev blockno ticks n mb locks).cache := by
  have hL2 := evict_linked h pid dev blockno ticks n mb locks hmb hn
  obtain ⟨_, _, e3, e4, _⟩ := evict_spec c pid dev blockno ticks n mb locks
  intro j hj
  rw [lookup_linked hL2]
  congr 1
  by_cases hjn : j = n
  · subst hjn
    have hid : ((evict c pid dev blockno ticks j mb locks).cache.buf j).dev = dev ∧
        ((evict c pid dev blockno ticks j mb locks).cache.buf j).blockno = blockno := by
      rw [e4]; exact ⟨rfl, rfl⟩
    rw [hid.1, hid.2]
    have hjN : j < NBUF := (h.keyed mb hmb j hn).1
    have hmem := hL2.total j hjN
    rw [hid.1, hid.2] at hmem
    apply find_only _ _ j hmem
    · simpa [holds] using hid
    · intro x hx hpx
      by_contra hxj
      have hxN := (hL2.keyed _ (get_key_lt _ _) x hx).1
      have hpx2 : holds (evict c pid dev blockno ticks j mb locks).cache dev blockno x := by
        simpa using hpx
      unfold holds at hpx2
      rw [e3 x hxj] at hpx2
      exact hmiss x hxN hpx2
  · have hbj := e3 j hjn
    rw [hbj]
    have htj : ¬ pristine c j := by
      unfold pristine at hj ⊢
      rw [hbj] at hj
      exact hj
    have hf := hfd j htj
    rw [lookup_linked h] at hf
    injection hf with hf
    have hjN : j < NBUF :=
      (h.keyed _ (get_key_lt _ _) j (List.mem_of_find?_eq_some hf)).1
    have hne : ¬ ((c.buf j).dev = dev ∧ (c.buf j).blockno = blockno) := hmiss j hjN
    have hqn : decide (holds (evict c pid dev blockno ticks n mb locks).cache
        (c.buf j).dev (c.buf j).blockno n) = false := by
      rw [decide_eq_false_iff_not]
      unfold holds
      rw [e4]
      intro hh
      exact hne ⟨hh.1.symm, hh.2.symm⟩
    apply find_moved L _ mb _ n j _ hqn
    apply find_mono _ _ _ j hf
    · rw [decide_eq_true_iff]
      unfold holds
      rw [hbj]
      exact ⟨rfl, rfl⟩
    · intro x _ hqx
      rw [decide_eq_true_iff] at hqx ⊢
      by_cases hxn : x = n
      · subst hxn
        rw [hqx |> decide_eq_true] at hqn
        cases hqn
      · unfold holds at hqx ⊢
        rw [e3 x hxn] at hqx
        exact hqx

theorem bget_first_use {NBUF : Nat} {c : bcache} (hg : good NBUF c) (h : first_use NBUF c)
    (pid dev blockno ticks : Nat) :
    first_use NBUF (bget NBUF c pid dev blockno ticks).cache := by
  obtain ⟨⟨L, hL⟩, _⟩ := hg
  cases hf : (L (get_key dev blockno)).find? (fun n => decide (holds c dev blockno n)) with
  | some b =>
    rw [bget_hit hL pid dev blockno ticks b hf]
    have hh : holds c dev blockno b := by simpa using List.find?_some hf
    refine hit_first_use h pid ticks b _ ?_
    rw [hh.1, hh.2, lookup_linked hL, hf]
  | none =>
    obtain ⟨w, _, hcase⟩ := bget_miss hL pid dev blockno ticks hf
    rcases hcase with ⟨n, mb, _, _, _, hmb, hmem, he⟩ | ⟨_, he⟩
    · rw [he]
      exact evict_first_use hL h pid dev blockno ticks n mb w.locks hmb hmem
        ((find_none_iff hL dev blockno).mp hf)
    · rw [he]
      exact h

theorem brelse_first_use {NBUF : Nat} {c : bcache} (h : first_use NBUF c) (pid b ticks : Nat) :
    first_use NBUF (brelse c pid b ticks).cache := by
  unfold brelse
  split
  · exact h
  · rename_i hl
    refine first_use_frame h _ rfl rfl ?_ ?_
    · intro i
      by_cases hib : i = b
      · subst hib; simp
      · simp [upd, hib]
    · intro i hi
      left
      by_cases hib : i = b
      · subst hib
        intro hp
        apply hl
        rw [hp.2.1]
        exact fun hc => by cases hc
      · unfold pristine at hi ⊢
        simpa [upd, hib] using hi

theorem bpin_first_use {NBUF : Nat} {c : bcache} (h : first_use NBUF c) (b : Nat) :
    first_use NBUF (bpin c b).cache := by
  unfold bpin
  refine first_use_frame h _ rfl rfl ?_ ?_
  · intro i
    by_cases hib : i = b
    · subst hib; simp
    · simp [upd, hib]
  · intro i hi
    left
    unfold pristine at hi ⊢
    by_cases hib : i = b
    · subst hib; simpa using hi
    · simpa [upd, hib] using hi

theorem bunpin_first_use {NBUF : Nat} {c : bcache} (h : first_use NBUF c) (b : Nat) :
    first_use NBUF (bunpin c b).cache := by
  unfold bunpin
  refine first_use_frame h _ rfl rfl ?_ ?_
  · intro i
    by_cases hib : i = b
    · subst hib; simp
    · simp [upd, hib]
  · intro i hi
    left
    unfold pristine at hi ⊢
    by_cases hib : i = b
    · subst hib; simpa using hi
    · simpa [upd, hib] using hi

theorem bread_first_use {NBUF : Nat} {m : machine} (hg : good NBUF m.cache)
    (h : first_use NBUF m.cache) (pid dev blockno ticks : Nat) :
    first_use NBUF (bread NBUF m pid dev blockno ticks).m.cache := by
  have hf := bget_first_use hg h pid dev blockno ticks
  obtain ⟨e1, e2, _, e4⟩ := bread_spec NBUF m pid dev blockno ticks
  refine first_use_frame hf _ e1 e2 ?_ ?_
  · intro i
    rcases e4 i with h1 | ⟨_, _, h1⟩
    · rw [h1]; exact ⟨rfl, rfl⟩
    · rw [h1]; exact ⟨rfl, rfl⟩
  · intro i hi
    left
    rcases e4 i with h1 | ⟨hst, _, _⟩
    · unfold pristine at hi ⊢
      rw [h1] at hi
      exact hi
    · intro hp
      have hl := (bget_ret_locked NBUF m.cache pid dev blockno ticks i hst).1
      rw [hp.2.1] at hl
      cases hl

theorem exec_first_use {NBUF : Nat} {m : machine} (hg : good NBUF m.cache)
    (h : first_use NBUF m.cache) (cl : call) : first_use NBUF (exec NBUF m cl).m.cache := by
  cases cl with
  | bget pid dev blockno ticks => exact bget_first_use hg h pid dev blockno ticks
  | bread pid dev blockno ticks => exact bread_first_use hg h pid dev blockno ticks
  | bwrite pid b => simp only [exec]; rw [bwrite_cache]; exact h
  | brelse pid b ticks => exact brelse_first_use h pid b ticks
  | bpin b => exact bpin_first_use h b
  | bunpin b => exact bunpin_first_use h b

theorem run_first_use {NBUF : Nat} (calls : List call) :
    ∀ (m m2 : machine), good NBUF m.cache → first_use NBUF m.cache →
      run NBUF m calls = some m2 → first_use NBUF m2.cache := by
  induction calls with
  | nil =>
    intro m m2 _ h hr
    simp only [run] at hr
    injection hr with hr
    subst hr
    exact h
  | cons cl rest ih =>
    intro m m2 hg h hr
    simp only [run] at hr
    split at hr
    · exact ih _ m2 (exec_good hg cl) (exec_first_use hg h cl) hr
    · cases hr

theorem boot_first_use (NBUF : Nat) : first_use NBUF (boot NBUF) := by
  have hb : (boot NBUF).buf = zero_storage.buf := (binit_loop NBUF).1
  intro i hi
  exfalso
  apply hi
  unfold pristine
  rw [hb]
  exact ⟨rfl, rfl, rfl, rfl⟩

theorem touched_not_pristine (c : bcache) (i : Nat) (h : touched c i) : ¬ pristine c i := by
  intro hp
  rcases h with h | h
  · exact h hp.1
  · exact h hp.2.1

/-- Two buffers with the same identity of which neither is as `binit` left it are the same
buffer. -/
theorem first_use_unique {NBUF : Nat} {c : bcache} (h : first_use NBUF c) (i j : Nat)
    (hi : ¬ pristine c i) (hj : ¬ pristine c j) (hd : (c.buf i).dev = (c.buf j).dev)
    (hb : (c.buf i).blockno = (c.buf j).blockno) : i = j := by
  have h1 := h i hi
  have h2 := h j hj
  rw [hd, hb, h2] at h1
  injection h1 with h1
  injection h1 with h1
  exact h1.symm

/-! ## The properties of the specification -/

/-- C1, as stated, fails on a hit at the wrap point of the reference count.  With one slot,
the call `bunpin(0)` right after `binit` leaves a well-formed cache in which slot 0 holds block
`(0, 0)` with reference count `4294967295`; `bget(0, 0)` then hits, returns slot 0, and the
reference count is 0, not one more than before. -/
theorem bget_hit_wraps :
    run 1 (boot_machine 1 (fun _ _ => 0)) [.bunpin 0] =
      some ⟨(bunpin (boot 1) 0).cache, fun _ _ => 0, []⟩ ∧
    Linked 1 (bunpin (boot 1) 0).cache (boot_lists 1) ∧
    holds (bunpin (boot 1) 0).cache 0 0 0 ∧
    (bget 1 (bunpin (boot 1) 0).cache 7 0 0 5).st = .ret 0 ∧
    ((bunpin (boot 1) 0).cache.buf 0).refcnt = 4294967295 ∧
    ((bget 1 (bunpin (boot 1) 0).cache 7 0 0 5).cache.buf 0).refcnt = 0 := by
  refine ⟨rfl, by decide, by decide, by decide, by decide, by decide⟩

/-- C1, amended.  In a well-formed cache `bget(dev, blockno)` does end at a slot: when some
slot holds the request, at a slot `b` that holds it (a hit); when none does and some slot has
reference count 0 and a `last_use` other than `UINT_MAX`, at a slot of reference count 0 (an
eviction); in both cases it returns `b` when the content lock of `b` is free, and sleeps on
that lock when it is not.  When `bget` returns slot `b`: `b` is a slot, it holds
`(dev, blockno)`, and its content lock is held by the caller.  Either the block was cached in
`b` and the reference count of `b` is one more than before modulo `2^32`: exactly one more
whenever it was below `UINT_MAX`, and 0 when it was `UINT_MAX`; or the block was cached
nowhere, `b` had reference count 0, and it now has reference count 1. -/
theorem bget_contract (NBUF : Nat) (c : bcache) (pid dev blockno ticks : Nat)
    (hwf : WF NBUF c) :
    (∀ x, x < NBUF → holds c dev blockno x →
      ∃ b, b < NBUF ∧ holds c dev blockno b ∧
        ((c.buf b).lock = none → (bget NBUF c pid dev blockno ticks).st = .ret b) ∧
        ((c.buf b).lock ≠ none → (bget NBUF c pid dev blockno ticks).st = .sleeps b)) ∧
    ((∀ x, x < NBUF → ¬ holds c dev blockno x) →
      ∀ j, j < NBUF → (c.buf j).refcnt = 0 → (c.buf j).last_use ≠ UINT_MAX →
      ∃ b, b < NBUF ∧ (c.buf b).refcnt = 0 ∧
        ((c.buf b).lock = none → (bget NBUF c pid dev blockno ticks).st = .ret b) ∧
        ((c.buf b).lock ≠ none → (bget NBUF c pid dev blockno ticks).st = .sleeps b)) ∧
    (∀ b, (bget NBUF c pid dev blockno ticks).st = .ret b →
      b < NBUF ∧
      holds (bget NBUF c pid dev blockno ticks).cache dev blockno b ∧
      ((bget NBUF c pid dev blockno ticks).cache.buf b).lock = some pid ∧
      ((holds c dev blockno b ∧
          ((bget NBUF c pid dev blockno ticks).cache.buf b).refcnt =
            ((c.buf b).refcnt + 1) % UINT_MOD ∧
          ((c.buf b).refcnt < UINT_MAX →
            ((bget NBUF c pid dev blockno ticks).cache.buf b).refcnt = (c.buf b).refcnt + 1) ∧
          ((c.buf b).refcnt = UINT_MAX →
            ((bget NBUF c pid dev blockno ticks).cache.buf b).refcnt = 0)) ∨
       ((∀ x, x < NBUF → ¬ holds c dev blockno x) ∧ (c.buf b).refcnt = 0 ∧
          ((bget NBUF c pid dev blockno ticks).cache.buf b).refcnt = 1))) := by
  obtain ⟨L, h⟩ := hwf
  refine ⟨fun x hx hh => bget_hit_returns h pid dev blockno ticks x hx hh,
    fun hno j hj hfree hlast => bget_miss_returns h pid dev blockno ticks j hno hj hfree hlast,
    ?_⟩
  intro b hret
  cases hf : (L (get_key dev blockno)).find? (fun n => decide (holds c dev blockno n)) with
  | some b0 =>
    have hb := bget_hit h pid dev blockno ticks b0 hf
    rw [hb] at hret ⊢
    obtain ⟨_, _, _, e4, e5, _⟩ := hit_spec c pid ticks b0
      [.acq (.bkt (get_key dev blockno)), .rel (.bkt (get_key dev blockno))]
    have hmem := List.mem_of_find?_eq_some hf
    have hh : holds c dev blockno b0 := by simpa using List.find?_some hf
    rw [e5] at hret
    cases hl : (c.buf b0).lock with
    | some q => rw [hl] at hret; cases hret
    | none =>
      rw [hl] at hret e4
      injection hret with hret
      subst hret
      refine ⟨(h.keyed _ (get_key_lt _ _) _ hmem).1, ?_, ?_, Or.inl ⟨hh, ?_, ?_, ?_⟩⟩
      · unfold holds; rw [e4]; exact hh
      · rw [e4]
      · rw [e4]
      · intro hlt
        rw [e4]
        exact Nat.mod_eq_of_lt (by unfold UINT_MAX at hlt; unfold UINT_MOD; omega)
      · intro hmax
        rw [e4]
        show ((c.buf b0).refcnt + 1) % UINT_MOD = 0
        rw [hmax]
        rfl
  | none =>
    obtain ⟨w, hinv, hcase⟩ := bget_miss h pid dev blockno ticks hf
    rcases hcase with ⟨n, mb, _, hn, _, hmb, hmem, hb⟩ | ⟨_, hb⟩
    · rw [hb] at hret ⊢
      obtain ⟨_, _, _, e4, e5⟩ := evict_spec c pid dev blockno ticks n mb w.locks
      rw [e5] at hret
      cases hl : (c.buf n).lock with
      | some q => rw [hl] at hret; cases hret
      | none =>
        rw [hl] at hret e4
        injection hret with hret
        subst hret
        refine ⟨(h.keyed _ hmb _ hmem).1, ?_, ?_,
          Or.inr ⟨(find_none_iff h dev blockno).mp hf, hinv.is_free _ hn, ?_⟩⟩
        · unfold holds; rw [e4]; exact ⟨rfl, rfl⟩
        · rw [e4]
        · rw [e4]
    · rw [hb] at hret; cases hret

theorem bget_contract_witness :
    (∃ b, b < 2 ∧ holds (boot 2) 0 0 b ∧
      (((boot 2).buf b).lock = none → (bget 2 (boot 2) 7 0 0 5).st = .ret b) ∧
      (((boot 2).buf b).lock ≠ none → (bget 2 (boot 2) 7 0 0 5).st = .sleeps b)) ∧
    ((bget 2 (boot 2) 7 0 0 5).st = .ret 0 ∧ 0 < 2 ∧
      holds (bget 2 (boot 2) 7 0 0 5).cache 0 0 0 ∧
      ((bget 2 (boot 2) 7 0 0 5).cache.buf 0).lock = some 7 ∧
      ((holds (boot 2) 0 0 0 ∧
          ((bget 2 (boot 2) 7 0 0 5).cache.buf 0).refcnt =
            (((boot 2).buf 0).refcnt + 1) % UINT_MOD ∧
          (((boot 2).buf 0).refcnt < UINT_MAX →
            ((bget 2 (boot 2) 7 0 0 5).cache.buf 0).refcnt = ((boot 2).buf 0).refcnt + 1) ∧
          (((boot 2).buf 0).refcnt = UINT_MAX →
            ((bget 2 (boot 2) 7 0 0 5).cache.buf 0).refcnt = 0)) ∨
       ((∀ x, x < 2 → ¬ holds (boot 2) 0 0 x) ∧ ((boot 2).buf 0).refcnt = 0 ∧
          ((bget 2 (boot 2) 7 0 0 5).cache.buf 0).refcnt = 1))) ∧
    (∃ b, b < 2 ∧ ((boot 2).buf b).refcnt = 0 ∧
      (((boot 2).buf b).lock = none → (bget 2 (boot 2) 7 1 1 0).st = .ret b) ∧
      (((boot 2).buf b).lock ≠ none → (bget 2 (boot 2) 7 1 1 0).st = .sleeps b)) ∧
    ((bget 2 (boot 2) 7 1 1 0).st = .ret 0 ∧ 0 < 2 ∧
      holds (bget 2 (boot 2) 7 1 1 0).cache 1 1 0 ∧
      ((bget 2 (boot 2) 7 1 1 0).cache.buf 0).lock = some 7 ∧
      ((holds (boot 2) 1 1 0 ∧
          ((bget 2 (boot 2) 7 1 1 0).cache.buf 0).refcnt =
            (((boot 2).buf 0).refcnt + 1) % UINT_MOD ∧
          (((boot 2).buf 0).refcnt < UINT_MAX →
            ((bget 2 (boot 2) 7 1 1 0).cache.buf 0).refcnt = ((boot 2).buf 0).refcnt + 1) ∧
          (((boot 2).buf 0).refcnt = UINT_MAX →
            ((bget 2 (boot 2) 7 1 1 0).cache.buf 0).refcnt = 0)) ∨
       ((∀ x, x < 2 → ¬ holds (boot 2) 1 1 x) ∧ ((boot 2).buf 0).refcnt = 0 ∧
          ((bget 2 (boot 2) 7 1 1 0).cache.buf 0).refcnt = 1))) :=
  ⟨(bget_contract 2 (boot 2) 7 0 0 5 ⟨boot_lists 2, by decide⟩).1 0 (by decide) (by decide),
   ⟨by decide, (bget_contract 2 (boot 2) 7 0 0 5 ⟨boot_lists 2, by decide⟩).2.2 0 (by decide)⟩,
   (bget_contract 2 (boot 2) 7 1 1 0 ⟨boot_lists 2, by decide⟩).2.1 (by decide) 0 (by decide)
     (by decide) (by decide),
   ⟨by decide, (bget_contract 2 (boot 2) 7 1 1 0 ⟨boot_lists 2, by decide⟩).2.2 0 (by decide)⟩⟩

/-- C2. In a well-formed cache, when the request misses in its target bucket and `bget`
recycles slot `b` (it ends by returning `b`, or asleep on the content lock of `b`), then `b` had
reference count 0 before the call, and no slot with reference count 0, in whatever bucket, had
a smaller `last_use`: the choice is the global least recently used one, and a slot with a
positive reference count is never taken.  In a well-formed cache every slot `j < NBUF` is in
exactly one bucket. -/
theorem bget_evicts_lru (NBUF : Nat) (c : bcache) (pid dev blockno ticks b : Nat)
    (hwf : WF NBUF c)
    (hmiss : lookup c dev blockno NBUF (c.buckets (get_key dev blockno)).head = some none)
    (hst : (bget NBUF c pid dev blockno ticks).st = .ret b ∨
      (bget NBUF c pid dev blockno ticks).st = .sleeps b) :
    b < NBUF ∧ (c.buf b).refcnt = 0 ∧
    ∀ j, j < NBUF → (c.buf j).refcnt = 0 → (c.buf b).last_use ≤ (c.buf j).last_use := by
  obtain ⟨L, h⟩ := hwf
  obtain ⟨w, mb, hinv, _, hn, _, hmb, hmem, _⟩ :=
    bget_evicts h pid dev blockno ticks b hmiss hst
  refine ⟨(h.keyed mb hmb b hmem).1, hinv.is_free b hn, ?_⟩
  intro j hj hfree
  exact hinv.is_min b hn j ((linked_mem_scan_order h j).mpr hj) hfree

theorem bget_evicts_lru_witness :
    0 < 2 ∧ ((boot 2).buf 0).refcnt = 0 ∧
    ∀ j, j < 2 → ((boot 2).buf j).refcnt = 0 →
      ((boot 2).buf 0).last_use ≤ ((boot 2).buf j).last_use :=
  bget_evicts_lru 2 (boot 2) 7 1 1 0 0 ⟨boot_lists 2, by decide⟩ (by decide)
    (Or.inl (by decide))

/-- C9. In a well-formed cache whose bucket lists are `L`, the slot `b` recycled by a missing
`bget` is the first one, in the order of the scan (bucket 0 from head to tail, then bucket 1,
...), among the slots with reference count 0 of least `last_use`: every slot with reference
count 0 before it in that order has a strictly larger `last_use`, every one after it a
`last_use` at least as large.  So among several slots sharing the least `last_use` the one in
the lowest bucket, nearest to the head, is taken. -/
theorem bget_evicts_first (NBUF : Nat) (c : bcache) (L : Nat → List Nat)
    (pid dev blockno ticks b : Nat) (h : Linked NBUF c L)
    (hmiss : lookup c dev blockno NBUF (c.buckets (get_key dev blockno)).head = some none)
    (hst : (bget NBUF c pid dev blockno ticks).st = .ret b ∨
      (bget NBUF c pid dev blockno ticks).st = .sleeps b) :
    (c.buf b).refcnt = 0 ∧
    ∃ pre post, scan_order L = pre ++ b :: post ∧
      (∀ x ∈ pre, (c.buf x).refcnt = 0 → (c.buf b).last_use < (c.buf x).last_use) ∧
      (∀ x ∈ post, (c.buf x).refcnt = 0 → (c.buf b).last_use ≤ (c.buf x).last_use) := by
  obtain ⟨w, mb, hinv, hne, hn, _, hmb, hmem, _⟩ :=
    bget_evicts h pid dev blockno ticks b hmiss hst
  obtain ⟨pre, post, hs, hp⟩ := hinv.is_first b hn hne
  refine ⟨hinv.is_free b hn, pre, post, hs, hp, ?_⟩
  intro x hx hfree
  refine hinv.is_min b hn x ?_ hfree
  rw [hs]
  exact List.mem_append_right _ (List.mem_cons_of_mem _ hx)

theorem bget_evicts_first_witness :
    ((boot 2).buf 0).refcnt = 0 ∧
    ∃ pre post, scan_order (boot_lists 2) = pre ++ 0 :: post ∧
      (∀ x ∈ pre, ((boot 2).buf x).refcnt = 0 →
        ((boot 2).buf 0).last_use < ((boot 2).buf x).last_use) ∧
      (∀ x ∈ post, ((boot 2).buf x).refcnt = 0 →
        ((boot 2).buf 0).last_use ≤ ((boot 2).buf x).last_use) :=
  bget_evicts_first 2 (boot 2) (boot_lists 2) 7 1 1 0 0 (by decide) (by decide)
    (Or.inl (by decide))

/-- C4, as stated, fails right after `binit`: with `NBUF = 2` the state reached by the empty
sequence of calls has two distinct slots, 0 and 1, with the same identity `(0, 0)`. -/
theorem boot_shares_identity :
    run 2 (boot_machine 2 (fun _ _ => 0)) [] = some (boot_machine 2 (fun _ _ => 0)) ∧
    (0 : Nat) < 2 ∧ (1 : Nat) < 2 ∧ (0 : Nat) ≠ 1 ∧
    ((boot_machine 2 (fun _ _ => 0)).cache.buf 0).dev =
      ((boot_machine 2 (fun _ _ => 0)).cache.buf 1).dev ∧
    ((boot_machine 2 (fun _ _ => 0)).cache.buf 0).blockno =
      ((boot_machine 2 (fun _ _ => 0)).cache.buf 1).blockno := by
  refine ⟨rfl, by decide, by decide, by decide, by decide, by decide⟩

/-- C4, amended.  Right after `binit` every slot has the identity `(0, 0)`.  In every state
reachable from `binit` by a sequence of completed calls of `bget`, `bread`, `bwrite`, `brelse`,
`bpin`, `bunpin`, two distinct slots have the same identity only when that identity is
`(0, 0)` and one of the two is still as `binit` left it, its reference count apart (not valid,
content lock free, `last_use` 0, content 0); so at most one of the two has been handed out (is
valid or has its content lock held).  Every slot that is not as `binit` left it is the slot
that the scan of `bget` finds for its identity.  So an identity other than `(0, 0)` is held by
one slot only, and no block, block `(0, 0)` included, has two copies in use. -/
theorem reachable_unique_ids (NBUF : Nat) (disk : Nat → Nat → Nat) (calls : List call)
    (m : machine) (hr : run NBUF (boot_machine NBUF disk) calls = some m) :
    (∀ i, i < NBUF → ((boot NBUF).buf i).dev = 0 ∧ ((boot NBUF).buf i).blockno = 0 ∧
      pristine (boot NBUF) i) ∧
    (∀ i j, i < NBUF → j < NBUF → i ≠ j →
      (m.cache.buf i).dev = (m.cache.buf j).dev →
      (m.cache.buf i).blockno = (m.cache.buf j).blockno →
      ((m.cache.buf i).dev = 0 ∧ (m.cache.buf i).blockno = 0) ∧
      (pristine m.cache i ∨ pristine m.cache j) ∧
      ¬ (touched m.cache i ∧ touched m.cache j)) ∧
    (∀ i, ¬ pristine m.cache i →
      lookup m.cache (m.cache.buf i).dev (m.cache.buf i).blockno NBUF
        (m.cache.buckets (get_key (m.cache.buf i).dev (m.cache.buf i).blockno)).head =
          some (some i)) := by
  have hg := run_good calls (boot_machine NBUF disk) m (boot_good NBUF) hr
  have hf := run_first_use calls (boot_machine NBUF disk) m (boot_good NBUF)
    (boot_first_use NBUF) hr
  refine ⟨?_, ?_, hf⟩
  · intro i _
    have hb : (boot NBUF).buf = zero_storage.buf := (binit_loop NBUF).1
    unfold pristine
    rw [hb]
    exact ⟨rfl, rfl, rfl, rfl, rfl, rfl⟩
  · intro i j hi hj hij hd hb
    have hp : pristine m.cache i ∨ pristine m.cache j := by
      by_contra hn
      rw [not_or] at hn
      exact hij (first_use_unique hf i j hn.1 hn.2 hd hb)
    refine ⟨?_, hp, ?_⟩
    · rcases hg.2 i j hi hj hd hb with h | h
      · exact absurd h hij
      · exact h
    · intro ht
      rcases hp with hp | hp
      · exact touched_not_pristine _ i ht.1 hp
      · exact touched_not_pristine _ j ht.2 hp

theorem reachable_unique_ids_witness :
    (∀ i, i < 3 → ((boot 3).buf i).dev = 0 ∧ ((boot 3).buf i).blockno = 0 ∧
      pristine (boot 3) i) ∧
    ((((exec 3 (boot_machine 3 (fun _ _ => 0)) (.bread 7 0 0 0)).m.cache.buf 0).dev = 0 ∧
      ((exec 3 (boot_machine 3 (fun _ _ => 0)) (.bread 7 0 0 0)).m.cache.buf 0).blockno = 0) ∧
      (pristine (exec 3 (boot_machine 3 (fun _ _ => 0)) (.bread 7 0 0 0)).m.cache 0 ∨
        pristine (exec 3 (boot_machine 3 (fun _ _ => 0)) (.bread 7 0 0 0)).m.cache 1) ∧
      ¬ (touched (exec 3 (boot_machine 3 (fun _ _ => 0)) (.bread 7 0 0 0)).m.cache 0 ∧
        touched (exec 3 (boot_machine 3 (fun _ _ => 0)) (.bread 7 0 0 0)).m.cache 1)) ∧
    (((exec 3 (boot_machine 3 (fun _ _ => 0)) (.bread 7 1 1 0)).m.cache.buf 1).dev = 0 ∧
      ((exec 3 (boot_machine 3 (fun _ _ => 0)) (.bread 7 1 1 0)).m.cache.buf 1).blockno = 0) :=
  ⟨(reachable_unique_ids 3 (fun _ _ => 0) [] _ rfl).1,
   (reachable_unique_ids 3 (fun _ _ => 0) [.bread 7 0 0 0] _ rfl).2.1 0 1 (by decide)
     (by decide) (by decide) (by decide) (by decide),
   ((reachable_unique_ids 3 (fun _ _ => 0) [.bread 7 1 1 0] _ rfl).2.1 1 2 (by decide)
     (by decide) (by decide) (by decide) (by decide)).1⟩

/-- C5. In every state reachable from `binit` by a sequence of completed calls, following
`next` from the head of bucket `k` ends and visits a list `l` of slots that is a consistent
doubly-linked list, and each slot `i` occurs in it exactly once when `k` is
`get_key` of its identity and not at all otherwise.  So every slot is on exactly one bucket
list, exactly once, and that bucket is the one its identity hashes to. -/
theorem reachable_buckets (NBUF : Nat) (disk : Nat → Nat → Nat) (calls : List call)
    (m : machine) (hr : run NBUF (boot_machine NBUF disk) calls = some m) :
    ∀ k, k < BUCKET_NUM → ∃ l, bucket_nodes NBUF m.cache k = some l ∧ bucket_ok m.cache k l ∧
      (∀ x ∈ l, x < NBUF) ∧
      ∀ i, i < NBUF →
        l.count i = if get_key (m.cache.buf i).dev (m.cache.buf i).blockno = k then 1 else 0 := by
  obtain ⟨⟨L, hL⟩, _⟩ := run_good calls (boot_machine NBUF disk) m (boot_good NBUF) hr
  intro k hk
  exact ⟨L k, linked_bucket_nodes hL k hk, hL.links k hk, fun x hx => (hL.keyed k hk x hx).1,
    fun i hi => linked_count hL k hk i hi⟩

theorem reachable_buckets_witness :
    ∃ l,
      bucket_nodes 2 (exec 2 (boot_machine 2 (fun _ _ => 0)) (.bread 7 1 1 0)).m.cache 10 =
        some l ∧
      bucket_ok (exec 2 (boot_machine 2 (fun _ _ => 0)) (.bread 7 1 1 0)).m.cache 10 l ∧
      (∀ x ∈ l, x < 2) ∧
      ∀ i, i < 2 →
        l.count i =
          if get_key ((exec 2 (boot_machine 2 (fun _ _ => 0)) (.bread 7 1 1 0)).m.cache.buf i).dev
              ((exec 2 (boot_machine 2 (fun _ _ => 0)) (.bread 7 1 1 0)).m.cache.buf i).blockno = 10
          then 1 else 0 :=
  reachable_buckets 2 (fun _ _ => 0) [.bread 7 1 1 0] _ rfl 10 (by decide)

/-- C3, the code at the failing input.  With one slot, after `bget` of block (0, 0) and its
`brelse` when `ticks` reads `UINT_MAX`, the cache is well formed and its only slot has reference
count 0 and `last_use = UINT_MAX`; a `bget` of block (0, 1) misses and ends in
`panic("bget: no buffers")` although a slot with reference count 0 exists. -/
theorem bget_aborts_with_free_slot :
    run 1 (boot_machine 1 (fun _ _ => 0)) [.bget 7 0 0 0, .brelse 7 0 4294967295] =
      some ⟨stale_cache, fun _ _ => 0, []⟩ ∧
    Linked 1 stale_cache (boot_lists 1) ∧
    (stale_cache.buf 0).refcnt = 0 ∧
    (stale_cache.buf 0).last_use = UINT_MAX ∧
    lookup stale_cache 0 1 1 (stale_cache.buckets (get_key 0 1)).head = some none ∧
    (bget 1 stale_cache 7 0 1 0).st = .panic .no_buffers := by
  refine ⟨rfl, by decide, by decide, by decide, by decide, by decide⟩

/-- C6, as stated, fails when the reference count is 0.  With one slot, after `bget(0, 0)` by
process 7 and `bunpin(0)`, process 7 holds the content lock of slot 0 and the reference count
is 0; `brelse(0)` then returns and leaves reference count `4294967295`, not one less. -/
theorem brelse_wraps :
    (run 1 (boot_machine 1 (fun _ _ => 0)) [.bget 7 0 0 0, .bunpin 0]).map
      (fun m => ((m.cache.buf 0).lock, (m.cache.buf 0).refcnt)) = some (some 7, 0) ∧
    (run 1 (boot_machine 1 (fun _ _ => 0)) [.bget 7 0 0 0, .bunpin 0, .brelse 7 0 5]).map
      (fun m => ((m.cache.buf 0).lock, (m.cache.buf 0).refcnt)) = some (none, 4294967295) := by
  refine ⟨by decide, by decide⟩

/-- C6, amended.  When the caller `pid` holds the content lock of `b`, `brelse(b)` returns, the
lock is free afterwards, the reference count is decremented by one modulo `2^32` (it is exactly
one less whenever it was positive, and `UINT_MAX` when it was 0), `last_use` becomes the current
`ticks` when the new count is 0 and is unchanged otherwise, and the identity, validity and
content of `b`, every node, every bucket and every other buffer are unchanged.  When the caller
does not hold the lock, `brelse` ends in `panic("brelse")` and the cache is unchanged. -/
theorem brelse_contract (c : bcache) (pid b ticks : Nat) :
    ((c.buf b).lock = some pid →
      (brelse c pid b ticks).st = .done ∧
      ((brelse c pid b ticks).cache.buf b).lock = none ∧
      ((brelse c pid b ticks).cache.buf b).refcnt = ((c.buf b).refcnt + UINT_MAX) % UINT_MOD ∧
      (0 < (c.buf b).refcnt → (c.buf b).refcnt < UINT_MOD →
        ((brelse c pid b ticks).cache.buf b).refcnt + 1 = (c.buf b).refcnt) ∧
      ((c.buf b).refcnt = 0 → ((brelse c pid b ticks).cache.buf b).refcnt = UINT_MAX) ∧
      (((brelse c pid b ticks).cache.buf b).refcnt = 0 →
        ((brelse c pid b ticks).cache.buf b).last_use = ticks % UINT_MOD) ∧
      (((brelse c pid b ticks).cache.buf b).refcnt ≠ 0 →
        ((brelse c pid b ticks).cache.buf b).last_use = (c.buf b).last_use) ∧
      ((brelse c pid b ticks).cache.buf b).dev = (c.buf b).dev ∧
      ((brelse c pid b ticks).cache.buf b).blockno = (c.buf b).blockno ∧
      ((brelse c pid b ticks).cache.buf b).valid = (c.buf b).valid ∧
      ((brelse c pid b ticks).cache.buf b).data = (c.buf b).data ∧
      (brelse c pid b ticks).cache.nodes = c.nodes ∧
      (brelse c pid b ticks).cache.buckets = c.buckets ∧
      ∀ i, i ≠ b → (brelse c pid b ticks).cache.buf i = c.buf i) ∧
    ((c.buf b).lock ≠ some pid →
      (brelse c pid b ticks).st = .panic .brelse ∧
      (brelse c pid b ticks).cache.buf = c.buf ∧
      (brelse c pid b ticks).cache.nodes = c.nodes ∧
      (brelse c pid b ticks).cache.buckets = c.buckets) := by
  constructor
  · intro hl
    unfold brelse
    simp only [hl, ne_eq, not_true_eq_false, if_false, upd_same, true_and]
    refine ⟨?_, ?_, ?_, ?_, ?_⟩
    · intro h0 hlt
      unfold UINT_MAX UINT_MOD at *
      omega
    · intro h0
      rw [h0]
      rfl
    · intro h0; simp [h0]
    · intro h0; simp [h0]
    · intro i hi
      simp [upd, hi]
  · intro hl
    unfold brelse
    simp [hl]

theorem brelse_contract_witness :
    ((bget 2 (boot 2) 7 1 1 0).cache.buf 0).lock = some 7 ∧
    (brelse (bget 2 (boot 2) 7 1 1 0).cache 7 0 5).st = .done ∧
    ((brelse (bget 2 (boot 2) 7 1 1 0).cache 7 0 5).cache.buf 0).refcnt + 1 =
      ((bget 2 (boot 2) 7 1 1 0).cache.buf 0).refcnt ∧
    ((bunpin (bget 1 (boot 1) 7 0 0 0).cache 0).cache.buf 0).lock = some 7 ∧
    ((bunpin (bget 1 (boot 1) 7 0 0 0).cache 0).cache.buf 0).refcnt = 0 ∧
    ((brelse (bunpin (bget 1 (boot 1) 7 0 0 0).cache 0).cache 7 0 5).cache.buf 0).refcnt =
      UINT_MAX ∧
    ((boot 2).buf 0).lock ≠ some 7 ∧
    (brelse (boot 2) 7 0 5).st = .panic .brelse :=
  ⟨by decide, ((brelse_contract _ 7 0 5).1 (by decide)).1,
    ((brelse_contract _ 7 0 5).1 (by decide)).2.2.2.1 (by decide) (by decide),
    by decide, by decide,
    ((brelse_contract (bunpin (bget 1 (boot 1) 7 0 0 0).cache 0).cache 7 0 5).1
      (by decide)).2.2.2.2.1 (by decide),
    by decide,
    ((brelse_contract (boot 2) 7 0 5).2 (by decide)).1⟩

/-- C7. When `bread(dev, blockno)` returns slot `b`: `bget` returned `b`; `b` is valid and
holds `(dev, blockno)`; `virtio_disk_rw(b, 0)` was called exactly once when the slot returned by
`bget` was not valid and not at all when it was; the device is unchanged.  The content of `b` is
the content of block `(dev, blockno)` on the device in every well-formed cache in which the
content of each valid buffer is that of its block, and so in every machine reached from `binit`
by callers that call the functions of bio.c and write every modification of a buffer through
`bwrite` at once. -/
theorem bread_contract (NBUF : Nat) (m : machine) (pid dev blockno ticks b : Nat)
    (hret : (bread NBUF m pid dev blockno ticks).st = .ret b) :
    (bget NBUF m.cache pid dev blockno ticks).st = .ret b ∧
    ((bread NBUF m pid dev blockno ticks).m.cache.buf b).valid ≠ 0 ∧
    holds (bread NBUF m pid dev blockno ticks).m.cache dev blockno b ∧
    (bread NBUF m pid dev blockno ticks).m.io =
      m.io ++ (if ((bget NBUF m.cache pid dev blockno ticks).cache.buf b).valid = 0
        then [⟨b, false⟩] else []) ∧
    (bread NBUF m pid dev blockno ticks).m.disk = m.disk ∧
    (WF NBUF m.cache → coherent NBUF m →
      ((bread NBUF m pid dev blockno ticks).m.cache.buf b).data =
        (bread NBUF m pid dev blockno ticks).m.disk dev blockno) ∧
    ((∃ disk0 xs, play NBUF (boot_machine NBUF disk0) xs = some m) →
      ((bread NBUF m pid dev blockno ticks).m.cache.buf b).data =
        (bread NBUF m pid dev blockno ticks).m.disk dev blockno) := by
  obtain ⟨h1, h2, h3, h4, h5, h6⟩ := bread_main NBUF m pid dev blockno ticks b hret
  refine ⟨h1, h2, h3, h4, h5, h6, ?_⟩
  rintro ⟨disk0, xs, hp⟩
  obtain ⟨hg, _, hco⟩ := play_sound xs _ m (boot_sound NBUF disk0) hp
  exact h6 hg.1 hco

theorem bread_contract_witness :
    (bread 2 (act 2 (act 2 (act 2 (boot_machine 2 (fun d k => d + k))
        (.call (.bread 7 1 1 0))).m (.update 7 0 42)).m (.call (.brelse 7 0 1))).m
      8 1 1 5).st = .ret 0 ∧
    ((bread 2 (act 2 (act 2 (act 2 (boot_machine 2 (fun d k => d + k))
        (.call (.bread 7 1 1 0))).m (.update 7 0 42)).m (.call (.brelse 7 0 1))).m
      8 1 1 5).m.cache.buf 0).data =
      (bread 2 (act 2 (act 2 (act 2 (boot_machine 2 (fun d k => d + k))
        (.call (.bread 7 1 1 0))).m (.update 7 0 42)).m (.call (.brelse 7 0 1))).m
      8 1 1 5).m.disk 1 1 :=
  ⟨by decide,
   (bread_contract 2 (act 2 (act 2 (act 2 (boot_machine 2 (fun d k => d + k))
        (.call (.bread 7 1 1 0))).m (.update 7 0 42)).m (.call (.brelse 7 0 1))).m
      8 1 1 5 0 (by decide)).2.2.2.2.2.2
     ⟨fun d k => d + k,
      [.call (.bread 7 1 1 0), .update 7 0 42, .call (.brelse 7 0 1)], rfl⟩⟩

/-- C8, as stated, fails: with one slot, right after `binit`, the single call `bunpin` of
slot 0 completes and leaves reference count `4294967295`: the count has wrapped below 0, and it
is not the number of outstanding acquires and pins, which is `0 - 1`. -/
theorem bunpin_wraps :
    (run 1 (boot_machine 1 (fun _ _ => 0)) [.bunpin 0]).map
      (fun m => (m.cache.buf 0).refcnt) = some 4294967295 ∧
    (outstanding 1 (boot_machine 1 (fun _ _ => 0)) [.bunpin 0] (fun _ => 0)).map
      (fun a => a 0) = some (-1) := by
  refine ⟨by decide, by decide⟩

/-- C8, amended.  In every state reachable from `binit` by a sequence of completed calls, the
reference count of each slot equals, modulo `2^32`, the number `a i` of acquire and pin calls on
it minus the number of release and unpin calls on it since it took its identity; it is that
number itself, and has not wrapped, whenever `0 ≤ a i < 2^32`, that is as long as no release
or unpin is applied to a slot without an outstanding acquire or pin. -/
theorem refcnt_accounting (NBUF : Nat) (disk : Nat → Nat → Nat) (calls : List call)
    (m : machine) (a : Nat → Int)
    (hr : run NBUF (boot_machine NBUF disk) calls = some m)
    (ha : outstanding NBUF (boot_machine NBUF disk) calls (fun _ => 0) = some a) :
    ∀ i, i < NBUF →
      ((m.cache.buf i).refcnt : Int) = a i % (UINT_MOD : Int) ∧
      (0 ≤ a i → a i < (UINT_MOD : Int) → ((m.cache.buf i).refcnt : Int) = a i) := by
  have hR := run_tally calls (boot_machine NBUF disk) m (fun _ => 0) a (boot_good NBUF)
    (fun i => by
      show (((boot NBUF).buf i).refcnt : Int) = 0 % _
      rw [boot_refcnt]; rfl) hr ha
  intro i _
  refine ⟨hR i, ?_⟩
  intro h0 hlt
  rw [hR i]
  exact Int.emod_eq_of_lt h0 hlt

theorem refcnt_accounting_witness :
    (((exec 2 (boot_machine 2 (fun _ _ => 0)) (.bpin 0)).m.cache.buf 0).refcnt : Int) =
      tally 2 (boot_machine 2 (fun _ _ => 0)) (.bpin 0) (fun _ => 0) 0 :=
  (refcnt_accounting 2 (fun _ _ => 0) [.bpin 0] _ _ rfl rfl 0 (by decide)).2
    (by decide) (by decide)

/-- C10. With `NBUF = 2`, starting right after `binit`, for blocks `A = (d, a)`, `B = (d, b)`,
`C = (d, c)` of one device, pairwise distinct, `A` and `B` other than `(0, 0)`: `bget A` returns
slot 0 and it is released when `ticks = 1`; `bget B` returns slot 1 and it is released when
`ticks = 2`; slot 0 then holds `A` and slot 1 holds `B`; `bget C` returns slot 0, the slot
holding `A`, and slot 1 still holds `B`.  After that no bucket contains a buffer holding `A`;
`bget A` misses, recycles slot 1 and returns it with `valid = 0`, and `bread A` calls
`virtio_disk_rw(b, 0)` once. -/
theorem lru_scenario (d a b c p1 p2 p3 p4 t1 t2 t3 t4 : Nat) (disk : Nat → Nat → Nat)
    (io : List io_ev) (hab : a ≠ b) (hac : a ≠ c) (hbc : b ≠ c)
    (hA : ¬ (d = 0 ∧ a = 0)) (hB : ¬ (d = 0 ∧ b = 0)) :
    let s1 := (bget 2 (boot 2) p1 d a t1).cache
    let s2 := (brelse s1 p1 0 1).cache
    let s3 := (bget 2 s2 p2 d b t2).cache
    let s4 := (brelse s3 p2 1 2).cache
    let s5 := (bget 2 s4 p3 d c t3).cache
    (bget 2 (boot 2) p1 d a t1).st = .ret 0 ∧
    (brelse s1 p1 0 1).st = .done ∧
    (bget 2 s2 p2 d b t2).st = .ret 1 ∧
    (brelse s3 p2 1 2).st = .done ∧
    holds s4 d a 0 ∧ holds s4 d b 1 ∧
    (bget 2 s4 p3 d c t3).st = .ret 0 ∧
    holds s5 d c 0 ∧ holds s5 d b 1 ∧
    (∀ k, k < BUCKET_NUM → lookup s5 d a 2 (s5.buckets k).head = some none) ∧
    (bget 2 s5 p4 d a t4).st = .ret 1 ∧
    ((bget 2 s5 p4 d a t4).cache.buf 1).valid = 0 ∧
    (bread 2 ⟨s5, disk, io⟩ p4 d a t4).st = .ret 1 ∧
    (bread 2 ⟨s5, disk, io⟩ p4 d a t4).m.io = io ++ [⟨1, false⟩] := by
  intro s1 s2 s3 s4 s5
  -- acquire A
  obtain ⟨r1, b10, b11⟩ := first_acquire p1 d a t1 hA
  have g1 : good 2 s1 := bget_good (boot_good 2) p1 d a t1
  change s1.buf 0 = _ at b10
  change s1.buf 1 = _ at b11
  -- release A at ticks = 1
  obtain ⟨r2, b20, b2x⟩ := brelse_last s1 p1 0 1 _ _ _ _ b10 (by decide)
  have g2 : good 2 s2 := brelse_good g1 p1 0 1
  have b21 := b2x 1 (by decide)
  rw [b11] at b21
  change s2.buf 0 = _ at b20
  change s2.buf 1 = _ at b21
  clear_value s1
  -- acquire B
  obtain ⟨r3, b31, b3x⟩ := bget_recycles g2.1 p2 d b t2 1 (by decide)
    (by
      intro x hx hh
      unfold holds at hh
      interval_cases x
      · rw [b20] at hh; exact hab hh.2
      · rw [b21] at hh; exact hB ⟨hh.1.symm, hh.2.symm⟩)
    (by rw [b21]) (by rw [b21]; decide) (by rw [b21])
    (by
      intro x hx hne
      interval_cases x
      · right; rw [b20, b21]; simp
      · exact absurd rfl hne)
  have g3 : good 2 s3 := bget_good g2 p2 d b t2
  have b30 := b3x 0 (by decide)
  rw [b20] at b30
  rw [b21] at b31
  change s3.buf 1 = _ at b31
  change s3.buf 0 = _ at b30
  clear_value s2
  -- release B at ticks = 2
  obtain ⟨r4, b41, b4x⟩ := brelse_last s3 p2 1 2 _ _ _ _ b31 (by decide)
  have g4 : good 2 s4 := brelse_good g3 p2 1 2
  have b40 := b4x 0 (by decide)
  rw [b30] at b40
  change s4.buf 1 = _ at b41
  change s4.buf 0 = _ at b40
  clear_value s3
  -- acquire C
  obtain ⟨r5, b50, b5x⟩ := bget_recycles g4.1 p3 d c t3 0 (by decide)
    (by
      intro x hx hh
      unfold holds at hh
      interval_cases x
      · rw [b40] at hh; exact hac hh.2
      · rw [b41] at hh; exact hbc hh.2)
    (by rw [b40]) (by rw [b40]; simp [UINT_MAX]) (by rw [b40])
    (by
      intro x hx hne
      interval_cases x
      · exact absurd rfl hne
      · right; rw [b40, b41]; simp)
  have g5 : good 2 s5 := bget_good g4 p3 d c t3
  have b51 := b5x 1 (by decide)
  rw [b41] at b51
  rw [b40] at b50
  change s5.buf 0 = _ at b50
  change s5.buf 1 = _ at b51
  have h4a : holds s4 d a 0 := by unfold holds; rw [b40]; exact ⟨rfl, rfl⟩
  have h4b : holds s4 d b 1 := by unfold holds; rw [b41]; exact ⟨rfl, rfl⟩
  clear_value s4
  -- acquire A again
  have hmiss : ∀ x, x < 2 → ¬ holds s5 d a x := by
    intro x hx hh
    unfold holds at hh
    interval_cases x
    · rw [b50] at hh; exact hac hh.2.symm
    · rw [b51] at hh; exact hab hh.2.symm
  obtain ⟨r6, b61, _⟩ := bget_recycles g5.1 p4 d a t4 1 (by decide) hmiss
    (by rw [b51]) (by rw [b51]; simp [UINT_MAX]) (by rw [b51])
    (by
      intro x hx hne
      interval_cases x
      · left; rw [b50]; simp
      · exact absurd rfl hne)
  have hv : ((bget 2 s5 p4 d a t4).cache.buf 1).valid = 0 := by rw [b61]
  refine ⟨r1, r2, r3, r4, h4a, h4b, r5, ?_, ?_, ?_, r6, hv, ?_, ?_⟩
  · unfold holds; rw [b50]; exact ⟨rfl, rfl⟩
  · unfold holds; rw [b51]; exact ⟨rfl, rfl⟩
  · intro k hk
    exact lookup_absent g5.1 d a hmiss k hk
  · rw [bread_st]; exact r6
  · unfold bread
    simp only [r6, hv, if_true, virtio_disk_rw, Bool.false_eq_true, if_false]

theorem lru_scenario_witness :
    (bget 2 (brelse (bget 2 (brelse (bget 2 (boot 2) 7 1 1 0).cache 7 0 1).cache 7 1 2 0).cache
      7 1 2).cache 7 1 3 0).st = .ret 0 ∧
    holds (brelse (bget 2 (brelse (bget 2 (boot 2) 7 1 1 0).cache 7 0 1).cache 7 1 2 0).cache
      7 1 2).cache 1 1 0 :=
  ⟨(lru_scenario 1 1 2 3 7 7 7 7 0 0 0 0 (fun _ _ => 0) [] (by decide) (by decide) (by decide)
      (by decide) (by decide)).2.2.2.2.2.2.1,
   (lru_scenario 1 1 2 3 7 7 7 7 0 0 0 0 (fun _ _ => 0) [] (by decide) (by decide) (by decide)
      (by decide) (by decide)).2.2.2.2.1⟩

/-- C11. When the caller `pid` holds the content lock of `b`, `bwrite(b)` returns after calling
`virtio_disk_rw(b, 1)` exactly once, which stores the content of `b` into its block; the cache
(validity, identity and reference count of `b`, every node, every bucket, every other buffer)
is unchanged, and no spinlock is touched.  When the caller does not hold the lock, `bwrite`
ends in `panic("bwrite")` without calling the device, and cache and device are unchanged. -/
theorem bwrite_contract (m : machine) (pid b : Nat) :
    ((m.cache.buf b).lock = some pid →
      (bwrite m pid b).st = .done ∧
      (bwrite m pid b).m.io = m.io ++ [⟨b, true⟩] ∧
      (bwrite m pid b).m.cache = m.cache ∧
      (bwrite m pid b).m.disk (m.cache.buf b).dev (m.cache.buf b).blockno =
        (m.cache.buf b).data ∧
      (bwrite m pid b).locks = []) ∧
    ((m.cache.buf b).lock ≠ some pid →
      (bwrite m pid b).st = .panic .bwrite ∧
      (bwrite m pid b).m.io = m.io ∧
      (bwrite m pid b).m.cache = m.cache ∧
      (bwrite m pid b).m.disk = m.disk) := by
  constructor
  · intro hl
    unfold bwrite
    simp [hl, virtio_disk_rw]
  · intro hl
    unfold bwrite
    simp [hl]

theorem bwrite_contract_witness :
    ((bread 2 (boot_machine 2 (fun d k => d + k)) 7 1 1 0).m.cache.buf 0).lock = some 7 ∧
    (bwrite (bread 2 (boot_machine 2 (fun d k => d + k)) 7 1 1 0).m 7 0).st = .done ∧
    (bwrite (bread 2 (boot_machine 2 (fun d k => d + k)) 7 1 1 0).m 7 0).m.io =
      (bread 2 (boot_machine 2 (fun d k => d + k)) 7 1 1 0).m.io ++ [⟨0, true⟩] ∧
    ((boot_machine 2 (fun d k => d + k)).cache.buf 0).lock ≠ some 7 ∧
    (bwrite (boot_machine 2 (fun d k => d + k)) 7 0).st = .panic .bwrite ∧
    (bwrite (boot_machine 2 (fun d k => d + k)) 7 0).m.io = [] :=
  ⟨by decide,
   ((bwrite_contract (bread 2 (boot_machine 2 (fun d k => d + k)) 7 1 1 0).m 7 0).1
      (by decide)).1,
   ((bwrite_contract (bread 2 (boot_machine 2 (fun d k => d + k)) 7 1 1 0).m 7 0).1
      (by decide)).2.1,
   by decide,
   ((bwrite_contract (boot_machine 2 (fun d k => d + k)) 7 0).2 (by decide)).1,
   ((bwrite_contract (boot_machine 2 (fun d k => d + k)) 7 0).2 (by decide)).2.1⟩

/-- C12. For 32-bit `dev` and `blockno`, `((uint64)dev << 32) | blockno` is
`dev * 2^32 + blockno`, which is below `2^64`, so `get_key(dev, blockno)` is
`(dev * 2^32 + blockno) mod 13`; it is a bucket index, `0 ≤ get_key < 13`, and, being a
function of `dev` and `blockno`, depends on nothing else. -/
theorem get_key_spec (dev blockno : Nat) (hd : dev < 2 ^ 32) (hb : blockno < 2 ^ 32) :
    (dev <<< 32) ||| blockno = dev * 2 ^ 32 + blockno ∧
    dev * 2 ^ 32 + blockno < 2 ^ 64 ∧
    get_key dev blockno = (dev * 2 ^ 32 + blockno) % 13 ∧
    get_key dev blockno < BUCKET_NUM := by
  have h1 : (dev <<< 32) ||| blockno = dev * 2 ^ 32 + blockno := by
    rw [Nat.shiftLeft_eq, Nat.mul_comm dev, ← Nat.mul_add_lt_is_or hb dev]
  refine ⟨h1, ?_, ?_, get_key_lt dev blockno⟩
  · have : dev * 2 ^ 32 ≤ (2 ^ 32 - 1) * 2 ^ 32 := Nat.mul_le_mul_right _ (by omega)
    norm_num at this hb ⊢
    omega
  · unfold get_key BUCKET_NUM
    rw [h1]

theorem get_key_spec_witness :
    (1 <<< 32) ||| 7 = 1 * 2 ^ 32 + 7 ∧ 1 * 2 ^ 32 + 7 < 2 ^ 64 ∧
    get_key 1 7 = (1 * 2 ^ 32 + 7) % 13 ∧ get_key 1 7 < BUCKET_NUM :=
  get_key_spec 1 7 (by decide) (by decide)

/-- C13. Right after `binit` on zero-filled storage: every slot has identity `(0, 0)`, is
not valid, unlocked, with reference count 0 and `last_use` 0; `get_key(0, 0) = 0`; following
`next` from the head of bucket 0 visits the nodes `0, 1, ..., NBUF-1` in this order, with
`prev` of node `i` being node `i-1` (null for node 0) and `next` being node `i+1` (null for
the last one); head and tail of bucket 0 are node 0 and node `NBUF-1` (when `NBUF > 0`); and
head and tail of every other bucket are null. -/
theorem binit_state (NBUF : Nat) :
    (∀ i, i < NBUF → (boot NBUF).buf i = ⟨0, 0, 0, none, 0, 0, 0⟩) ∧
    get_key 0 0 = 0 ∧
    bucket_nodes NBUF (boot NBUF) 0 = some (List.range NBUF) ∧
    bucket_ok (boot NBUF) 0 (List.range NBUF) ∧
    (∀ i, i < NBUF →
      ((boot NBUF).nodes i).prev = (if i = 0 then none else some (i - 1)) ∧
      ((boot NBUF).nodes i).next = (if i + 1 = NBUF then none else some (i + 1))) ∧
    (0 < NBUF → ((boot NBUF).buckets 0).head = some 0 ∧
      ((boot NBUF).buckets 0).tail = some (NBUF - 1)) ∧
    (∀ k, k ≠ 0 → ((boot NBUF).buckets k).head = none ∧ ((boot NBUF).buckets k).tail = none)
    := by
  obtain ⟨hbuf, hok, hrest⟩ := binit_loop NBUF
  have hb : (boot NBUF).buf = zero_storage.buf := hbuf
  have hok2 : bucket_ok (boot NBUF) 0 (List.range NBUF) := hok
  have hl := boot_linked NBUF
  have hn := linked_bucket_nodes hl 0 (by decide)
  have hl0 : boot_lists NBUF 0 = List.range NBUF := by
    unfold boot_lists; rw [get_key_zero]; simp
  rw [hl0] at hn
  have hseg := hok2.1
  rw [List.range_eq_range'] at hseg
  obtain ⟨hs, hlinks⟩ := seg_range _ NBUF 0 none _ none hseg
  refine ⟨?_, get_key_zero, hn, hok2, ?_, ?_, ?_⟩
  · intro i _
    rw [hb]; rfl
  · intro i hi
    have := hlinks i hi
    simpa using this
  · intro hpos
    constructor
    · rw [hs, if_neg (by omega)]
    · rw [hok2.2]
      obtain ⟨n, rfl⟩ : ∃ n, NBUF = n + 1 := ⟨NBUF - 1, by omega⟩
      rw [List.range_succ, last_or_snoc]
      rfl
  · intro k hk
    have hbk : (boot NBUF).buckets k = ⟨none, none⟩ := hrest k hk
    rw [hbk]
    exact ⟨rfl, rfl⟩

theorem binit_state_witness :
    ((boot 3).buckets 0).head = some 0 ∧ ((boot 3).buckets 0).tail = some (3 - 1) :=
  (binit_state 3).2.2.2.2.2.1 (by decide)

/-- C14, as stated, fails at the two ends of the range of the reference count.  With two
slots, right after `binit`, slot 1 has reference count 0 and `bunpin(1)` leaves `4294967295`,
not one less; in that cache `bpin(1)` leaves 0, not one more. -/
theorem pin_unpin_wrap :
    ((boot 2).buf 1).refcnt = 0 ∧
    (bunpin (boot 2) 1).st = .done ∧
    ((bunpin (boot 2) 1).cache.buf 1).refcnt = 4294967295 ∧
    (bpin (bunpin (boot 2) 1).cache 1).st = .done ∧
    ((bpin (bunpin (boot 2) 1).cache 1).cache.buf 1).refcnt = 0 := by
  refine ⟨by decide, by decide, by decide, by decide, by decide⟩

/-- C14, amended.  Whatever the state of the content lock, `bpin(b)` returns having incremented
the reference count of `b` by one and `bunpin(b)` having decremented it by one, modulo `2^32`:
`bpin` gives exactly one more when the count was below `UINT_MAX` and 0 when it was `UINT_MAX`,
`bunpin` exactly one less when it was positive and `UINT_MAX` when it was 0; each leaves every
other field of `b`, every node, every bucket and every other buffer unchanged.  So `bpin(b)`
followed by `bunpin(b)` gives back the very same cache. -/
theorem pin_unpin (c : bcache) (b : Nat) :
    ((bpin c b).st = .done ∧
      (bpin c b).cache.buf b =
        { c.buf b with refcnt := ((c.buf b).refcnt + 1) % UINT_MOD } ∧
      ((c.buf b).refcnt < UINT_MAX →
        ((bpin c b).cache.buf b).refcnt = (c.buf b).refcnt + 1) ∧
      ((c.buf b).refcnt = UINT_MAX → ((bpin c b).cache.buf b).refcnt = 0) ∧
      (bpin c b).cache.nodes = c.nodes ∧ (bpin c b).cache.buckets = c.buckets ∧
      ∀ i, i ≠ b → (bpin c b).cache.buf i = c.buf i) ∧
    ((bunpin c b).st = .done ∧
      (bunpin c b).cache.buf b =
        { c.buf b with refcnt := ((c.buf b).refcnt + UINT_MAX) % UINT_MOD } ∧
      (0 < (c.buf b).refcnt → (c.buf b).refcnt < UINT_MOD →
        ((bunpin c b).cache.buf b).refcnt + 1 = (c.buf b).refcnt) ∧
      ((c.buf b).refcnt = 0 → ((bunpin c b).cache.buf b).refcnt = UINT_MAX) ∧
      (bunpin c b).cache.nodes = c.nodes ∧ (bunpin c b).cache.buckets = c.buckets ∧
      ∀ i, i ≠ b → (bunpin c b).cache.buf i = c.buf i) ∧
    ((c.buf b).refcnt < UINT_MOD → (bunpin (bpin c b).cache b).cache = c) := by
  refine ⟨⟨rfl, ?_, ?_, ?_, rfl, rfl, ?_⟩, ⟨rfl, ?_, ?_, ?_, rfl, rfl, ?_⟩, ?_⟩
  · simp [bpin]
  · intro h
    simp only [bpin, upd_same]
    unfold UINT_MAX at h
    unfold UINT_MOD
    omega
  · intro h
    simp only [bpin, upd_same]
    rw [h]
    rfl
  · intro i hi
    simp [bpin, upd, hi]
  · simp [bunpin]
  · intro h0 h1
    simp only [bunpin, upd_same]
    unfold UINT_MAX UINT_MOD at *
    omega
  · intro h
    simp only [bunpin, upd_same]
    rw [h]
    rfl
  · intro i hi
    simp [bunpin, upd, hi]
  · intro h
    have hr : (((c.buf b).refcnt + 1) % UINT_MOD + UINT_MAX) % UINT_MOD = (c.buf b).refcnt := by
      unfold UINT_MAX UINT_MOD at *
      omega
    cases c with
    | mk buf nodes buckets =>
      simp only [bunpin, bpin, upd_same, bcache.mk.injEq, and_true]
      funext i
      by_cases hi : i = b
      · subst hi
        simp only [upd_same]
        simp only at hr
        rw [hr]
      · simp [upd, hi]

theorem pin_unpin_witness :
    ((bpin (boot 2) 0).cache.buf 0).refcnt = ((boot 2).buf 0).refcnt + 1 ∧
    ((bunpin (bpin (boot 2) 0).cache 0).cache.buf 0).refcnt + 1 =
      ((bpin (boot 2) 0).cache.buf 0).refcnt ∧
    ((bunpin (boot 2) 0).cache.buf 0).refcnt = UINT_MAX ∧
    ((bpin (bunpin (boot 2) 0).cache 0).cache.buf 0).refcnt = 0 ∧
    (bunpin (bpin (boot 2) 0).cache 0).cache = boot 2 :=
  ⟨(pin_unpin (boot 2) 0).1.2.2.1 (by decide),
   (pin_unpin (bpin (boot 2) 0).cache 0).2.1.2.2.1 (by decide) (by decide),
   (pin_unpin (boot 2) 0).2.1.2.2.2.1 (by decide),
   (pin_unpin (bunpin (boot 2) 0).cache 0).1.2.2.2.1 (by decide),
   (pin_unpin (boot 2) 0).2.2 (by decide)⟩

/-- C16. In a well-formed cache with bucket lists `L`, when the request misses and `bget`
recycles slot `b`, the node of `b` was in some bucket `mb`, say `L mb = l1 ++ b :: l2` (`l1`
and `l2` empty: the only node; `l1` empty: the first; `l2` empty: the last; otherwise in the
middle).  When `mb` is not the target bucket, afterwards bucket `mb` is the consistent
doubly-linked list `l1 ++ l2`, the target bucket is the consistent doubly-linked list of its
previous nodes followed by `b`, and every other bucket is the list it was; following `next`
from each head visits exactly these lists.  When `mb` is the target bucket no node and no
bucket changes.  In both cases slot `b` holds the request, is not valid and has reference
count 1. -/
theorem bget_migrates (NBUF : Nat) (c : bcache) (L : Nat → List Nat) (h : Linked NBUF c L)
    (pid dev blockno ticks b : Nat)
    (hmiss : lookup c dev blockno NBUF (c.buckets (get_key dev blockno)).head = some none)
    (hst : (bget NBUF c pid dev blockno ticks).st = .ret b ∨
      (bget NBUF c pid dev blockno ticks).st = .sleeps b) :
    ∃ mb l1 l2, mb < BUCKET_NUM ∧ L mb = l1 ++ b :: l2 ∧
      (mb ≠ get_key dev blockno →
        bucket_ok (bget NBUF c pid dev blockno ticks).cache mb (l1 ++ l2) ∧
        bucket_nodes NBUF (bget NBUF c pid dev blockno ticks).cache mb = some (l1 ++ l2) ∧
        bucket_ok (bget NBUF c pid dev blockno ticks).cache (get_key dev blockno)
          (L (get_key dev blockno) ++ [b]) ∧
        bucket_nodes NBUF (bget NBUF c pid dev blockno ticks).cache (get_key dev blockno) =
          some (L (get_key dev blockno) ++ [b]) ∧
        ∀ k, k < BUCKET_NUM → k ≠ mb → k ≠ get_key dev blockno →
          bucket_ok (bget NBUF c pid dev blockno ticks).cache k (L k) ∧
          bucket_nodes NBUF (bget NBUF c pid dev blockno ticks).cache k = some (L k)) ∧
      (mb = get_key dev blockno →
        (bget NBUF c pid dev blockno ticks).cache.nodes = c.nodes ∧
        (bget NBUF c pid dev blockno ticks).cache.buckets = c.buckets ∧
        ∀ k, k < BUCKET_NUM →
          bucket_ok (bget NBUF c pid dev blockno ticks).cache k (L k) ∧
          bucket_nodes NBUF (bget NBUF c pid dev blockno ticks).cache k = some (L k)) ∧
      holds (bget NBUF c pid dev blockno ticks).cache dev blockno b ∧
      ((bget NBUF c pid dev blockno ticks).cache.buf b).valid = 0 ∧
      ((bget NBUF c pid dev blockno ticks).cache.buf b).refcnt = 1 := by
  obtain ⟨w, mb, _, _, _, _, hmb, hmem, he⟩ := bget_evicts h pid dev blockno ticks b hmiss hst
  have hl := evict_linked h pid dev blockno ticks b mb w.locks hmb hmem
  obtain ⟨e1, e2, _, e4, _⟩ := evict_spec c pid dev blockno ticks b mb w.locks
  rw [← he] at hl e1 e2 e4
  obtain ⟨l1, l2, hsplit⟩ := List.append_of_mem hmem
  have hnd := h.nodup mb hmb
  have hnot : b ∉ l1 := by
    rw [hsplit] at hnd
    intro hb
    have := (List.nodup_append.mp hnd).2.2 hb (List.mem_cons_self b l2)
    exact this
  have herase : (L mb).erase b = l1 ++ l2 := by
    rw [hsplit, List.erase_append_right _ hnot, List.erase_cons_head]
  have hkey := get_key_lt dev blockno
  refine ⟨mb, l1, l2, hmb, hsplit, ?_, ?_, ?_, ?_, ?_⟩
  · intro hne
    have m1 : moved L mb (get_key dev blockno) b mb = l1 ++ l2 := by
      unfold moved
      rw [if_pos hne, upd_other _ _ _ _ hne, upd_same, herase]
    have m2 : moved L mb (get_key dev blockno) b (get_key dev blockno) =
        L (get_key dev blockno) ++ [b] := by
      unfold moved
      rw [if_pos hne, upd_same]
    have m3 : ∀ k, k ≠ mb → k ≠ get_key dev blockno →
        moved L mb (get_key dev blockno) b k = L k := by
      intro k h1 h2
      unfold moved
      rw [if_pos hne, upd_other _ _ _ _ h2, upd_other _ _ _ _ h1]
    have a1 := hl.links mb hmb
    have a2 := linked_bucket_nodes hl mb hmb
    have b1 := hl.links _ hkey
    have b2 := linked_bucket_nodes hl _ hkey
    rw [m1] at a1 a2
    rw [m2] at b1 b2
    refine ⟨a1, a2, b1, b2, ?_⟩
    intro k hk h1 h2
    have c1 := hl.links k hk
    have c2 := linked_bucket_nodes hl k hk
    rw [m3 k h1 h2] at c1 c2
    exact ⟨c1, c2⟩
  · intro heq
    have hm : moved L mb (get_key dev blockno) b = L := by
      unfold moved
      rw [if_neg (not_not.mpr heq)]
    rw [hm] at hl
    rw [if_neg (not_not.mpr heq)] at e1 e2
    exact ⟨e1, e2, fun k hk => ⟨hl.links k hk, linked_bucket_nodes hl k hk⟩⟩
  · unfold holds; rw [e4]; exact ⟨rfl, rfl⟩
  · rw [e4]
  · rw [e4]

theorem bget_migrates_witness :
    ∃ mb l1 l2, mb < BUCKET_NUM ∧ boot_lists 3 mb = l1 ++ 0 :: l2 ∧
      (mb ≠ get_key 1 1 →
        bucket_ok (bget 3 (boot 3) 7 1 1 0).cache mb (l1 ++ l2) ∧
        bucket_nodes 3 (bget 3 (boot 3) 7 1 1 0).cache mb = some (l1 ++ l2) ∧
        bucket_ok (bget 3 (boot 3) 7 1 1 0).cache (get_key 1 1)
          (boot_lists 3 (get_key 1 1) ++ [0]) ∧
        bucket_nodes 3 (bget 3 (boot 3) 7 1 1 0).cache (get_key 1 1) =
          some (boot_lists 3 (get_key 1 1) ++ [0]) ∧
        ∀ k, k < BUCKET_NUM → k ≠ mb → k ≠ get_key 1 1 →
          bucket_ok (bget 3 (boot 3) 7 1 1 0).cache k (boot_lists 3 k) ∧
          bucket_nodes 3 (bget 3 (boot 3) 7 1 1 0).cache k = some (boot_lists 3 k)) ∧
      (mb = get_key 1 1 →
        (bget 3 (boot 3) 7 1 1 0).cache.nodes = (boot 3).nodes ∧
        (bget 3 (boot 3) 7 1 1 0).cache.buckets = (boot 3).buckets ∧
        ∀ k, k < BUCKET_NUM →
          bucket_ok (bget 3 (boot 3) 7 1 1 0).cache k (boot_lists 3 k) ∧
          bucket_nodes 3 (bget 3 (boot 3) 7 1 1 0).cache k = some (boot_lists 3 k)) ∧
      holds (bget 3 (boot 3) 7 1 1 0).cache 1 1 0 ∧
      ((bget 3 (boot 3) 7 1 1 0).cache.buf 0).valid = 0 ∧
      ((bget 3 (boot 3) 7 1 1 0).cache.buf 0).refcnt = 1 :=
  bget_migrates 3 (boot 3) (boot_lists 3) (by decide) 7 1 1 0 0 (by decide) (by decide)

/-- C17. When the first scan of the target bucket finds the request in slot `b`, the spinlock
operations of `bget` are exactly one acquire of the lock of the target bucket followed by one
release of it: the global lock is not acquired, and no lock of another bucket is. -/
theorem bget_fast_path (NBUF : Nat) (c : bcache) (pid dev blockno ticks b : Nat)
    (hfound : lookup c dev blockno NBUF (c.buckets (get_key dev blockno)).head = some (some b)) :
    (bget NBUF c pid dev blockno ticks).locks =
      [.acq (.bkt (get_key dev blockno)), .rel (.bkt (get_key dev blockno))] ∧
    lock_ev.acq .global ∉ (bget NBUF c pid dev blockno ticks).locks ∧
    (∀ k, k ≠ get_key dev blockno →
      lock_ev.acq (.bkt k) ∉ (bget NBUF c pid dev blockno ticks).locks) ∧
    ((bget NBUF c pid dev blockno ticks).st = .ret b ∨
      (bget NBUF c pid dev blockno ticks).st = .sleeps b) := by
  have he : bget NBUF c pid dev blockno ticks =
      hit c pid ticks b [.acq (.bkt (get_key dev blockno)), .rel (.bkt (get_key dev blockno))] := by
    unfold bget
    simp only [hfound]
  rw [he, hit_locks]
  refine ⟨rfl, by simp, ?_, hit_st c pid ticks b _⟩
  intro k hk
  simp [hk]

theorem bget_fast_path_witness :
    (bget 2 (boot 2) 7 0 0 5).locks = [.acq (.bkt (get_key 0 0)), .rel (.bkt (get_key 0 0))] ∧
    lock_ev.acq .global ∉ (bget 2 (boot 2) 7 0 0 5).locks ∧
    (∀ k, k ≠ get_key 0 0 → lock_ev.acq (.bkt k) ∉ (bget 2 (boot 2) 7 0 0 5).locks) ∧
    ((bget 2 (boot 2) 7 0 0 5).st = .ret 0 ∨ (bget 2 (boot 2) 7 0 0 5).st = .sleeps 0) :=
  bget_fast_path 2 (boot 2) 7 0 0 5 0 (by decide)

/-- C18, as stated, fails for `bread`.  With two slots, right after `binit`, the steps of
`bread(1, 1)` are those of `bget(1, 1)` followed by the store `b->valid = 1` into slot 0; at
that store `bget` has released every spinlock, so the caller holds neither the global lock nor
any bucket lock. -/
theorem bread_sets_valid_unlocked :
    bread_log 2 (boot_machine 2 (fun _ _ => 0)) 7 1 1 0 =
      bget_log 2 (boot 2) 1 1 ++ [.write 0 .valid] ∧
    held_after [] (lock_part (bget_log 2 (boot 2) 1 1)) = [] ∧
    ¬ writes_guarded (boot 2) (bread_log 2 (boot_machine 2 (fun _ _ => 0)) 7 1 1 0) := by
  have h1 : bread_log 2 (boot_machine 2 (fun _ _ => 0)) 7 1 1 0 =
      bget_log 2 (boot 2) 1 1 ++ [.write 0 .valid] := by decide
  have h2 : held_after [] (lock_part (bget_log 2 (boot 2) 1 1)) = [] := by decide
  refine ⟨h1, h2, ?_⟩
  intro h
  have h3 := h (bget_log 2 (boot 2) 1 1) 0 .valid ⟨[], by rw [h1, List.append_nil]⟩
  rw [h2] at h3
  simp at h3

/-- C18, amended.  Every store that `bget`, `brelse`, `bpin` or `bunpin` makes into a field of
a slot (identity, validity flag, reference count, and `last_use` as well) happens while the
caller holds the global lock or the lock of the bucket of that slot; the spinlock operations in
the steps of `bget` are the spinlock trace of `bget`.  The steps of `bread` are those of `bget`,
followed, when `bget` returned a slot `n` that was not valid, by the one store `n->valid = 1`;
at that store no spinlock is held, and the caller holds the content lock of `n`. -/
theorem writes_under_locks (NBUF : Nat) (m : machine) (pid dev blockno ticks b : Nat) :
    writes_guarded m.cache (bget_log NBUF m.cache dev blockno) ∧
    writes_guarded m.cache (brelse_log m.cache pid b) ∧
    writes_guarded m.cache (bpin_log m.cache b) ∧
    writes_guarded m.cache (bunpin_log m.cache b) ∧
    lock_part (bget_log NBUF m.cache dev blockno) =
      (bget NBUF m.cache pid dev blockno ticks).locks ∧
    (bread_log NBUF m pid dev blockno ticks = bget_log NBUF m.cache dev blockno ∨
      ∃ n, bread_log NBUF m pid dev blockno ticks =
          bget_log NBUF m.cache dev blockno ++ [.write n .valid] ∧
        (bget NBUF m.cache pid dev blockno ticks).st = .ret n ∧
        ((bget NBUF m.cache pid dev blockno ticks).cache.buf n).valid = 0 ∧
        ((bget NBUF m.cache pid dev blockno ticks).cache.buf n).lock = some pid ∧
        held_after [] (lock_part (bget_log NBUF m.cache dev blockno)) = []) := by
  refine ⟨guarded_writes _ _ (bget_log_guarded NBUF m.cache dev blockno),
    guarded_writes _ _ (brelse_log_guarded m.cache pid b),
    guarded_writes _ _ (bpin_log_guarded m.cache b),
    guarded_writes _ _ (bunpin_log_guarded m.cache b),
    bget_log_locks NBUF m.cache pid dev blockno ticks, ?_⟩
  unfold bread_log
  cases hst : (bget NBUF m.cache pid dev blockno ticks).st with
  | ret n =>
    simp only
    by_cases hv : ((bget NBUF m.cache pid dev blockno ticks).cache.buf n).valid = 0
    · right
      refine ⟨n, by rw [if_pos hv], rfl, hv,
        (bget_ret_locked NBUF m.cache pid dev blockno ticks n hst).1, ?_⟩
      rw [bget_log_locks NBUF m.cache pid dev blockno ticks]
      exact (bget_trace NBUF m.cache pid dev blockno ticks).2.2 n (Or.inl hst)
    · left
      rw [if_neg hv, List.append_nil]
  | done => left; simp
  | sleeps n => left; simp
  | panic f => left; simp
  | hang => left; simp

theorem writes_under_locks_witness :
    writes_guarded (boot 2) (bget_log 2 (boot 2) 1 1) ∧
    writes_guarded (boot 2) (brelse_log (boot 2) 7 0) ∧
    writes_guarded (boot 2) (bpin_log (boot 2) 0) ∧
    writes_guarded (boot 2) (bunpin_log (boot 2) 0) ∧
    lock_part (bget_log 2 (boot 2) 1 1) = (bget 2 (boot 2) 7 1 1 0).locks ∧
    (bread_log 2 (boot_machine 2 (fun _ _ => 0)) 7 1 1 0 = bget_log 2 (boot 2) 1 1 ∨
      ∃ n, bread_log 2 (boot_machine 2 (fun _ _ => 0)) 7 1 1 0 =
          bget_log 2 (boot 2) 1 1 ++ [.write n .valid] ∧
        (bget 2 (boot 2) 7 1 1 0).st = .ret n ∧
        ((bget 2 (boot 2) 7 1 1 0).cache.buf n).valid = 0 ∧
        ((bget 2 (boot 2) 7 1 1 0).cache.buf n).lock = some 7 ∧
        held_after [] (lock_part (bget_log 2 (boot 2) 1 1)) = []) :=
  writes_under_locks 2 (boot_machine 2 (fun _ _ => 0)) 7 1 1 0 0

/-- C19. At every point of an execution of `bget`, in any cache and for any request, the caller
holds at most two bucket locks: after each initial part `pre` of the spinlock operations of the
call, at most two of the spinlocks held are bucket locks.  In a well-formed cache the call does
not hang in a loop, so these are all the spinlock operations of the call. -/
theorem bget_two_bucket_locks (NBUF : Nat) (c : bcache) (pid dev blockno ticks : Nat) :
    (∀ pre, pre <+: (bget NBUF c pid dev blockno ticks).locks →
      bucket_locks (held_after [] pre) ≤ 2) ∧
    (WF NBUF c → (bget NBUF c pid dev blockno ticks).st ≠ .hang) := by
  refine ⟨?_, ?_⟩
  · intro pre hp
    exact at_most_prefix 2 _ (bget_trace NBUF c pid dev blockno ticks).2.1 pre hp
  · rintro ⟨L, h⟩ hh
    rcases bget_ends h pid dev blockno ticks with ⟨b, hb | hb⟩ | hb <;>
      rw [hh] at hb <;> cases hb

theorem bget_two_bucket_locks_witness :
    [lock_ev.acq (.bkt 10), .rel (.bkt 10), .acq .global, .acq (.bkt 0), .acq (.bkt 1)] <+:
      (bget 3 (boot 3) 7 1 1 0).locks ∧
    bucket_locks (held_after []
      [lock_ev.acq (.bkt 10), .rel (.bkt 10), .acq .global, .acq (.bkt 0), .acq (.bkt 1)]) ≤ 2 ∧
    WF 3 (boot 3) ∧ (bget 3 (boot 3) 7 1 1 0).st ≠ .hang :=
  ⟨by decide,
   (bget_two_bucket_locks 3 (boot 3) 7 1 1 0).1 _ (by decide),
   ⟨boot_lists 3, by decide⟩,
   (bget_two_bucket_locks 3 (boot 3) 7 1 1 0).2 ⟨boot_lists 3, by decide⟩⟩

/-- C20. Entered with no spinlock held, in any cache (well formed or not), `bget` never
acquires a spinlock that it holds (the acquire after each initial part `pre` of its spinlock
operations is of a lock not held then), releases only spinlocks that it holds, and when it
returns a slot (after a hit in the first scan, a hit in the re-check, or an eviction with the
victim in the target bucket or in another one), or sleeps on the content lock of one, the set
of spinlocks held is empty. -/
theorem bget_lock_discipline (NBUF : Nat) (c : bcache) (pid dev blockno ticks : Nat) :
    (∀ pre l, pre ++ [.acq l] <+: (bget NBUF c pid dev blockno ticks).locks →
      l ∉ held_after [] pre) ∧
    (∀ pre l, pre ++ [.rel l] <+: (bget NBUF c pid dev blockno ticks).locks →
      l ∈ held_after [] pre) ∧
    (∀ b, (bget NBUF c pid dev blockno ticks).st = .ret b ∨
        (bget NBUF c pid dev blockno ticks).st = .sleeps b →
      held_after [] (bget NBUF c pid dev blockno ticks).locks = []) := by
  obtain ⟨h1, _, h3⟩ := bget_trace NBUF c pid dev blockno ticks
  exact ⟨fun pre l hp => proper_acq _ h1 pre l hp, fun pre l hp => proper_rel _ h1 pre l hp, h3⟩

theorem bget_lock_discipline_witness :
    ([lock_ev.acq (.bkt 10), .rel (.bkt 10), .acq .global] ++ [.acq (.bkt 0)] <+:
        (bget 3 (boot 3) 7 1 1 0).locks ∧
      lockid.bkt 0 ∉ held_after [] [lock_ev.acq (.bkt 10), .rel (.bkt 10), .acq .global]) ∧
    ([lock_ev.acq (.bkt 10)] ++ [.rel (.bkt 10)] <+: (bget 3 (boot 3) 7 1 1 0).locks ∧
      lockid.bkt 10 ∈ held_after [] [lock_ev.acq (.bkt 10)]) ∧
    ((bget 3 (boot 3) 7 1 1 0).st = .ret 0 ∧
      held_after [] (bget 3 (boot 3) 7 1 1 0).locks = []) :=
  ⟨⟨by decide, (bget_lock_discipline 3 (boot 3) 7 1 1 0).1 _ _ (by decide)⟩,
   ⟨by decide, (bget_lock_discipline 3 (boot 3) 7 1 1 0).2.1 _ _ (by decide)⟩,
   ⟨by decide, (bget_lock_discipline 3 (boot 3) 7 1 1 0).2.2 0 (Or.inl (by decide))⟩⟩

end Bio
